import Mathlib

/-!
# Walker: routing, scoring and aggregation of launcher entries

A shallow embedding of `src/ui/handler.go` (`Handler.handle`, `sortEntries`) and of the
query pipeline of `src/ui/interactions.go` (`processAsync`, `setInitials`, `usageModifier`,
`fuzzyScore`).

Conventions of the embedding.

* A Go `string` is its byte sequence (`GoString`); `goString` gives the UTF-8 bytes of a text.
* A finite `float64` value is the rational it stands for; infinities and NaN are outside the
  model. `fuzzyScore` is the score in exact arithmetic, for the properties on which rounding
  does not bear; `fuzzyScoreRounded` is the score with every float64 operation rounded, and
  `roundFloat64` is the rounding of IEEE 754 binary64.
* Go `int` is a 64-bit two's complement integer; `wrapInt` is the wrap-around of its arithmetic.
* `time.Time` is the signed distance of the instant from the zero time, so `IsZero` is `= 0`.
* Go maps are association lists, listed in the order in which a `range` loop visits them.
* `util.FuzzyScore`, the window counter of the Hyprland module and the providers' `Entries`
  are not part of these sources; they are parameters of the definitions that call them.
* `slices.SortFunc` is the pattern-defeating quicksort of the Go standard library
  (`pdqsortCmpFunc` with its insertion sort, heap sort and partitions), on lists and indices.
-/

namespace Walker

/-! ## Strings, integers, times -/

/-- A Go string: a sequence of bytes. -/
abbrev GoString := List Nat

/-- UTF-8 encoding of one code point (`utf8.AppendRune` on a valid rune). -/
def utf8EncodeRune (v : Nat) : List Nat :=
  if v ≤ 0x7f then [v]
  else if v ≤ 0x7ff then [0xc0 + v / 64, 0x80 + v % 64]
  else if v ≤ 0xffff then [0xe0 + v / 4096, 0x80 + v / 64 % 64, 0x80 + v % 64]
  else [0xf0 + v / 262144, 0x80 + v / 4096 % 64, 0x80 + v / 64 % 64, 0x80 + v % 64]

/-- The Go string holding the text `s`: the UTF-8 bytes of its characters. -/
def goString (s : String) : GoString :=
  s.data.flatMap (fun c => utf8EncodeRune c.toNat)

/-- Result of Go `int` arithmetic: the 64-bit two's complement value of `x`. -/
def wrapInt (x : Int) : Int :=
  (x + 2 ^ 63) % 2 ^ 64 - 2 ^ 63

/-- A `time.Time`: the offset of the instant from the zero time. -/
abbrev Time := Int

/-- `Time.Compare`: -1 when `t` is before `u`, +1 when after, 0 when equal. -/
def timeCompare (t u : Time) : Int :=
  if t < u then -1 else if u < t then 1 else 0

/-- `strings.Compare`: lexicographic comparison of the bytes. -/
def stringsCompare : GoString → GoString → Int
  | [], [] => 0
  | [], _ :: _ => -1
  | _ :: _, [] => 1
  | x :: xs, y :: ys => if x < y then -1 else if y < x then 1 else stringsCompare xs ys

/-- `strings.HasPrefix(s, pre)`: `s` begins with `pre`. -/
def HasPrefix (s pre : GoString) : Bool :=
  pre.isPrefixOf s

/-- `strings.TrimPrefix(s, pre)`: `s` without the leading `pre`, or `s` when it does not start
with `pre`. -/
def TrimPrefix (s pre : GoString) : GoString :=
  if HasPrefix s pre then s.drop pre.length else s

/-- Width in bytes of the white space rune (`unicode.IsSpace`) that starts `s`; 0 when `s` does
not start with white space. -/
def spaceWidth (s : GoString) : Nat :=
  match s with
  | [] => 0
  | b0 :: rest =>
    if b0 = 0x20 ∨ (0x09 ≤ b0 ∧ b0 ≤ 0x0d) then 1
    else
      match rest with
      | [] => 0
      | b1 :: rest2 =>
        if b0 = 0xc2 ∧ (b1 = 0x85 ∨ b1 = 0xa0) then 2
        else
          match rest2 with
          | [] => 0
          | b2 :: _ =>
            if (b0 = 0xe1 ∧ b1 = 0x9a ∧ b2 = 0x80)
                ∨ (b0 = 0xe2 ∧ b1 = 0x80 ∧ ((0x80 ≤ b2 ∧ b2 ≤ 0x8a) ∨ b2 = 0xa8 ∨ b2 = 0xa9 ∨ b2 = 0xaf))
                ∨ (b0 = 0xe2 ∧ b1 = 0x81 ∧ b2 = 0x9f)
                ∨ (b0 = 0xe3 ∧ b1 = 0x80 ∧ b2 = 0x80) then 3
            else 0

/-- Close the field being read, if any. -/
def flushField (cur : Option GoString) : List GoString :=
  match cur with
  | some f => [f.reverse]
  | none => []

/-- Scanner of `strings.Fields`: `skip` counts the remaining bytes of a white space rune,
`cur` is the field being read (reversed). -/
def fieldsAux : GoString → Nat → Option GoString → List GoString
  | [], _, cur => flushField cur
  | _ :: rest, skip + 1, cur => fieldsAux rest skip cur
  | b :: rest, 0, cur =>
    if spaceWidth (b :: rest) = 0 then fieldsAux rest 0 (some (b :: cur.getD []))
    else flushField cur ++ fieldsAux rest (spaceWidth (b :: rest) - 1) none

/-- `strings.Fields`: the maximal runs of bytes of `s` without white space. -/
def Fields (s : GoString) : List GoString :=
  fieldsAux s 0 none

/-! ## Data model -/

/-- Modelled from the spec: the declaration of the matching policy `modules.MatchingType` is
absent from the sources; the spec gives the enumeration `{Fuzzy, AlwaysTop, AlwaysBottom}`, and
`other` stands for any value that is none of the three constants (the `default` branch of the
switch in `processAsync`). -/
inductive MatchingType where
  | Fuzzy
  | AlwaysTop
  | AlwaysBottom
  | other (v : Nat)
deriving DecidableEq, Repr

/-- Modelled from the spec: the declaration of `modules.Entry` is absent from the sources. The
fields are those the pipeline reads or writes, under the names the code uses; `Identifier` is
the value of the method `Identifier()`, which the spec's data model lists as the attribute
`identifier: string`, a stable key for history lookups. -/
structure Entry where
  Label : GoString
  Sub : GoString
  Searchable : GoString
  Categories : List GoString
  Matching : MatchingType
  Identifier : GoString
  ScoreFinal : ℚ
  ScoreFuzzy : ℚ
  Used : Int
  DaysSinceUsed : Int
  LastUsed : Time
  OpenWindows : Int
  RecalculateScore : Bool
  MatchFields : Int
  DragDrop : Bool
  InitialClass : GoString
deriving DecidableEq

/-- Modelled from the spec: a usage record of the history, `{usageCount, lastUsedAt,
daysSinceLastUse}`, under the field names the code reads (`Used`, `DaysSinceUsed`, `LastUsed`);
the declaration in the package `history` is absent from the sources. -/
structure HistoryEntry where
  Used : Int
  DaysSinceUsed : Int
  LastUsed : Time
deriving DecidableEq

/-- Modelled from the spec: the history `hstry`, a map from keys (the query texts under which
uses were saved) to maps from entry identifiers to usage records, as `fuzzyScore` and
`setInitials` range over it; its declaration is absent from the sources. -/
abbrev History := List (GoString × List (GoString × HistoryEntry))

/-- The configuration flags read by the pipeline: `cfg.Hyprland.ContextAwareHistory` and
`cfg.IsService`. -/
structure Config where
  ContextAwareHistory : Bool
  IsService : Bool
deriving DecidableEq

/-- Modelled from the spec: a provider (`modules.Workable`, declared outside these sources) with
the capability contract `name`, `prefix`, `switcherExclusive`, `entries(queryText)`. -/
structure Workable where
  Name : GoString
  Prefix : GoString
  SwitcherExclusive : Bool
  Entries : GoString → List Entry

/-- The provider registry `procs`: the providers registered under each prefix. -/
abbrev Procs := List (GoString × List Workable)

/-! ## Scoring (`interactions.go`) -/

/-- The usage score `usageModifier`. -/
def usageModifier (item : Entry) : Int :=
  if item.Used > 0 then
    wrapInt ((if item.DaysSinceUsed > 0 then wrapInt (10 - item.DaysSinceUsed) else 10) * item.Used)
  else 0

/-- The body of the history loops of `fuzzyScore` and `setInitials`: take over the record `val`
when the entry has no last use or `val` is more recent. -/
def takeRecord (entry : Entry) (val : HistoryEntry) : Entry :=
  if entry.LastUsed = 0 ∨ val.LastUsed > entry.LastUsed then
    { entry with Used := val.Used, DaysSinceUsed := val.DaysSinceUsed, LastUsed := val.LastUsed }
  else entry

/-- One iteration of `for k, v := range hstry` in `fuzzyScore`. -/
def mergeStep (text : GoString) (entry : Entry)
    (kv : GoString × List (GoString × HistoryEntry)) : Entry :=
  if HasPrefix kv.1 text then
    match kv.2.lookup entry.Identifier with
    | some val => takeRecord entry val
    | none => entry
  else entry

/-- The history loop of `fuzzyScore`. -/
def mergeHistory (hstry : History) (text : GoString) (entry : Entry) : Entry :=
  hstry.foldl (mergeStep text) entry

/-- The records of the identifier `id` stored under the keys of the history that start with
the query `text`, in iteration order. -/
def relevantRecords (hstry : History) (text id : GoString) : List HistoryEntry :=
  hstry.filterMap (fun kv => if HasPrefix kv.1 text then kv.2.lookup id else none)

/-- What the history merge reads and writes of an entry. -/
def usageKey (e : Entry) : GoString × Int × Int × Time :=
  (e.Identifier, e.Used, e.DaysSinceUsed, e.LastUsed)

/-- The strings matched against the query, by descending priority. -/
def matchables (entry : Entry) : List GoString :=
  [entry.Label, entry.Sub, entry.Searchable] ++ entry.Categories

/-- One iteration of `for k, t := range matchables`; the state is `(multiplier, entry.ScoreFuzzy)`. -/
def matchStep (FuzzyScore : GoString → GoString → ℚ) (text : GoString) (st : Nat × ℚ)
    (kt : Nat × GoString) : Nat × ℚ :=
  if kt.2 = [] then st
  else if FuzzyScore text kt.2 = 0 then st
  else if FuzzyScore text kt.2 > st.2 then (kt.1, FuzzyScore text kt.2)
  else st

/-- The loop over the matchables: the final `(multiplier, entry.ScoreFuzzy)`. -/
def bestMatch (FuzzyScore : GoString → GoString → ℚ) (text : GoString) (entry : Entry) : Nat × ℚ :=
  (matchables entry).enum.foldl (matchStep FuzzyScore text) (0, entry.ScoreFuzzy)

/-- The field-depth factor `m` of `fuzzyScore`: `1 - modifier * multiplier`, at least `0.7`. -/
def depthFactor (multiplier : Nat) : ℚ :=
  if 1 - (1 / 10 : ℚ) * multiplier < 7 / 10 then 7 / 10 else 1 - (1 / 10 : ℚ) * multiplier

/-- The assignment `entry.OpenWindows = hyprland.GetWindowAmount(entry.InitialClass)` of
`fuzzyScore`, done when `hyprland` is set. -/
def withWindows (hyprland : Option (GoString → Int)) (entry : Entry) : Entry :=
  match hyprland with
  | some GetWindowAmount => { entry with OpenWindows := GetWindowAmount entry.InitialClass }
  | none => entry

/-- The function `fuzzyScore` with its by-value parameter made visible: the returned score and
the final value of the local copy `entry`. `hyprland` is the window counter when it is set. -/
def fuzzyScoreLocal (FuzzyScore : GoString → GoString → ℚ) (hstry : History) (entry : Entry)
    (text : GoString) (hyprland : Option (GoString → Int)) : ℚ × Entry :=
  if text.length = 0 then (1, entry)
  else
    let entry1 := withWindows hyprland entry
    let best := bestMatch FuzzyScore text entry1
    let entry2 : Entry := { entry1 with ScoreFuzzy := best.2 }
    if entry2.ScoreFuzzy = 0 then (0, entry2)
    else
      let entry3 : Entry := { entry2 with ScoreFuzzy := entry2.ScoreFuzzy * depthFactor best.1 }
      let entry4 := mergeHistory hstry text entry3
      let tm : ℚ := 1 / (text.length : ℚ)
      ((usageModifier entry4 : ℚ) * tm + entry4.ScoreFuzzy / tm, entry4)

/-- The score returned by `fuzzyScore`. -/
def fuzzyScore (FuzzyScore : GoString → GoString → ℚ) (hstry : History) (entry : Entry)
    (text : GoString) (hyprland : Option (GoString → Int)) : ℚ :=
  (fuzzyScoreLocal FuzzyScore hstry entry text hyprland).1

/-- The text an entry is matched against in a provider task: the first field of the query
when the entry sets `MatchFields`, the query otherwise. -/
def toMatch (e : Entry) (text : GoString) : GoString :=
  if e.MatchFields > 0 then
    match Fields text with
    | [] => text
    | f :: _ => f
  else text

/-- The reset asked for by `RecalculateScore`. -/
def resetScore (e : Entry) : Entry :=
  if e.RecalculateScore then { e with ScoreFinal := 0, ScoreFuzzy := 0 } else e

/-- The scoring of one entry `e[k]` in a provider task of `processAsync`. -/
def scoreEntry (FuzzyScore : GoString → GoString → ℚ) (hstry : History)
    (hyprland : Option (GoString → Int)) (text : GoString) (e : Entry) : Entry :=
  let e1 := resetScore e
  if e1.ScoreFinal = 0 then
    match e1.Matching with
    | MatchingType.Fuzzy =>
      { e1 with ScoreFinal := fuzzyScore FuzzyScore hstry e1 (toMatch e text) hyprland }
    | MatchingType.AlwaysTop => if e1.ScoreFinal = 0 then { e1 with ScoreFinal := 1000 } else e1
    | MatchingType.AlwaysBottom => if e1.ScoreFinal = 0 then { e1 with ScoreFinal := 1 } else e1
    | MatchingType.other _ => { e1 with ScoreFinal := 0 }
  else e1

/-- The loop of a provider task over the entries `e` of its provider: the batch `toPush`. -/
def pushLoop (FuzzyScore : GoString → GoString → ℚ) (hstry : History)
    (hyprland : Option (GoString → Int)) (text : GoString) (e : List Entry) : List Entry :=
  e.foldl
    (fun toPush ek =>
      if (scoreEntry FuzzyScore hstry hyprland text ek).ScoreFinal ≠ 0 then
        toPush ++ [scoreEntry FuzzyScore hstry hyprland text ek]
      else toPush)
    []

/-- The batch a provider task sends to the handler for the provider `w`. -/
def providerTask (FuzzyScore : GoString → GoString → ℚ) (hstry : History)
    (hyprland : Option (GoString → Int)) (text : GoString) (w : Workable) : List Entry :=
  pushLoop FuzzyScore hstry hyprland text (w.Entries text)

/-- The body of the per-entry loop of `setInitials`: merge every history key, then score by
usage. `hyprland` is the window counter in context-aware mode. -/
def initialEntry (hstry : History) (hyprland : Option (GoString → Int)) (entry : Entry) : Entry :=
  let merged := hstry.foldl
    (fun en v =>
      match v.2.lookup en.Identifier with
      | some val => takeRecord en val
      | none => en)
    entry
  let scored : Entry := { merged with ScoreFinal := (usageModifier merged : ℚ) }
  match hyprland with
  | some GetWindowAmount => { scored with OpenWindows := GetWindowAmount scored.InitialClass }
  | none => scored

/-! ## The float64 arithmetic of `fuzzyScore`

A finite float64 value is the rational it stands for. An operation of float64 arithmetic gives
the float64 nearest to its exact result, the one with the even significand of two that are
equally near (IEEE 754 binary64, the format of Go's `float64`): `roundFloat64` is that
rounding. Results beyond the range of float64, which the machine gives as infinities, are
outside the model, and so is the fusing of a product and a sum into one operation, which the
Go specification leaves to the compiler. -/

/-- The index of the highest bit of `n` (0 for `n < 2`); the counter bounds the halvings. -/
def highBit : Nat → Nat → Nat
  | 0, _ => 0
  | fuel + 1, n => if n ≥ 2 then highBit fuel (n / 2) + 1 else 0

/-- The binary exponent `e` of a positive rational `n / d`: `2 ^ e ≤ n / d < 2 ^ (e + 1)`. -/
def binaryExponent (n d : Nat) : Int :=
  if (highBit n n : Int) - (highBit d d : Int) ≥ 0 then
    if n < d * 2 ^ (highBit n n - highBit d d) then (highBit n n : Int) - (highBit d d : Int) - 1
    else (highBit n n : Int) - (highBit d d : Int)
  else
    if n * 2 ^ (highBit d d - highBit n n) < d then (highBit n n : Int) - (highBit d d : Int) - 1
    else (highBit n n : Int) - (highBit d d : Int)

/-- The integer nearest to `n / d`, the even one of two that are equally near. -/
def roundHalfEven (n d : Nat) : Nat :=
  if 2 * (n % d) < d then n / d
  else if 2 * (n % d) > d then n / d + 1
  else if n / d % 2 = 0 then n / d
  else n / d + 1

/-- The float64 nearest to a positive rational `n / d`: a multiple of `2 ^ (e - 52)` for the
binary exponent `e` of `n / d`, or for `e = -1022` when `n / d` is below `2 ^ (-1022)`. -/
def roundPos (n d : Nat) : ℚ :=
  if 52 - max (binaryExponent n d) (-1022) ≥ 0 then
    (roundHalfEven (n * 2 ^ (52 - max (binaryExponent n d) (-1022)).toNat) d : ℚ)
      / (2 ^ (52 - max (binaryExponent n d) (-1022)).toNat : ℚ)
  else
    (roundHalfEven n (d * 2 ^ (max (binaryExponent n d) (-1022) - 52).toNat) : ℚ)
      * (2 ^ (max (binaryExponent n d) (-1022) - 52).toNat : ℚ)

/-- The float64 nearest to a rational: the rounding of float64 arithmetic. -/
def roundFloat64 (q : ℚ) : ℚ :=
  if q = 0 then 0
  else if q < 0 then - roundPos q.num.natAbs q.den
  else roundPos q.num.natAbs q.den

/-- The factor `m` of `fuzzyScore` in float64 arithmetic with the rounding `rnd`:
`1 - modifier*float64(multiplier)` for the constant `modifier = 0.10`, and `0.7` when that is
below `0.7`. -/
def depthFactorRounded (rnd : ℚ → ℚ) (multiplier : Nat) : ℚ :=
  if rnd (1 - rnd (rnd (1 / 10) * rnd (multiplier : ℚ))) < rnd (7 / 10) then rnd (7 / 10)
  else rnd (1 - rnd (rnd (1 / 10) * rnd (multiplier : ℚ)))

/-- The score returned by `fuzzyScore` in float64 arithmetic: every constant, conversion and
operation of the code gives its exact value rounded by `rnd`. With the identity for `rnd` this
is `fuzzyScore`, the reading in exact arithmetic. -/
def fuzzyScoreRounded (rnd : ℚ → ℚ) (FuzzyScore : GoString → GoString → ℚ) (hstry : History)
    (entry : Entry) (text : GoString) (hyprland : Option (GoString → Int)) : ℚ :=
  if text.length = 0 then 1
  else
    let entry1 := withWindows hyprland entry
    let best := bestMatch FuzzyScore text entry1
    let entry2 : Entry := { entry1 with ScoreFuzzy := best.2 }
    if entry2.ScoreFuzzy = 0 then 0
    else
      let m := depthFactorRounded rnd best.1
      let entry3 : Entry := { entry2 with ScoreFuzzy := rnd (entry2.ScoreFuzzy * m) }
      let entry4 := mergeHistory hstry text entry3
      let tm : ℚ := rnd (1 / rnd (text.length : ℚ))
      rnd (rnd (rnd (usageModifier entry4 : ℚ) * tm) + rnd (entry4.ScoreFuzzy / tm))

/-! ## Routing (`processAsync`) -/

/-- The registry `procs` built from providers registered under the prefixes (texts) of a
configuration. -/
def encodeProcs (reg : List (String × List Workable)) : Procs :=
  reg.map (fun kv => (goString kv.1, kv.2))

/-- The map read `procs[key]` with its presence flag. -/
def procsGet (procs : Procs) (key : GoString) : Option (List Workable) :=
  procs.lookup key

/-- The providers of every prefix whose name is in the allow-list, in iteration order. -/
def explicitProcs (procs : Procs) (explicitModules : List GoString) : List Workable :=
  procs.flatMap (fun kv => kv.2.filter (fun proc => explicitModules.contains proc.Name))

/-- The selection of providers and of the text passed to them in `processAsync`:
`text` is the trimmed query, `singleProc` the pinned provider, `explicitModules` the allow-list. -/
def selectProcs (procs : Procs) (singleProc : Option Workable) (explicitModules : List GoString)
    (text : GoString) : List Workable × GoString :=
  let pre : GoString := if text.length > 1 then text.take 1 else text
  let routed : List Workable × GoString :=
    match singleProc with
    | none =>
      match procsGet procs pre with
      | some p => (p, TrimPrefix text pre)
      | none => ((procsGet procs []).getD [], text)
    | some sp => ([sp], text)
  if explicitModules.length > 0 then (explicitProcs procs explicitModules, routed.2) else routed

/-- The variable `hyprland` of `processAsync`: the window counter, set in context-aware mode
when a provider named "hyprland" is among the routed ones. -/
def findHyprland (cfg : Config) (p : List Workable) (GetWindowAmount : GoString → Int) :
    Option (GoString → Int) :=
  if cfg.ContextAwareHistory && cfg.IsService then
    if p.any (fun v => v.Name == goString "hyprland") then some GetWindowAmount else none
  else none

/-! ## Aggregation (`handler.go`) -/

/-- The comparison function passed to `slices.SortFunc` in `sortEntries`. -/
def compareEntries (cfg : Config) (a b : Entry) : Int :=
  if a.Matching = MatchingType.AlwaysTop ∧ b.Matching ≠ MatchingType.AlwaysTop then -1
  else if b.Matching = MatchingType.AlwaysTop ∧ a.Matching ≠ MatchingType.AlwaysTop then 1
  else if a.Matching = MatchingType.AlwaysBottom ∧ b.Matching ≠ MatchingType.AlwaysBottom then 1
  else if b.Matching = MatchingType.AlwaysBottom ∧ a.Matching ≠ MatchingType.AlwaysBottom then -1
  else if (cfg.ContextAwareHistory && cfg.IsService) = true ∧ a.LastUsed ≠ 0 ∧ b.LastUsed ≠ 0
      ∧ a.OpenWindows > b.OpenWindows then 1
  else if (cfg.ContextAwareHistory && cfg.IsService) = true ∧ a.LastUsed ≠ 0 ∧ b.LastUsed ≠ 0
      ∧ a.OpenWindows < b.OpenWindows then -1
  else if a.ScoreFinal = b.ScoreFinal then
    if a.LastUsed ≠ 0 ∧ b.LastUsed ≠ 0 then timeCompare b.LastUsed a.LastUsed
    else stringsCompare a.Label b.Label
  else if a.ScoreFinal > b.ScoreFinal then -1
  else if a.ScoreFinal < b.ScoreFinal then 1
  else 0

/-- The class of an entry under the first four tests of the comparison: 0 for `AlwaysTop`,
2 for `AlwaysBottom`, 1 for every other policy. -/
def policyRank (e : Entry) : Nat :=
  match e.Matching with
  | MatchingType.AlwaysTop => 0
  | MatchingType.AlwaysBottom => 2
  | _ => 1

/-- Inner loop of `insertionSortCmpFunc`: the element `x = data[i]` moves left while it compares
below its left neighbour. The argument is the sorted part `data[a:i]` reversed, the result the
part `data[a:i+1]` reversed. -/
def insertLeft {α : Type} (cmp : α → α → Int) (x : α) : List α → List α
  | [] => [x]
  | y :: ys => if cmp x y < 0 then y :: insertLeft cmp x ys else x :: y :: ys

/-- The insertion sort `insertionSortCmpFunc` of the Go standard library, on the part of the
slice that it is to sort. -/
def insertionSortCmpFunc {α : Type} (cmp : α → α → Int) (data : List α) : List α :=
  (data.foldl (fun sortedRev x => insertLeft cmp x sortedRev) []).reverse

/-! ## `slices.SortFunc` (Go standard library, `slices/sort.go` and `slices/zsortanyfunc.go`)

The slice `data` is a list and the part `data[a:b]` is given by the indices `a` and `b`. The
loops of the library are recursive functions on a counter that bounds their iterations: the
counter of each loop is the distance its index has left to go, so it runs out only where the
loop of the library stops. An index out of the range of the slice leaves the slice unchanged. -/

/-- The assignment `data[i], data[j] = data[j], data[i]`. -/
def swapAt {α : Type} (data : List α) (i j : Nat) : List α :=
  match data[i]?, data[j]? with
  | some x, some y => (data.set i y).set j x
  | _, _ => data

/-- The test `cmp(data[i], data[j]) < 0`. -/
def lessAt {α : Type} (cmp : α → α → Int) (data : List α) (i j : Nat) : Bool :=
  match data[i]?, data[j]? with
  | some x, some y => decide (cmp x y < 0)
  | _, _ => false

/-- The insertion sort `insertionSortCmpFunc(data, a, b, cmp)` of the part `data[a:b]`: the
parts before `a` and from `b` stay, the part between them is sorted. -/
def insertionSortRange {α : Type} (cmp : α → α → Int) (data : List α) (a b : Nat) : List α :=
  data.take a ++ insertionSortCmpFunc cmp ((data.drop a).take (b - a)) ++ data.drop b

/-- The loop of `siftDownCmpFunc(data, lo, hi, first, cmp)` at the node `root`, which starts
as `lo`; the counter bounds the remaining iterations by the distance `hi - root`. -/
def siftDownCmpFunc {α : Type} (cmp : α → α → Int) (hi first : Nat) :
    Nat → List α → Nat → List α
  | 0, data, _ => data
  | fuel + 1, data, root =>
    if 2 * root + 1 ≥ hi then data
    else if 2 * root + 2 < hi
        ∧ lessAt cmp data (first + (2 * root + 1)) (first + (2 * root + 2)) = true then
      if lessAt cmp data (first + root) (first + (2 * root + 2)) = true then
        siftDownCmpFunc cmp hi first fuel (swapAt data (first + root) (first + (2 * root + 2)))
          (2 * root + 2)
      else data
    else if lessAt cmp data (first + root) (first + (2 * root + 1)) = true then
      siftDownCmpFunc cmp hi first fuel (swapAt data (first + root) (first + (2 * root + 1)))
        (2 * root + 1)
    else data

/-- The first loop of `heapSortCmpFunc`: `siftDownCmpFunc` at the nodes `i`, `i - 1`, ..., 0. -/
def heapBuild {α : Type} (cmp : α → α → Int) (hi first : Nat) : Nat → List α → List α
  | 0, data => siftDownCmpFunc cmp hi first hi data 0
  | i + 1, data => heapBuild cmp hi first i (siftDownCmpFunc cmp hi first hi data (i + 1))

/-- The second loop of `heapSortCmpFunc` with `i + 1` iterations left: the root is exchanged
with the last node `i` of the heap, which shrinks to `i` nodes. -/
def heapPop {α : Type} (cmp : α → α → Int) (first : Nat) : Nat → List α → List α
  | 0, data => data
  | i + 1, data =>
    heapPop cmp first i (siftDownCmpFunc cmp i first i (swapAt data first (first + i)) 0)

/-- The heap sort `heapSortCmpFunc(data, a, b, cmp)`. -/
def heapSortCmpFunc {α : Type} (cmp : α → α → Int) (data : List α) (a b : Nat) : List α :=
  heapPop cmp a (b - a) (heapBuild cmp (b - a) a ((b - a - 1) / 2) data)

/-- The number of bits of `n` (`bits.Len`). -/
def bitsLen (n : Nat) : Nat :=
  if n = 0 then 0 else Nat.log2 n + 1

/-- The pseudo-random generator `xorshift.Next` on 64-bit words: `r ^= r << 13`,
`r ^= r >> 7`, `r ^= r << 17`. -/
def xorshiftNext (r : Nat) : Nat :=
  let r1 := r ^^^ ((r <<< 13) % 2 ^ 64)
  let r2 := r1 ^^^ (r1 >>> 7)
  r2 ^^^ ((r2 <<< 17) % 2 ^ 64)

/-- The modulus `nextPowerOfTwo(length)`, that is `1 << bits.Len(length)`. -/
def nextPowerOfTwo (length : Nat) : Nat :=
  2 ^ bitsLen length

/-- The index `other` that `breakPatternsCmpFunc` draws from the random word `random`:
`random & (modulus - 1)`, less `length` when that is not below `length`. -/
def breakOther (random length : Nat) : Nat :=
  if random % nextPowerOfTwo length ≥ length then random % nextPowerOfTwo length - length
  else random % nextPowerOfTwo length

/-- The scattering `breakPatternsCmpFunc(data, a, b, cmp)`. -/
def breakPatternsCmpFunc {α : Type} (data : List α) (a b : Nat) : List α :=
  if b - a ≥ 8 then
    swapAt
      (swapAt
        (swapAt data (a + (b - a) / 4 * 2 - 1 - 1) (a + breakOther (xorshiftNext (b - a)) (b - a)))
        (a + (b - a) / 4 * 2 - 1)
        (a + breakOther (xorshiftNext (xorshiftNext (b - a))) (b - a)))
      (a + (b - a) / 4 * 2 - 1 + 1)
      (a + breakOther (xorshiftNext (xorshiftNext (xorshiftNext (b - a)))) (b - a))
  else data

/-- The hint returned by `choosePivotCmpFunc`. -/
inductive SortedHint where
  | unknownHint
  | increasingHint
  | decreasingHint
deriving DecidableEq

/-- The helper `order2CmpFunc`: the indices `a`, `b` in the order of their elements, and the
count of swaps. -/
def order2CmpFunc {α : Type} (cmp : α → α → Int) (data : List α) (a b swaps : Nat) :
    Nat × Nat × Nat :=
  if lessAt cmp data b a = true then (b, a, swaps + 1) else (a, b, swaps)

/-- The helper `medianCmpFunc`: the index of the middle one of `data[a]`, `data[b]`, `data[c]`,
and the count of swaps. -/
def medianCmpFunc {α : Type} (cmp : α → α → Int) (data : List α) (a b c swaps : Nat) :
    Nat × Nat :=
  let ab := order2CmpFunc cmp data a b swaps
  let bc := order2CmpFunc cmp data ab.2.1 c ab.2.2
  let ab2 := order2CmpFunc cmp data ab.1 bc.1 bc.2.2
  (ab2.2.1, ab2.2.2)

/-- The helper `medianAdjacentCmpFunc`. -/
def medianAdjacentCmpFunc {α : Type} (cmp : α → α → Int) (data : List α) (a swaps : Nat) :
    Nat × Nat :=
  medianCmpFunc cmp data (a - 1) a (a + 1) swaps

/-- The index `j` and the count `swaps` at the end of `choosePivotCmpFunc(data, a, b, cmp)`
(`shortestNinther` is 50). -/
def choosePivotIndex {α : Type} (cmp : α → α → Int) (data : List α) (a b : Nat) : Nat × Nat :=
  if b - a ≥ 8 then
    if b - a ≥ 50 then
      let i := medianAdjacentCmpFunc cmp data (a + (b - a) / 4 * 1) 0
      let j := medianAdjacentCmpFunc cmp data (a + (b - a) / 4 * 2) i.2
      let k := medianAdjacentCmpFunc cmp data (a + (b - a) / 4 * 3) j.2
      medianCmpFunc cmp data i.1 j.1 k.1 k.2
    else
      medianCmpFunc cmp data (a + (b - a) / 4 * 1) (a + (b - a) / 4 * 2) (a + (b - a) / 4 * 3) 0
  else (a + (b - a) / 4 * 2, 0)

/-- The hint of `choosePivotCmpFunc` for a count of swaps (`maxSwaps` is 12). -/
def hintOfSwaps (swaps : Nat) : SortedHint :=
  if swaps = 0 then SortedHint.increasingHint
  else if swaps = 12 then SortedHint.decreasingHint
  else SortedHint.unknownHint

/-- The function `choosePivotCmpFunc(data, a, b, cmp)`: the pivot index and the hint. -/
def choosePivotCmpFunc {α : Type} (cmp : α → α → Int) (data : List α) (a b : Nat) :
    Nat × SortedHint :=
  ((choosePivotIndex cmp data a b).1, hintOfSwaps (choosePivotIndex cmp data a b).2)

/-- The loop of `reverseRangeCmpFunc` at the indices `i` and `j`; the counter bounds the
iterations. -/
def reverseLoop {α : Type} : Nat → List α → Nat → Nat → List α
  | 0, data, _, _ => data
  | fuel + 1, data, i, j =>
    if i < j then reverseLoop fuel (swapAt data i j) (i + 1) (j - 1) else data

/-- The reversal `reverseRangeCmpFunc(data, a, b, cmp)`. -/
def reverseRangeCmpFunc {α : Type} (data : List α) (a b : Nat) : List α :=
  reverseLoop (b - a) data a (b - 1)

/-- The first inner loop of `partialInsertionSortCmpFunc`: `i` advances while `i < b` and
`data[i]` is not below `data[i-1]`; the counter is `b - i`. -/
def pisScan {α : Type} (cmp : α → α → Int) (data : List α) : Nat → Nat → Nat
  | 0, i => i
  | d + 1, i => if lessAt cmp data i (i - 1) = false then pisScan cmp data d (i + 1) else i

/-- The loop "shift the smaller one to the left" of `partialInsertionSortCmpFunc`, at `j`. -/
def shiftLeft {α : Type} (cmp : α → α → Int) : Nat → List α → List α
  | 0, data => data
  | j + 1, data =>
    if lessAt cmp data (j + 1) j = true then shiftLeft cmp j (swapAt data (j + 1) j) else data

/-- The loop "shift the greater one to the right" of `partialInsertionSortCmpFunc`, at `j`; the
counter is `b - j`. -/
def shiftRight {α : Type} (cmp : α → α → Int) : Nat → List α → Nat → List α
  | 0, data, _ => data
  | d + 1, data, j =>
    if lessAt cmp data j (j - 1) = true then shiftRight cmp d (swapAt data j (j - 1)) (j + 1)
    else data

/-- The body of the outer loop of `partialInsertionSortCmpFunc` after the tests, at the index
`i` where the scan stopped. -/
def pisShift {α : Type} (cmp : α → α → Int) (a b : Nat) (data : List α) (i : Nat) : List α :=
  let d1 := swapAt data i (i - 1)
  let d2 := if i - a ≥ 2 then shiftLeft cmp (i - 1) d1 else d1
  if b - i ≥ 2 then shiftRight cmp (b - (i + 1)) d2 (i + 1) else d2

/-- The outer loop of `partialInsertionSortCmpFunc`, with `steps` iterations left. -/
def pisLoop {α : Type} (cmp : α → α → Int) (a b : Nat) : Nat → List α → Nat → List α × Bool
  | 0, data, _ => (data, false)
  | steps + 1, data, i =>
    if pisScan cmp data (b - i) i = b then (data, true)
    else if b - a < 50 then (data, false)
    else
      pisLoop cmp a b steps (pisShift cmp a b data (pisScan cmp data (b - i) i))
        (pisScan cmp data (b - i) i)

/-- The partial sort `partialInsertionSortCmpFunc(data, a, b, cmp)`: the slice and whether it
is sorted at the end. -/
def partialInsertionSortCmpFunc {α : Type} (cmp : α → α → Int) (data : List α) (a b : Nat) :
    List α × Bool :=
  pisLoop cmp a b 5 data (a + 1)

/-- A loop `for i <= j && p(i) { i++ }`; the counter is `j + 1 - i`. -/
def scanUp (p : Nat → Bool) : Nat → Nat → Nat
  | 0, i => i
  | d + 1, i => if p i = true then scanUp p d (i + 1) else i

/-- A loop `for i <= j && !p(j) { j-- }`, at `j`; where it is used `i` is at least 1, so the
loop stops at `j = 0`. -/
def scanDown (p : Nat → Bool) (i : Nat) : Nat → Nat
  | 0 => 0
  | j + 1 => if i ≤ j + 1 ∧ p (j + 1) = false then scanDown p i j else j + 1

/-- The common loop of `partitionCmpFunc` and `partitionEqualCmpFunc`: `i` moves up while
`p(i)`, `j` moves down while not `p(j)`, and unless they have crossed the two elements are
exchanged. The result is the slice with the final `i` and `j`; the counter bounds the
iterations. -/
def hoareLoop {α : Type} (p : List α → Nat → Bool) :
    Nat → List α → Nat → Nat → List α × Nat × Nat
  | 0, data, i, j => (data, i, j)
  | fuel + 1, data, i, j =>
    if scanUp (p data) (j + 1 - i) i > scanDown (p data) (scanUp (p data) (j + 1 - i) i) j then
      (data, scanUp (p data) (j + 1 - i) i, scanDown (p data) (scanUp (p data) (j + 1 - i) i) j)
    else
      hoareLoop p fuel
        (swapAt data (scanUp (p data) (j + 1 - i) i)
          (scanDown (p data) (scanUp (p data) (j + 1 - i) i) j))
        (scanUp (p data) (j + 1 - i) i + 1)
        (scanDown (p data) (scanUp (p data) (j + 1 - i) i) j - 1)

/-- The function `partitionCmpFunc(data, a, b, pivot, cmp)`: the slice, the new index of the
pivot and whether the slice was already partitioned. The first round of the loop, which the
library writes out in order to return that flag, is the first iteration of `hoareLoop`. -/
def partitionCmpFunc {α : Type} (cmp : α → α → Int) (data : List α) (a b pivot : Nat) :
    List α × Nat × Bool :=
  let d0 := swapAt data a pivot
  let res := hoareLoop (fun d k => lessAt cmp d k a) (b - a) d0 (a + 1) (b - 1)
  (swapAt res.1 res.2.2 a, res.2.2,
    decide (scanUp (fun k => lessAt cmp d0 k a) (b - 1 + 1 - (a + 1)) (a + 1)
      > scanDown (fun k => lessAt cmp d0 k a)
          (scanUp (fun k => lessAt cmp d0 k a) (b - 1 + 1 - (a + 1)) (a + 1)) (b - 1)))

/-- The function `partitionEqualCmpFunc(data, a, b, pivot, cmp)`, which splits the part into
the elements equal to the pivot and those greater: the slice and the index where the greater
ones start. -/
def partitionEqualCmpFunc {α : Type} (cmp : α → α → Int) (data : List α) (a b pivot : Nat) :
    List α × Nat :=
  let d0 := swapAt data a pivot
  let res := hoareLoop (fun d k => !lessAt cmp d a k) (b - a) d0 (a + 1) (b - 1)
  (res.1, res.2.1)

/-- The function `pdqsortCmpFunc(data, a, b, limit, cmp)`, one iteration of its loop per call:
`wasBalanced` and `wasPartitioned` are its two flags, and the counter bounds the length of the
part `data[a:b]`, which shrinks with every iteration and every recursive call. -/
def pdqsortCmpFunc {α : Type} (cmp : α → α → Int) :
    Nat → List α → Nat → Nat → Nat → Bool → Bool → List α
  | 0, data, _, _, _, _, _ => data
  | fuel + 1, data, a, b, limit, wasBalanced, wasPartitioned =>
    if b - a ≤ 12 then insertionSortRange cmp data a b
    else if limit = 0 then heapSortCmpFunc cmp data a b
    else
      let data1 := if wasBalanced then data else breakPatternsCmpFunc data a b
      let limit1 := if wasBalanced then limit else limit - 1
      let choice := choosePivotCmpFunc cmp data1 a b
      let data2 :=
        if choice.2 = SortedHint.decreasingHint then reverseRangeCmpFunc data1 a b else data1
      let pivot :=
        if choice.2 = SortedHint.decreasingHint then b - 1 - (choice.1 - a) else choice.1
      let hint :=
        if choice.2 = SortedHint.decreasingHint then SortedHint.increasingHint else choice.2
      let attempt :=
        if wasBalanced && wasPartitioned && decide (hint = SortedHint.increasingHint) then
          partialInsertionSortCmpFunc cmp data2 a b
        else (data2, false)
      if attempt.2 then attempt.1
      else if a > 0 ∧ lessAt cmp attempt.1 (a - 1) pivot = false then
        pdqsortCmpFunc cmp fuel (partitionEqualCmpFunc cmp attempt.1 a b pivot).1
          (partitionEqualCmpFunc cmp attempt.1 a b pivot).2 b limit1 wasBalanced wasPartitioned
      else
        let parted := partitionCmpFunc cmp attempt.1 a b pivot
        if parted.2.1 - a < b - parted.2.1 then
          pdqsortCmpFunc cmp fuel
            (pdqsortCmpFunc cmp fuel parted.1 a parted.2.1 limit1 true true)
            (parted.2.1 + 1) b limit1 (decide (parted.2.1 - a ≥ (b - a) / 8)) parted.2.2
        else
          pdqsortCmpFunc cmp fuel
            (pdqsortCmpFunc cmp fuel parted.1 (parted.2.1 + 1) b limit1 true true)
            a parted.2.1 limit1 (decide (b - parted.2.1 ≥ (b - a) / 8)) parted.2.2

/-- The function `slices.SortFunc(x, cmp)`. -/
def SortFunc {α : Type} (cmp : α → α → Int) (x : List α) : List α :=
  pdqsortCmpFunc cmp x.length x 0 x.length (bitsLen x.length) true true

/-! ## What the sort leaves in place

The sort is proved against a rank `r` of the elements that the comparison respects; the
statements speak of the rank `rk r data k` at each index of the slice. -/

/-- The rank of the element at the index `k`, 0 beyond the end of the slice. -/
def rk {α : Type} (r : α → Nat) (data : List α) (k : Nat) : Nat :=
  match data[k]? with
  | some x => r x
  | none => 0

/-- The slice `out` has the length of `data`, the same ranks outside the part `[a, b)`, and in
that part only ranks that `data` has there. -/
def Within {α : Type} (r : α → Nat) (data out : List α) (a b : Nat) : Prop :=
  out.length = data.length
  ∧ (∀ k, k < a ∨ b ≤ k → rk r out k = rk r data k)
  ∧ ∀ k, a ≤ k → k < b → ∃ k1, a ≤ k1 ∧ k1 < b ∧ rk r out k = rk r data k1

/-- The ranks of the part `[a, b)` of the slice do not decrease. -/
def SortedRange {α : Type} (r : α → Nat) (data : List α) (a b : Nat) : Prop :=
  ∀ i j, a ≤ i → i < j → j < b → rk r data i ≤ rk r data j

/-- The heap order of `siftDownCmpFunc` in ranks, on the nodes below `hi` whose parent is at
least `lo`: the rank of a node is at most the rank of its parent. -/
def HeapFrom {α : Type} (r : α → Nat) (data : List α) (first lo hi : Nat) : Prop :=
  ∀ c, 1 ≤ c → c < hi → lo ≤ (c - 1) / 2 →
    rk r data (first + c) ≤ rk r data (first + (c - 1) / 2)

/-- Every element before the part `[a, b)` of the slice is at most every element of the part,
in ranks: the state in which `pdqsortCmpFunc` is called on the part. -/
def LeftBelow {α : Type} (r : α → Nat) (data : List α) (a b : Nat) : Prop :=
  ∀ k m, k < a → a ≤ m → m < b → rk r data k ≤ rk r data m

/-! ## Aggregation (`handler.go`), continued -/

/-- The slice after `sortEntries(entries)`, that is after
`slices.SortFunc(entries, compareEntries)`. -/
def sortEntries (cfg : Config) (entries : List Entry) : List Entry :=
  SortFunc (compareEntries cfg) entries

/-- The state of a `Handler` together with what it has published: `entries` is `h.entries`,
`published` the snapshots spliced into `ui.items`, oldest first. -/
structure Handler where
  entries : List Entry
  published : List (List Entry)

/-- The `case entries := <-h.receiver` branch of `Handler.handle` for the batch `batch`. -/
def Handler.receive (cfg : Config) (h : Handler) (batch : List Entry) : Handler :=
  if batch.length = 0 then h
  else
    let sorted := sortEntries cfg (h.entries ++ batch)
    if sorted.length > 0 then { entries := sorted, published := h.published ++ [sorted] }
    else { entries := sorted, published := h.published }

/-- The handler after receiving the batches of the list in turn. -/
def Handler.receiveAll (cfg : Config) (h : Handler) (batches : List (List Entry)) : Handler :=
  batches.foldl (Handler.receive cfg) h

/-- The handler as `processAsync` sets it up: no entries, nothing published. -/
def Handler.fresh : Handler :=
  { entries := [], published := [] }

/-- Successive snapshots: the later one is a permutation of the earlier one with a non-empty
batch appended, so it holds every entry of the earlier one. -/
def Grows (p q : List Entry) : Prop :=
  p.Subperm q ∧ ∃ batch : List Entry, batch ≠ [] ∧ q.Perm (p ++ batch)

/-- What every reachable handler satisfies: its publications grow and the last one, if any, is
its accumulated list. -/
def Handler.Coherent (h : Handler) : Prop :=
  List.Chain' Grows h.published ∧ ∀ p ∈ h.published.getLast?, p = h.entries

/-- An entry with every field zero, the Go zero value with policy `Fuzzy`. -/
def zeroEntry : Entry :=
  { Label := [], Sub := [], Searchable := [], Categories := [], Matching := MatchingType.Fuzzy,
    Identifier := [], ScoreFinal := 0, ScoreFuzzy := 0, Used := 0, DaysSinceUsed := 0,
    LastUsed := 0, OpenWindows := 0, RecalculateScore := false, MatchFields := 0,
    DragDrop := false, InitialClass := [] }

/-- An entry with the three non-empty fields "x", "y", "z", no categories and no usage. -/
def entryXYZ : Entry :=
  { zeroEntry with Label := goString "x", Sub := goString "y", Searchable := goString "z" }

/-- An entry with the label "firefox", the identifier "ff" and no usage. -/
def entryFirefox : Entry :=
  { zeroEntry with Label := goString "firefox", Identifier := goString "ff" }

/-- A usage record: 5 uses, the last one 2 days ago at the instant 100. -/
def recordFive : HistoryEntry :=
  { Used := 5, DaysSinceUsed := 2, LastUsed := 100 }

/-- A provider that answers every query with the entry "firefox". -/
def providerFirefox : Workable :=
  { Name := goString "applications", Prefix := [], SwitcherExclusive := false,
    Entries := fun _ => [entryFirefox] }

/-- A history with the record `recordFive` of the entry "firefox" under the key "fir". -/
def historyFir : History :=
  [(goString "fir", [(goString "ff", recordFive)])]

/-- A raw score function: 10 for every query and field. -/
def scoreTen : GoString → GoString → ℚ :=
  fun _ _ => 10

/-- A raw score function: -1 for every query and field. -/
def scoreMinusOne : GoString → GoString → ℚ :=
  fun _ _ => -1

/-- The tests of the comparison of `sortEntries` that follow the four policy tests. -/
def compareSameClass (cfg : Config) (a b : Entry) : Int :=
  if (cfg.ContextAwareHistory && cfg.IsService) = true ∧ a.LastUsed ≠ 0 ∧ b.LastUsed ≠ 0
      ∧ a.OpenWindows > b.OpenWindows then 1
  else if (cfg.ContextAwareHistory && cfg.IsService) = true ∧ a.LastUsed ≠ 0 ∧ b.LastUsed ≠ 0
      ∧ a.OpenWindows < b.OpenWindows then -1
  else if a.ScoreFinal = b.ScoreFinal then
    if a.LastUsed ≠ 0 ∧ b.LastUsed ≠ 0 then timeCompare b.LastUsed a.LastUsed
    else stringsCompare a.Label b.Label
  else if a.ScoreFinal > b.ScoreFinal then -1
  else if a.ScoreFinal < b.ScoreFinal then 1
  else 0

/-- An entry with the label "b", score 5, last used at the instant 100. -/
def entryUsedEarly : Entry :=
  { zeroEntry with Label := goString "b", ScoreFinal := 5, LastUsed := 100 }

/-- An entry with the label "c", score 5, never used. -/
def entryNeverUsed : Entry :=
  { zeroEntry with Label := goString "c", ScoreFinal := 5 }

/-- An entry with the label "d", score 5, last used at the instant 200. -/
def entryUsedLate : Entry :=
  { zeroEntry with Label := goString "d", ScoreFinal := 5, LastUsed := 200 }

/-- The configuration with context-aware history off. -/
def configPlain : Config :=
  { ContextAwareHistory := false, IsService := false }

/-- The configuration with context-aware history on, run as a service. -/
def configContext : Config :=
  { ContextAwareHistory := true, IsService := true }

/-- The test of the dispatch loop of `processAsync` that makes it skip the provider `proc`
(an empty batch is sent in its place): `proc` is switcher-exclusive, there is no allow-list,
and `proc` is not the pinned provider. -/
def skipsProc (singleProc : Option Workable) (hasExplicit : Bool) (proc : Workable) : Bool :=
  proc.SwitcherExclusive && !hasExplicit &&
    (match singleProc with
      | none => true
      | some sp => sp.Name != proc.Name)

/-- The provider tasks started by the dispatch loop of `processAsync`, in loop order: each
provider that is not skipped, with the text passed to its `Entries`. -/
def startedTasks (procs : Procs) (singleProc : Option Workable) (explicitModules : List GoString)
    (text : GoString) : List (Workable × GoString) :=
  ((selectProcs procs singleProc explicitModules text).1.filter
      (fun proc => !skipsProc singleProc (decide (explicitModules.length > 0)) proc)).map
    (fun proc => (proc, (selectProcs procs singleProc explicitModules text).2))

/-- The batches that one run of `processAsync` sends to the handler, listed in the order of the
dispatch loop: an empty batch for a skipped provider, the batch of its task otherwise. The
variable `hyprland` is set from the providers routed before the allow-list is applied. -/
def sentBatches (cfg : Config) (FuzzyScore : GoString → GoString → ℚ) (hstry : History)
    (GetWindowAmount : GoString → Int) (procs : Procs) (singleProc : Option Workable)
    (explicitModules : List GoString) (text : GoString) : List (List Entry) :=
  (selectProcs procs singleProc explicitModules text).1.map
    (fun proc =>
      if skipsProc singleProc (decide (explicitModules.length > 0)) proc then []
      else
        providerTask FuzzyScore hstry
          (findHyprland cfg (selectProcs procs singleProc [] text).1 GetWindowAmount)
          (selectProcs procs singleProc explicitModules text).2 proc)

/-- The case of the `select` statement of `Handler.handle` that an iteration of the loop takes:
a batch received from `h.receiver`, the closed `h.ctx.Done()`, or `default`. -/
inductive SelectCase where
  | receive (batch : List Entry)
  | done
  | default

/-- The goroutine running `Handler.handle`: the handler, whether its context `h.ctx` has been
cancelled, and whether the goroutine has returned. -/
structure Listener where
  handler : Handler
  cancelled : Bool
  returned : Bool

/-- The listener as `processAsync` starts it: a fresh handler, context not cancelled. -/
def Listener.start : Listener :=
  { handler := Handler.fresh, cancelled := false, returned := false }

/-- The call `cancel()` of `process` (or of `processAsync` on return): the context is done. -/
def Listener.cancel (s : Listener) : Listener :=
  { s with cancelled := true }

/-- One iteration of the loop of `Handler.handle` taking the case `c` of its `select`; `none`
when the goroutine has returned or the case cannot proceed: `done` needs a cancelled context,
`default` is taken only when no other case is ready, hence not once the context is cancelled.
A receive can proceed whenever a provider task is sending, cancelled or not. -/
def Listener.step (cfg : Config) (s : Listener) (c : SelectCase) : Option Listener :=
  if s.returned then none
  else
    match c with
    | SelectCase.receive batch => some { s with handler := Handler.receive cfg s.handler batch }
    | SelectCase.done => if s.cancelled then some { s with returned := true } else none
    | SelectCase.default => if s.cancelled then none else some s

/-- What happens to a listener: its context is cancelled, or its loop runs one iteration. -/
inductive Action where
  | cancel
  | iterate (c : SelectCase)

/-- The listener after the action `a`, `none` when the action cannot happen. -/
def Listener.act (cfg : Config) (s : Listener) (a : Action) : Option Listener :=
  match a with
  | Action.cancel => some (Listener.cancel s)
  | Action.iterate c => Listener.step cfg s c

/-- The listener after the actions of the list in turn, `none` when one of them cannot happen. -/
def Listener.run (cfg : Config) (s : Listener) : List Action → Option Listener
  | [] => some s
  | a :: rest =>
    match Listener.act cfg s a with
    | some s1 => Listener.run cfg s1 rest
    | none => none

/-- A provider named "runner", registered under no prefix here, that returns no entries. -/
def providerRunner : Workable :=
  { Name := goString "runner", Prefix := [], SwitcherExclusive := false, Entries := fun _ => [] }

end Walker

namespace Walker

/-! ## Integers -/

/-- Go `int` arithmetic is exact on results that fit in 64 bits. -/
theorem wrapInt_of_fits (x : Int) (hlo : -2 ^ 63 ≤ x) (hhi : x < 2 ^ 63) : wrapInt x = x := by
  unfold wrapInt
  norm_num at hlo hhi ⊢
  omega

/-! ## C2: the usage score -/

/-- C2 (as stated, refuted): an entry used twice, last 15 days ago, gets the usage score -10,
which is negative and differs from `usageCount × max(0, 10 − daysSinceLastUse) = 0`. -/
theorem usageModifier_negative_after_ten_days :
    usageModifier { zeroEntry with Used := 2, DaysSinceUsed := 15 } = -10
    ∧ usageModifier { zeroEntry with Used := 2, DaysSinceUsed := 15 }
        ≠ (2 : Int) * max 0 (10 - 15)
    ∧ usageModifier { zeroEntry with Used := 2, DaysSinceUsed := 15 } < 0 := by
  decide

/-- C2 (amended): for an entry whose fields are Go ints and whose product does not overflow,
`usageModifier` returns `usageCount × (10 − max(0, daysSinceLastUse))` when `usageCount > 0` and
0 otherwise, with no clamp at zero; whenever `0 ≤ daysSinceLastUse ≤ 10` this is
`usageCount × max(0, 10 − daysSinceLastUse)`, whenever `daysSinceLastUse ≤ 10` it is not
negative, and an entry with `usageCount = 5`, `daysSinceLastUse = 2` gets 40. -/
theorem usageModifier_amended (item : Entry)
    (hdays : item.DaysSinceUsed < 2 ^ 63)
    (hlo : -2 ^ 63 ≤ (10 - max 0 item.DaysSinceUsed) * item.Used)
    (hhi : (10 - max 0 item.DaysSinceUsed) * item.Used < 2 ^ 63) :
    usageModifier item
        = (if item.Used > 0 then item.Used * (10 - max 0 item.DaysSinceUsed) else 0)
    ∧ (0 ≤ item.DaysSinceUsed → item.DaysSinceUsed ≤ 10 →
        usageModifier item
          = (if item.Used > 0 then item.Used * max 0 (10 - item.DaysSinceUsed) else 0))
    ∧ (item.DaysSinceUsed ≤ 10 → 0 ≤ usageModifier item)
    ∧ usageModifier { item with Used := 5, DaysSinceUsed := 2 } = 40 := by
  have key : usageModifier item
      = (if item.Used > 0 then item.Used * (10 - max 0 item.DaysSinceUsed) else 0) := by
    unfold usageModifier
    by_cases hU : item.Used > 0
    · rw [if_pos hU, if_pos hU]
      by_cases hD : item.DaysSinceUsed > 0
      · have hmax : max 0 item.DaysSinceUsed = item.DaysSinceUsed := max_eq_right (le_of_lt hD)
        rw [hmax] at hlo hhi
        rw [if_pos hD, hmax, wrapInt_of_fits (10 - item.DaysSinceUsed) (by omega) (by omega),
          wrapInt_of_fits _ hlo hhi, mul_comm]
      · have hmax : max 0 item.DaysSinceUsed = 0 := max_eq_left (not_lt.mp hD)
        rw [hmax] at hlo hhi
        rw [if_neg hD, hmax]
        simp only [sub_zero] at hlo hhi ⊢
        rw [wrapInt_of_fits _ hlo hhi, mul_comm]
    · rw [if_neg hU, if_neg hU]
  refine ⟨key, ?_, ?_, ?_⟩
  · intro h0 h10
    rw [key, max_eq_right h0, max_eq_right (by omega : (0 : Int) ≤ 10 - item.DaysSinceUsed)]
  · intro h10
    rw [key]
    split_ifs with hU
    · apply mul_nonneg (le_of_lt hU)
      rcases le_total 0 item.DaysSinceUsed with h | h
      · rw [max_eq_right h]; omega
      · rw [max_eq_left h]; omega
    · exact le_refl _
  · norm_num [usageModifier, wrapInt]

/-- Witness for C2: the entry with `usageCount = 5`, `daysSinceLastUse = 2`. -/
theorem usageModifier_amended_witness :
    usageModifier { zeroEntry with Used := 5, DaysSinceUsed := 2 }
        = (if (5 : Int) > 0 then 5 * (10 - max 0 2) else 0)
    ∧ usageModifier { zeroEntry with Used := 5, DaysSinceUsed := 2 } = 40 :=
  ⟨(usageModifier_amended { zeroEntry with Used := 5, DaysSinceUsed := 2 }
      (by decide) (by decide) (by decide)).1,
    by decide⟩

end Walker

namespace Walker

/-! ## The insertion sort -/

/-- Moving an element into the sorted part keeps the elements. -/
theorem insertLeft_perm {α : Type} (cmp : α → α → Int) (x : α) (l : List α) :
    (insertLeft cmp x l).Perm (x :: l) := by
  induction l with
  | nil => exact List.Perm.refl _
  | cons y ys ih =>
    unfold insertLeft
    split_ifs
    · exact (List.Perm.cons y ih).trans (List.Perm.swap x y ys)
    · exact List.Perm.refl _

/-- The outer loop of the insertion sort keeps the elements. -/
theorem foldl_insertLeft_perm {α : Type} (cmp : α → α → Int) (data acc : List α) :
    (data.foldl (fun sortedRev x => insertLeft cmp x sortedRev) acc).Perm (data.reverse ++ acc) := by
  induction data generalizing acc with
  | nil => exact List.Perm.refl _
  | cons x xs ih =>
    rw [List.foldl_cons, List.reverse_cons, List.append_assoc]
    exact (ih _).trans (List.Perm.append_left _ (insertLeft_perm cmp x acc))

/-- The insertion sort returns a permutation of its input. -/
theorem insertionSortCmpFunc_perm {α : Type} (cmp : α → α → Int) (data : List α) :
    (insertionSortCmpFunc cmp data).Perm data := by
  unfold insertionSortCmpFunc
  refine (List.reverse_perm _).trans ?_
  have h := foldl_insertLeft_perm cmp data []
  rw [List.append_nil] at h
  exact h.trans (List.reverse_perm _)

/-- When the comparison respects a rank, moving an element into a part whose ranks decrease
(read from the right end of the slice) keeps the ranks decreasing. -/
theorem insertLeft_ranked {α : Type} (cmp : α → α → Int) (r : α → Nat)
    (hneg : ∀ x y, cmp x y < 0 → r x ≤ r y) (hnot : ∀ x y, ¬ cmp x y < 0 → r y ≤ r x)
    (x : α) (l : List α) (hl : l.Pairwise (fun u v => r v ≤ r u)) :
    (insertLeft cmp x l).Pairwise (fun u v => r v ≤ r u) := by
  induction l with
  | nil => exact List.pairwise_singleton _ _
  | cons y ys ih =>
    rw [List.pairwise_cons] at hl
    unfold insertLeft
    split_ifs with hc
    · rw [List.pairwise_cons]
      refine ⟨?_, ih hl.2⟩
      intro z hz
      rcases List.mem_cons.mp ((insertLeft_perm cmp x ys).subset hz) with hzx | hzy
      · rw [hzx]; exact hneg x y hc
      · exact hl.1 z hzy
    · rw [List.pairwise_cons]
      refine ⟨?_, List.pairwise_cons.mpr hl⟩
      intro z hz
      rcases List.mem_cons.mp hz with hzy | hzy
      · rw [hzy]; exact hnot x y hc
      · exact le_trans (hl.1 z hzy) (hnot x y hc)

/-- The insertion sort orders its input by any rank that the comparison respects. -/
theorem insertionSortCmpFunc_ranked {α : Type} (cmp : α → α → Int) (r : α → Nat)
    (hneg : ∀ x y, cmp x y < 0 → r x ≤ r y) (hnot : ∀ x y, ¬ cmp x y < 0 → r y ≤ r x)
    (data : List α) :
    (insertionSortCmpFunc cmp data).Pairwise (fun u v => r u ≤ r v) := by
  have h : ∀ (l acc : List α), acc.Pairwise (fun u v => r v ≤ r u) →
      (l.foldl (fun sortedRev x => insertLeft cmp x sortedRev) acc).Pairwise
        (fun u v => r v ≤ r u) := by
    intro l
    induction l with
    | nil => intro acc hacc; exact hacc
    | cons x xs ih =>
      intro acc hacc
      rw [List.foldl_cons]
      exact ih _ (insertLeft_ranked cmp r hneg hnot x acc hacc)
  unfold insertionSortCmpFunc
  rw [List.pairwise_reverse]
  exact h data [] List.Pairwise.nil

end Walker

namespace Walker

/-! ## Exchanges in a slice -/

/-- Writing an element of the slice over another and that one at the element's index keeps
the elements. -/
theorem set_cons_perm {α : Type} (t : List α) (j : Nat) (h y : α) (hy : t[j]? = some y) :
    (y :: t.set j h).Perm (h :: t) := by
  induction t generalizing j with
  | nil => simp at hy
  | cons u t1 ih =>
    cases j with
    | zero =>
      simp only [List.getElem?_cons_zero, Option.some.injEq] at hy
      subst hy
      exact List.Perm.swap _ _ _
    | succ j1 =>
      rw [List.getElem?_cons_succ] at hy
      rw [List.set_cons_succ]
      exact (List.Perm.swap u y _).trans (((ih j1 hy).cons u).trans (List.Perm.swap h u t1))

/-- Exchanging two elements of a slice keeps its elements. -/
theorem set_set_perm {α : Type} (l : List α) (i j : Nat) (x y : α) (hx : l[i]? = some x)
    (hy : l[j]? = some y) : ((l.set i y).set j x).Perm l := by
  induction l generalizing i j with
  | nil => simp at hx
  | cons h t ih =>
    cases i with
    | zero =>
      simp only [List.getElem?_cons_zero, Option.some.injEq] at hx
      subst hx
      cases j with
      | zero =>
        simp only [List.getElem?_cons_zero, Option.some.injEq] at hy
        subst hy
        simp
      | succ j1 =>
        rw [List.getElem?_cons_succ] at hy
        simp only [List.set_cons_zero, List.set_cons_succ]
        exact set_cons_perm t j1 h y hy
    | succ i1 =>
      rw [List.getElem?_cons_succ] at hx
      cases j with
      | zero =>
        simp only [List.getElem?_cons_zero, Option.some.injEq] at hy
        subst hy
        simp only [List.set_cons_zero, List.set_cons_succ]
        exact set_cons_perm t i1 h x hx
      | succ j1 =>
        rw [List.getElem?_cons_succ] at hy
        simp only [List.set_cons_succ]
        exact (ih i1 j1 hx hy).cons h

/-- An exchange keeps the elements of the slice. -/
theorem swapAt_perm {α : Type} (data : List α) (i j : Nat) : (swapAt data i j).Perm data := by
  unfold swapAt
  cases hx : data[i]? with
  | none => exact List.Perm.refl _
  | some x =>
    cases hy : data[j]? with
    | none => exact List.Perm.refl _
    | some y => exact set_set_perm data i j x y hx hy

/-- An exchange keeps the length of the slice. -/
theorem length_swapAt {α : Type} (data : List α) (i j : Nat) :
    (swapAt data i j).length = data.length :=
  (swapAt_perm data i j).length_eq

/-- The ranks after an exchange of two elements of the slice. -/
theorem rk_swapAt {α : Type} (r : α → Nat) (data : List α) (i j k : Nat) (hi : i < data.length)
    (hj : j < data.length) :
    rk r (swapAt data i j) k
      = if k = j then rk r data i else if k = i then rk r data j else rk r data k := by
  unfold swapAt rk
  rw [List.getElem?_eq_getElem hi, List.getElem?_eq_getElem hj]
  simp only [List.getElem?_set]
  by_cases hkj : k = j
  · subst hkj
    simp [hj]
  · rw [if_neg hkj, if_neg (fun h => hkj h.symm)]
    by_cases hki : k = i
    · subst hki
      simp [hi, List.getElem?_eq_getElem hj]
    · rw [if_neg hki, if_neg (fun h => hki h.symm)]

/-- An element that compares below another has at most its rank. -/
theorem rk_le_of_lessAt {α : Type} (cmp : α → α → Int) (r : α → Nat)
    (hneg : ∀ x y, cmp x y < 0 → r x ≤ r y) (data : List α) (i j : Nat)
    (h : lessAt cmp data i j = true) : rk r data i ≤ rk r data j := by
  unfold lessAt at h
  unfold rk
  cases hx : data[i]? with
  | none => simp [hx] at h
  | some x =>
    cases hy : data[j]? with
    | none => simp [hx, hy] at h
    | some y =>
      simp only [hx, hy, decide_eq_true_eq] at h
      exact hneg x y h

/-- An element of the slice that does not compare below another has at least its rank. -/
theorem rk_le_of_not_lessAt {α : Type} (cmp : α → α → Int) (r : α → Nat)
    (hnot : ∀ x y, ¬ cmp x y < 0 → r y ≤ r x) (data : List α) (i j : Nat)
    (hi : i < data.length) (hj : j < data.length) (h : lessAt cmp data i j = false) :
    rk r data j ≤ rk r data i := by
  unfold lessAt at h
  unfold rk
  rw [List.getElem?_eq_getElem hi, List.getElem?_eq_getElem hj] at h ⊢
  simp only [decide_eq_false_iff_not] at h
  exact hnot _ _ h

/-! ## Changes confined to a part of the slice -/

/-- No change is a change within any part. -/
theorem Within.refl {α : Type} (r : α → Nat) (data : List α) (a b : Nat) :
    Within r data data a b :=
  ⟨rfl, fun _ _ => rfl, fun k ha hb => ⟨k, ha, hb, rfl⟩⟩

/-- Changes within a part compose. -/
theorem Within.trans {α : Type} {r : α → Nat} {d1 d2 d3 : List α} {a b : Nat}
    (h12 : Within r d1 d2 a b) (h23 : Within r d2 d3 a b) : Within r d1 d3 a b := by
  refine ⟨h23.1.trans h12.1, fun k hk => (h23.2.1 k hk).trans (h12.2.1 k hk), ?_⟩
  intro k ha hb
  obtain ⟨k1, ha1, hb1, e1⟩ := h23.2.2 k ha hb
  obtain ⟨k2, ha2, hb2, e2⟩ := h12.2.2 k1 ha1 hb1
  exact ⟨k2, ha2, hb2, e1.trans e2⟩

/-- A change within a part is a change within any part that contains it. -/
theorem Within.mono {α : Type} {r : α → Nat} {d1 d2 : List α} {a b a1 b1 : Nat}
    (h : Within r d1 d2 a b) (ha : a1 ≤ a) (hb : b ≤ b1) : Within r d1 d2 a1 b1 := by
  refine ⟨h.1, fun k hk => h.2.1 k (by omega), ?_⟩
  intro k hka hkb
  by_cases hin : a ≤ k ∧ k < b
  · obtain ⟨k1, h1, h2, e⟩ := h.2.2 k hin.1 hin.2
    exact ⟨k1, by omega, by omega, e⟩
  · exact ⟨k, hka, hkb, h.2.1 k (by omega)⟩

/-- An exchange of two elements of a part is a change within that part. -/
theorem within_swapAt {α : Type} (r : α → Nat) (data : List α) (a b i j : Nat)
    (hb : b ≤ data.length) (hia : a ≤ i) (hib : i < b) (hja : a ≤ j) (hjb : j < b) :
    Within r data (swapAt data i j) a b := by
  have hi : i < data.length := by omega
  have hj : j < data.length := by omega
  refine ⟨length_swapAt data i j, ?_, ?_⟩
  · intro k hk
    rw [rk_swapAt r data i j k hi hj, if_neg (by omega), if_neg (by omega)]
  · intro k hka hkb
    rw [rk_swapAt r data i j k hi hj]
    split_ifs
    · exact ⟨i, hia, hib, rfl⟩
    · exact ⟨j, hja, hjb, rfl⟩
    · exact ⟨k, hka, hkb, rfl⟩

/-- A change within a part keeps a lower bound on the ranks of the part. -/
theorem Within.lower {α : Type} {r : α → Nat} {d1 d2 : List α} {a b : Nat}
    (h : Within r d1 d2 a b) (m : Nat) (hm : ∀ k, a ≤ k → k < b → m ≤ rk r d1 k) :
    ∀ k, a ≤ k → k < b → m ≤ rk r d2 k := by
  intro k ha hb
  obtain ⟨k1, h1, h2, e⟩ := h.2.2 k ha hb
  rw [e]
  exact hm k1 h1 h2

/-- A change within a part keeps an upper bound on the ranks of the part. -/
theorem Within.upper {α : Type} {r : α → Nat} {d1 d2 : List α} {a b : Nat}
    (h : Within r d1 d2 a b) (m : Nat) (hm : ∀ k, a ≤ k → k < b → rk r d1 k ≤ m) :
    ∀ k, a ≤ k → k < b → rk r d2 k ≤ m := by
  intro k ha hb
  obtain ⟨k1, h1, h2, e⟩ := h.2.2 k ha hb
  rw [e]
  exact hm k1 h1 h2

end Walker

namespace Walker

/-! ## The partitions -/

/-- The upward scan stops within its counter, on an index where the test fails, after indices
where it holds. -/
theorem scanUp_spec (p : Nat → Bool) (d i : Nat) :
    i ≤ scanUp p d i ∧ scanUp p d i ≤ i + d
    ∧ (∀ k, i ≤ k → k < scanUp p d i → p k = true)
    ∧ (scanUp p d i < i + d → p (scanUp p d i) = false) := by
  induction d generalizing i with
  | zero =>
    refine ⟨le_refl _, le_refl _, ?_, ?_⟩
    · intro k h1 h2
      simp only [scanUp] at h2
      omega
    · intro h
      simp only [scanUp] at h
      omega
  | succ d ih =>
    by_cases hp : p i = true
    · obtain ⟨h1, h2, h3, h4⟩ := ih (i + 1)
      simp only [scanUp, hp, if_true]
      refine ⟨by omega, by omega, ?_, ?_⟩
      · intro k hk1 hk2
        by_cases hki : k = i
        · rw [hki]; exact hp
        · exact h3 k (by omega) hk2
      · intro h
        exact h4 (by omega)
    · rw [scanUp, if_neg hp]
      refine ⟨le_refl _, by omega, ?_, ?_⟩
      · intro k hk1 hk2
        omega
      · intro _
        simpa using hp

/-- The downward scan stops at or below its start, not more than one below `i`, on an index
where the test holds, after indices where it fails. -/
theorem scanDown_spec (p : Nat → Bool) (i j : Nat) :
    scanDown p i j ≤ j
    ∧ (∀ k, scanDown p i j < k → k ≤ j → p k = false)
    ∧ (1 ≤ i → i ≤ j + 1 → i ≤ scanDown p i j + 1)
    ∧ (1 ≤ i → i ≤ scanDown p i j → p (scanDown p i j) = true) := by
  induction j with
  | zero =>
    refine ⟨le_refl _, ?_, ?_, ?_⟩
    · intro k h1 h2
      simp only [scanDown] at h1
      omega
    · intro h1 h2
      simp only [scanDown]
      omega
    · intro h1 h2
      simp only [scanDown] at h2
      omega
  | succ j ih =>
    by_cases hc : i ≤ j + 1 ∧ p (j + 1) = false
    · obtain ⟨h1, h2, h3, h4⟩ := ih
      simp only [scanDown, hc, and_self, if_true]
      refine ⟨by omega, ?_, ?_, h4⟩
      · intro k hk1 hk2
        by_cases hkj : k = j + 1
        · rw [hkj]; exact hc.2
        · exact h2 k hk1 (by omega)
      · intro hi1 _
        exact h3 hi1 hc.1
    · simp only [scanDown, hc, if_false]
      refine ⟨le_refl _, ?_, ?_, ?_⟩
      · intro k hk1 hk2
        omega
      · intro _ h
        omega
      · intro _ h
        have : ¬ p (j + 1) = false := fun hf => hc ⟨h, hf⟩
        simpa using this

/-- The common loop of the partitions, started between `a` and `b` with the pivot at `a`: it
changes the slice within `(a, b)` and ends with `i = j + 1`, ranks at most the pivot's below
`i` and at least the pivot's above `j`. The test `p` holds only on ranks at most the pivot's
and fails only on ranks at least the pivot's. -/
theorem hoareLoop_spec {α : Type} (r : α → Nat) (p : List α → Nat → Bool) (a b : Nat)
    (hpt : ∀ (d : List α) (k : Nat), k < d.length → a < d.length → p d k = true →
      rk r d k ≤ rk r d a)
    (hpf : ∀ (d : List α) (k : Nat), k < d.length → a < d.length → p d k = false →
      rk r d a ≤ rk r d k)
    (fuel : Nat) (data : List α) (i j : Nat)
    (hfuel : j + 1 - i < fuel) (hb : b ≤ data.length) (hai : a < i) (hij : i ≤ j + 1)
    (hjb : j < b)
    (hlow : ∀ k, a < k → k < i → rk r data k ≤ rk r data a)
    (hhigh : ∀ k, j < k → k < b → rk r data a ≤ rk r data k) :
    Within r data (hoareLoop p fuel data i j).1 (a + 1) b
    ∧ (hoareLoop p fuel data i j).2.1 = (hoareLoop p fuel data i j).2.2 + 1
    ∧ a ≤ (hoareLoop p fuel data i j).2.2
    ∧ (hoareLoop p fuel data i j).2.2 < b
    ∧ (∀ k, a < k → k < (hoareLoop p fuel data i j).2.1 →
        rk r (hoareLoop p fuel data i j).1 k ≤ rk r (hoareLoop p fuel data i j).1 a)
    ∧ (∀ k, (hoareLoop p fuel data i j).2.2 < k → k < b →
        rk r (hoareLoop p fuel data i j).1 a ≤ rk r (hoareLoop p fuel data i j).1 k) := by
  induction fuel generalizing data i j with
  | zero => omega
  | succ fuel ih =>
    obtain ⟨u1, u2, u3, u4⟩ := scanUp_spec (p data) (j + 1 - i) i
    obtain ⟨v1, v2, v3, v4⟩ := scanDown_spec (p data) (scanUp (p data) (j + 1 - i) i) j
    have hi1 : 1 ≤ scanUp (p data) (j + 1 - i) i := by omega
    have v3a := v3 hi1 (by omega)
    have v4a := v4 hi1
    rw [hoareLoop]
    generalize scanUp (p data) (j + 1 - i) i = i1 at *
    generalize scanDown (p data) i1 j = j1 at *
    have hlow1 : ∀ k, a < k → k < i1 → rk r data k ≤ rk r data a := by
      intro k hk1 hk2
      by_cases hki : k < i
      · exact hlow k hk1 hki
      · exact hpt data k (by omega) (by omega) (u3 k (by omega) hk2)
    have hhigh1 : ∀ k, j1 < k → k < b → rk r data a ≤ rk r data k := by
      intro k hk1 hk2
      by_cases hkj : j < k
      · exact hhigh k hkj hk2
      · exact hpf data k (by omega) (by omega) (v2 k hk1 (by omega))
    by_cases hcross : i1 > j1
    · rw [if_pos hcross]
      exact ⟨Within.refl r data _ _, by show i1 = j1 + 1; omega, by show a ≤ j1; omega,
        by show j1 < b; omega, hlow1, hhigh1⟩
    · rw [if_neg hcross]
      have hpi : p data i1 = false := u4 (by omega)
      have hpj : p data j1 = true := v4a (by omega)
      have hne : i1 ≠ j1 := by
        intro h
        rw [h, hpj] at hpi
        exact absurd hpi (by simp)
      have hri : rk r data a ≤ rk r data i1 := hpf data i1 (by omega) (by omega) hpi
      have hrj : rk r data j1 ≤ rk r data a := hpt data j1 (by omega) (by omega) hpj
      have hsw : ∀ k, rk r (swapAt data i1 j1) k
          = if k = j1 then rk r data i1 else if k = i1 then rk r data j1 else rk r data k :=
        fun k => rk_swapAt r data i1 j1 k (by omega) (by omega)
      have hlen := length_swapAt data i1 j1
      have hwa : rk r (swapAt data i1 j1) a = rk r data a := by
        rw [hsw, if_neg (by omega), if_neg (by omega)]
      obtain ⟨w1, w2, w3, w4, w5, w6⟩ := ih (swapAt data i1 j1) (i1 + 1) (j1 - 1) (by omega)
        (by omega) (by omega) (by omega) (by omega)
        (by
          intro k hk1 hk2
          rw [hwa, hsw]
          split_ifs with e1 e2
          · omega
          · exact hrj
          · exact hlow1 k hk1 (by omega))
        (by
          intro k hk1 hk2
          rw [hwa, hsw]
          split_ifs with e1 e2
          · exact hri
          · omega
          · exact hhigh1 k (by omega) hk2)
      exact ⟨(within_swapAt r data (a + 1) b i1 j1 hb (by omega) (by omega) (by omega)
        (by omega)).trans w1, w2, w3, w4, w5, w6⟩

/-- The common loop of the partitions keeps the elements. -/
theorem hoareLoop_perm {α : Type} (p : List α → Nat → Bool) (fuel : Nat) (data : List α)
    (i j : Nat) : (hoareLoop p fuel data i j).1.Perm data := by
  induction fuel generalizing data i j with
  | zero => exact List.Perm.refl _
  | succ fuel ih =>
    rw [hoareLoop]
    split_ifs
    · exact List.Perm.refl _
    · exact (ih _ _ _).trans (swapAt_perm _ _ _)

/-- The function `partitionCmpFunc` keeps the elements. -/
theorem partitionCmpFunc_perm {α : Type} (cmp : α → α → Int) (data : List α) (a b pivot : Nat) :
    (partitionCmpFunc cmp data a b pivot).1.Perm data := by
  unfold partitionCmpFunc
  exact (swapAt_perm _ _ _).trans ((hoareLoop_perm _ _ _ _ _).trans (swapAt_perm _ _ _))

/-- The function `partitionEqualCmpFunc` keeps the elements. -/
theorem partitionEqualCmpFunc_perm {α : Type} (cmp : α → α → Int) (data : List α) (a b pivot : Nat) :
    (partitionEqualCmpFunc cmp data a b pivot).1.Perm data := by
  unfold partitionEqualCmpFunc
  exact (hoareLoop_perm _ _ _ _ _).trans (swapAt_perm _ _ _)

/-- The function `partitionCmpFunc` changes the slice within `[a, b)` and puts the pivot at an index `mid` of
that part with ranks at most its own before it and at least its own after it. -/
theorem partitionCmpFunc_spec {α : Type} (cmp : α → α → Int) (r : α → Nat)
    (hneg : ∀ x y, cmp x y < 0 → r x ≤ r y) (hnot : ∀ x y, ¬ cmp x y < 0 → r y ≤ r x)
    (data : List α) (a b pivot : Nat) (hb : b ≤ data.length) (hpa : a ≤ pivot)
    (hpb : pivot < b) :
    Within r data (partitionCmpFunc cmp data a b pivot).1 a b
    ∧ a ≤ (partitionCmpFunc cmp data a b pivot).2.1
    ∧ (partitionCmpFunc cmp data a b pivot).2.1 < b
    ∧ (∀ k, a ≤ k → k < (partitionCmpFunc cmp data a b pivot).2.1 →
        rk r (partitionCmpFunc cmp data a b pivot).1 k
          ≤ rk r (partitionCmpFunc cmp data a b pivot).1 (partitionCmpFunc cmp data a b pivot).2.1)
    ∧ (∀ k, (partitionCmpFunc cmp data a b pivot).2.1 < k → k < b →
        rk r (partitionCmpFunc cmp data a b pivot).1 (partitionCmpFunc cmp data a b pivot).2.1
          ≤ rk r (partitionCmpFunc cmp data a b pivot).1 k) := by
  have hw0 : Within r data (swapAt data a pivot) a b :=
    within_swapAt r data a b a pivot hb (le_refl _) (by omega) hpa hpb
  have hlen0 := length_swapAt data a pivot
  obtain ⟨w1, w2, w3, w4, w5, w6⟩ := hoareLoop_spec r (fun d k => lessAt cmp d k a) a b
    (fun d k _ _ h => rk_le_of_lessAt cmp r hneg d k a h)
    (fun d k hk ha h => rk_le_of_not_lessAt cmp r hnot d k a hk ha h)
    (b - a) (swapAt data a pivot) (a + 1) (b - 1) (by omega) (by omega) (by omega) (by omega)
    (by omega) (by intro k h1 h2; omega) (by intro k h1 h2; omega)
  unfold partitionCmpFunc
  simp only []
  generalize hoareLoop (fun d k => lessAt cmp d k a) (b - a) (swapAt data a pivot) (a + 1)
    (b - 1) = res at *
  have hlen1 : res.1.length = data.length := w1.1.trans hlen0
  have hsw : ∀ k, rk r (swapAt res.1 res.2.2 a) k
      = if k = a then rk r res.1 res.2.2 else if k = res.2.2 then rk r res.1 a
        else rk r res.1 k :=
    fun k => rk_swapAt r res.1 res.2.2 a k (by omega) (by omega)
  have hmid : rk r (swapAt res.1 res.2.2 a) res.2.2 = rk r res.1 a := by
    rw [hsw]
    by_cases e1 : res.2.2 = a
    · rw [if_pos e1, e1]
    · rw [if_neg e1, if_pos rfl]
  refine ⟨?_, w3, w4, ?_, ?_⟩
  · exact hw0.trans ((w1.mono (by omega) (le_refl _)).trans
      (within_swapAt r res.1 a b res.2.2 a (by omega) w3 w4 (le_refl _) (by omega)))
  · intro k hk1 hk2
    rw [hmid, hsw]
    split_ifs with e1 e2
    · exact w5 res.2.2 (by omega) (by omega)
    · omega
    · exact w5 k (by omega) (by omega)
  · intro k hk1 hk2
    rw [hmid, hsw, if_neg (by omega), if_neg (by omega)]
    exact w6 k hk1 hk2

/-- The function `partitionEqualCmpFunc` changes the slice within `[a, b)` and
returns an index `mid` above `a` with only ranks at most the pivot's before it. -/
theorem partitionEqualCmpFunc_spec {α : Type} (cmp : α → α → Int) (r : α → Nat)
    (hneg : ∀ x y, cmp x y < 0 → r x ≤ r y) (hnot : ∀ x y, ¬ cmp x y < 0 → r y ≤ r x)
    (data : List α) (a b pivot : Nat) (hb : b ≤ data.length) (hpa : a ≤ pivot)
    (hpb : pivot < b) :
    Within r data (partitionEqualCmpFunc cmp data a b pivot).1 a b
    ∧ a < (partitionEqualCmpFunc cmp data a b pivot).2
    ∧ (partitionEqualCmpFunc cmp data a b pivot).2 ≤ b
    ∧ (∀ k, a ≤ k → k < (partitionEqualCmpFunc cmp data a b pivot).2 →
        rk r (partitionEqualCmpFunc cmp data a b pivot).1 k ≤ rk r data pivot) := by
  have hw0 : Within r data (swapAt data a pivot) a b :=
    within_swapAt r data a b a pivot hb (le_refl _) (by omega) hpa hpb
  have hlen0 := length_swapAt data a pivot
  have hpiv : rk r (swapAt data a pivot) a = rk r data pivot := by
    rw [rk_swapAt r data a pivot a (by omega) (by omega)]
    by_cases e1 : a = pivot
    · rw [if_pos e1, ← e1]
    · rw [if_neg e1, if_pos rfl]
  obtain ⟨w1, w2, w3, w4, w5, _⟩ := hoareLoop_spec r (fun d k => !lessAt cmp d a k) a b
    (fun d k hk ha h => rk_le_of_not_lessAt cmp r hnot d a k ha hk (by simpa using h))
    (fun d k _ _ h => rk_le_of_lessAt cmp r hneg d a k (by simpa using h))
    (b - a) (swapAt data a pivot) (a + 1) (b - 1) (by omega) (by omega) (by omega) (by omega)
    (by omega) (by intro k h1 h2; omega) (by intro k h1 h2; omega)
  unfold partitionEqualCmpFunc
  simp only []
  generalize hoareLoop (fun d k => !lessAt cmp d a k) (b - a) (swapAt data a pivot) (a + 1)
    (b - 1) = res at *
  have hra : rk r res.1 a = rk r data pivot := by
    rw [w1.2.1 a (by omega), hpiv]
  refine ⟨hw0.trans (w1.mono (by omega) (le_refl _)), by omega, by omega, ?_⟩
  intro k hk1 hk2
  by_cases hka : k = a
  · rw [hka, hra]
  · rw [← hra]
    exact w5 k (by omega) hk2

end Walker

namespace Walker

/-! ## The insertion sort of a part -/

/-- The rank at an index of a concatenation. -/
theorem rk_append {α : Type} (r : α → Nat) (l1 l2 : List α) (k : Nat) :
    rk r (l1 ++ l2) k = if k < l1.length then rk r l1 k else rk r l2 (k - l1.length) := by
  unfold rk
  by_cases h : k < l1.length
  · rw [if_pos h, List.getElem?_append_left h]
  · rw [if_neg h, List.getElem?_append_right (by omega)]

/-- The rank at an index of the slice is the rank of its element. -/
theorem rk_eq_getElem {α : Type} (r : α → Nat) (data : List α) (k : Nat) (h : k < data.length) :
    rk r data k = r (data.get ⟨k, h⟩) := by
  unfold rk
  rw [List.getElem?_eq_getElem h]
  rfl

/-- A slice splits into the part before `a`, the part `[a, b)` and the part from `b`. -/
theorem take_mid_drop {α : Type} (data : List α) (a b : Nat) (hab : a ≤ b) :
    data.take a ++ ((data.drop a).take (b - a) ++ data.drop b) = data := by
  have h1 : (data.drop a).take (b - a) ++ data.drop b = data.drop a := by
    have h2 : data.drop b = (data.drop a).drop (b - a) := by
      rw [List.drop_drop]
      congr 1
      omega
    rw [h2, List.take_append_drop]
  rw [h1, List.take_append_drop]

/-- The insertion sort of a part keeps the elements. -/
theorem insertionSortRange_perm {α : Type} (cmp : α → α → Int) (data : List α) (a b : Nat)
    (hab : a ≤ b) : (insertionSortRange cmp data a b).Perm data := by
  unfold insertionSortRange
  rw [List.append_assoc]
  have h := take_mid_drop data a b hab
  exact (List.Perm.append_left _
    (List.Perm.append_right _ (insertionSortCmpFunc_perm cmp _))).trans (by rw [h])

/-- The insertion sort of a part changes the slice within the part and leaves the part in the
order of the ranks. -/
theorem insertionSortRange_spec {α : Type} (cmp : α → α → Int) (r : α → Nat)
    (hneg : ∀ x y, cmp x y < 0 → r x ≤ r y) (hnot : ∀ x y, ¬ cmp x y < 0 → r y ≤ r x)
    (data : List α) (a b : Nat) (hab : a ≤ b) (hb : b ≤ data.length) :
    Within r data (insertionSortRange cmp data a b) a b
    ∧ SortedRange r (insertionSortRange cmp data a b) a b := by
  have hsplit := take_mid_drop data a b hab
  have hperm := insertionSortCmpFunc_perm cmp ((data.drop a).take (b - a))
  have hsorted := insertionSortCmpFunc_ranked cmp r hneg hnot ((data.drop a).take (b - a))
  have hlenM : ((data.drop a).take (b - a)).length = b - a := by
    rw [List.length_take, List.length_drop]
    omega
  have hlenS : (insertionSortCmpFunc cmp ((data.drop a).take (b - a))).length = b - a :=
    hperm.length_eq.trans hlenM
  have hlenT : (data.take a).length = a := by
    rw [List.length_take]
    omega
  have hrk : ∀ (mid : List α) (k : Nat), mid.length = b - a →
      rk r (data.take a ++ (mid ++ data.drop b)) k
        = if k < a then rk r data k else if k < b then rk r mid (k - a) else rk r data k := by
    intro mid k hmid
    rw [rk_append, hlenT]
    by_cases h1 : k < a
    · rw [if_pos h1, if_pos h1]
      unfold rk
      rw [List.getElem?_take_of_lt h1]
    · rw [if_neg h1, if_neg h1, rk_append, hmid]
      by_cases h2 : k < b
      · rw [if_pos (by omega), if_pos h2]
      · rw [if_neg (by omega), if_neg h2]
        unfold rk
        rw [List.getElem?_drop]
        congr 2
        omega
  unfold insertionSortRange
  rw [List.append_assoc]
  generalize insertionSortCmpFunc cmp ((data.drop a).take (b - a)) = S at *
  have hdata : ∀ k, a ≤ k → k < b →
      rk r ((data.drop a).take (b - a)) (k - a) = rk r data k := by
    intro k h1 h2
    have h := hrk ((data.drop a).take (b - a)) k hlenM
    rw [hsplit, if_neg (by omega), if_pos h2] at h
    exact h.symm
  refine ⟨⟨?_, ?_, ?_⟩, ?_⟩
  · rw [List.length_append, List.length_append, hlenT, hlenS, List.length_drop]
    omega
  · intro k hk
    rw [hrk S k hlenS]
    rcases hk with hk | hk
    · rw [if_pos hk]
    · rw [if_neg (by omega), if_neg (by omega)]
  · intro k h1 h2
    rw [hrk S k hlenS, if_neg (by omega), if_pos h2]
    have hk : k - a < S.length := by omega
    rw [rk_eq_getElem r S (k - a) hk]
    have hmem : S.get ⟨k - a, hk⟩ ∈ (data.drop a).take (b - a) :=
      hperm.subset (List.get_mem S (k - a) hk)
    obtain ⟨⟨m, hm⟩, hmeq⟩ := List.get_of_mem hmem
    refine ⟨a + m, by omega, by omega, ?_⟩
    rw [← hmeq, ← rk_eq_getElem r _ m hm]
    have := hdata (a + m) (by omega) (by omega)
    rw [← this]
    congr 1
    omega
  · intro i j h1 h2 h3
    rw [hrk S i hlenS, hrk S j hlenS, if_neg (by omega), if_pos (by omega), if_neg (by omega),
      if_pos h3]
    have hi : i - a < S.length := by omega
    have hj : j - a < S.length := by omega
    rw [rk_eq_getElem r S (i - a) hi, rk_eq_getElem r S (j - a) hj]
    exact List.pairwise_iff_get.mp hsorted ⟨i - a, hi⟩ ⟨j - a, hj⟩ (by
      show i - a < j - a
      omega)

end Walker

namespace Walker

/-! ## Reversal, scattering and the choice of the pivot -/

/-- The loop of the reversal keeps the elements. -/
theorem reverseLoop_perm {α : Type} (fuel : Nat) (data : List α) (i j : Nat) :
    (reverseLoop fuel data i j).Perm data := by
  induction fuel generalizing data i j with
  | zero => exact List.Perm.refl _
  | succ fuel ih =>
    rw [reverseLoop]
    split_ifs
    · exact (ih _ _ _).trans (swapAt_perm _ _ _)
    · exact List.Perm.refl _

/-- The loop of the reversal changes the slice within the part. -/
theorem reverseLoop_within {α : Type} (r : α → Nat) (a b fuel : Nat) (data : List α) (i j : Nat)
    (hb : b ≤ data.length) (hi : a ≤ i) (hj : j < b) :
    Within r data (reverseLoop fuel data i j) a b := by
  induction fuel generalizing data i j with
  | zero => exact Within.refl r data a b
  | succ fuel ih =>
    rw [reverseLoop]
    split_ifs with h
    · exact (within_swapAt r data a b i j hb hi (by omega) (by omega) hj).trans
        (ih _ _ _ (by rw [length_swapAt]; exact hb) (by omega) (by omega))
    · exact Within.refl r data a b

/-- The reversal keeps the elements. -/
theorem reverseRangeCmpFunc_perm {α : Type} (data : List α) (a b : Nat) :
    (reverseRangeCmpFunc data a b).Perm data :=
  reverseLoop_perm _ _ _ _

/-- The reversal changes the slice within the part. -/
theorem reverseRangeCmpFunc_within {α : Type} (r : α → Nat) (data : List α) (a b : Nat) (hab : a < b)
    (hb : b ≤ data.length) : Within r data (reverseRangeCmpFunc data a b) a b :=
  reverseLoop_within r a b _ data a (b - 1) hb (le_refl _) (by omega)

/-- The index drawn by the scattering is below the length. -/
theorem breakOther_lt (random length : Nat) (h : 0 < length) :
    breakOther random length < length := by
  have hpow : nextPowerOfTwo length ≤ 2 * length := by
    unfold nextPowerOfTwo bitsLen
    rw [if_neg (by omega), pow_succ]
    have := Nat.log2_self_le (Nat.pos_iff_ne_zero.mp h)
    omega
  have hmod : random % nextPowerOfTwo length < nextPowerOfTwo length :=
    Nat.mod_lt _ (Nat.two_pow_pos _)
  unfold breakOther
  split_ifs with hc
  · omega
  · omega

/-- The scattering keeps the elements. -/
theorem breakPatternsCmpFunc_perm {α : Type} (data : List α) (a b : Nat) :
    (breakPatternsCmpFunc data a b).Perm data := by
  unfold breakPatternsCmpFunc
  split_ifs
  · exact (swapAt_perm _ _ _).trans ((swapAt_perm _ _ _).trans (swapAt_perm _ _ _))
  · exact List.Perm.refl _

/-- The scattering changes the slice within the part. -/
theorem breakPatternsCmpFunc_within {α : Type} (r : α → Nat) (data : List α) (a b : Nat)
    (hb : b ≤ data.length) : Within r data (breakPatternsCmpFunc data a b) a b := by
  unfold breakPatternsCmpFunc
  split_ifs with h
  · have h1 := breakOther_lt (xorshiftNext (b - a)) (b - a) (by omega)
    have h2 := breakOther_lt (xorshiftNext (xorshiftNext (b - a))) (b - a) (by omega)
    have h3 := breakOther_lt (xorshiftNext (xorshiftNext (xorshiftNext (b - a)))) (b - a)
      (by omega)
    have w1 := within_swapAt r data a b (a + (b - a) / 4 * 2 - 1 - 1)
      (a + breakOther (xorshiftNext (b - a)) (b - a)) hb (by omega) (by omega) (by omega)
      (by omega)
    have w2 := within_swapAt r _ a b (a + (b - a) / 4 * 2 - 1)
      (a + breakOther (xorshiftNext (xorshiftNext (b - a))) (b - a))
      (le_of_le_of_eq hb w1.1.symm) (by omega) (by omega) (by omega) (by omega)
    have w3 := within_swapAt r _ a b (a + (b - a) / 4 * 2 - 1 + 1)
      (a + breakOther (xorshiftNext (xorshiftNext (xorshiftNext (b - a)))) (b - a))
      (le_of_le_of_eq hb (w1.trans w2).1.symm) (by omega) (by omega) (by omega) (by omega)
    exact (w1.trans w2).trans w3
  · exact Within.refl r data a b

/-- The helper `order2CmpFunc` returns its two indices in one order or the other. -/
theorem order2CmpFunc_mem {α : Type} (cmp : α → α → Int) (data : List α) (a b swaps : Nat) :
    ((order2CmpFunc cmp data a b swaps).1 = a ∧ (order2CmpFunc cmp data a b swaps).2.1 = b)
    ∨ ((order2CmpFunc cmp data a b swaps).1 = b ∧ (order2CmpFunc cmp data a b swaps).2.1 = a) := by
  unfold order2CmpFunc
  split_ifs
  · exact Or.inr ⟨rfl, rfl⟩
  · exact Or.inl ⟨rfl, rfl⟩

/-- The helper `medianCmpFunc` returns one of its three indices. -/
theorem medianCmpFunc_mem {α : Type} (cmp : α → α → Int) (data : List α) (a b c swaps : Nat) :
    (medianCmpFunc cmp data a b c swaps).1 = a ∨ (medianCmpFunc cmp data a b c swaps).1 = b
    ∨ (medianCmpFunc cmp data a b c swaps).1 = c := by
  unfold medianCmpFunc
  simp only []
  have h1 := order2CmpFunc_mem cmp data a b swaps
  have h2 := order2CmpFunc_mem cmp data (order2CmpFunc cmp data a b swaps).2.1 c
    (order2CmpFunc cmp data a b swaps).2.2
  have h3 := order2CmpFunc_mem cmp data (order2CmpFunc cmp data a b swaps).1
    (order2CmpFunc cmp data (order2CmpFunc cmp data a b swaps).2.1 c (order2CmpFunc cmp data a b swaps).2.2).1
    (order2CmpFunc cmp data (order2CmpFunc cmp data a b swaps).2.1 c (order2CmpFunc cmp data a b swaps).2.2).2.2
  omega

/-- The helper `medianAdjacentCmpFunc` returns the index `a` or one of its neighbours. -/
theorem medianAdjacentCmpFunc_mem {α : Type} (cmp : α → α → Int) (data : List α) (a swaps : Nat) :
    (medianAdjacentCmpFunc cmp data a swaps).1 = a - 1 ∨ (medianAdjacentCmpFunc cmp data a swaps).1 = a
    ∨ (medianAdjacentCmpFunc cmp data a swaps).1 = a + 1 :=
  medianCmpFunc_mem cmp data (a - 1) a (a + 1) swaps

/-- The pivot chosen in a part that is not empty is an index of the part. -/
theorem choosePivotIndex_bounds {α : Type} (cmp : α → α → Int) (data : List α) (a b : Nat)
    (hab : a < b) :
    a ≤ (choosePivotIndex cmp data a b).1 ∧ (choosePivotIndex cmp data a b).1 < b := by
  unfold choosePivotIndex
  split_ifs with h8 h50
  · simp only []
    have hi := medianAdjacentCmpFunc_mem cmp data (a + (b - a) / 4 * 1) 0
    have hj := medianAdjacentCmpFunc_mem cmp data (a + (b - a) / 4 * 2)
      (medianAdjacentCmpFunc cmp data (a + (b - a) / 4 * 1) 0).2
    have hk := medianAdjacentCmpFunc_mem cmp data (a + (b - a) / 4 * 3)
      (medianAdjacentCmpFunc cmp data (a + (b - a) / 4 * 2)
        (medianAdjacentCmpFunc cmp data (a + (b - a) / 4 * 1) 0).2).2
    have hm := medianCmpFunc_mem cmp data (medianAdjacentCmpFunc cmp data (a + (b - a) / 4 * 1) 0).1
      (medianAdjacentCmpFunc cmp data (a + (b - a) / 4 * 2)
        (medianAdjacentCmpFunc cmp data (a + (b - a) / 4 * 1) 0).2).1
      (medianAdjacentCmpFunc cmp data (a + (b - a) / 4 * 3)
        (medianAdjacentCmpFunc cmp data (a + (b - a) / 4 * 2)
          (medianAdjacentCmpFunc cmp data (a + (b - a) / 4 * 1) 0).2).2).1
      (medianAdjacentCmpFunc cmp data (a + (b - a) / 4 * 3)
        (medianAdjacentCmpFunc cmp data (a + (b - a) / 4 * 2)
          (medianAdjacentCmpFunc cmp data (a + (b - a) / 4 * 1) 0).2).2).2
    omega
  · have hm := medianCmpFunc_mem cmp data (a + (b - a) / 4 * 1) (a + (b - a) / 4 * 2)
      (a + (b - a) / 4 * 3) 0
    omega
  · show a ≤ a + (b - a) / 4 * 2 ∧ a + (b - a) / 4 * 2 < b
    omega

/-- The pivot that `choosePivotCmpFunc` returns for a part that is not empty is an index of
the part. -/
theorem choosePivotCmpFunc_bounds {α : Type} (cmp : α → α → Int) (data : List α) (a b : Nat)
    (hab : a < b) :
    a ≤ (choosePivotCmpFunc cmp data a b).1 ∧ (choosePivotCmpFunc cmp data a b).1 < b :=
  choosePivotIndex_bounds cmp data a b hab

end Walker

namespace Walker

/-! ## The heap sort -/

/-- The loop of `siftDownCmpFunc` keeps the elements. -/
theorem siftDownCmpFunc_perm {α : Type} (cmp : α → α → Int) (hi first fuel : Nat) (data : List α)
    (root : Nat) : (siftDownCmpFunc cmp hi first fuel data root).Perm data := by
  induction fuel generalizing data root with
  | zero => exact List.Perm.refl _
  | succ fuel ih =>
    rw [siftDownCmpFunc]
    split_ifs
    · exact List.Perm.refl _
    · exact (ih _ _).trans (swapAt_perm _ _ _)
    · exact List.Perm.refl _
    · exact (ih _ _).trans (swapAt_perm _ _ _)
    · exact List.Perm.refl _

/-- The loop of `siftDownCmpFunc` restores the heap order: when the order holds except between `root`
and its children, and the children of `root` are not above the parent of `root`, the slice
changes from `root` on and the order holds everywhere. -/
theorem siftDownCmpFunc_spec {α : Type} (cmp : α → α → Int) (r : α → Nat)
    (hneg : ∀ x y, cmp x y < 0 → r x ≤ r y) (hnot : ∀ x y, ¬ cmp x y < 0 → r y ≤ r x)
    (hi first lo fuel : Nat) (data : List α) (root : Nat)
    (hlen : first + hi ≤ data.length) (hfuel : hi ≤ fuel + root) (hlo : lo ≤ root)
    (hex : ∀ c, 1 ≤ c → c < hi → lo ≤ (c - 1) / 2 → (c - 1) / 2 ≠ root →
      rk r data (first + c) ≤ rk r data (first + (c - 1) / 2))
    (hgp : 1 ≤ root → lo ≤ (root - 1) / 2 → ∀ c, 1 ≤ c → c < hi → (c - 1) / 2 = root →
      rk r data (first + c) ≤ rk r data (first + (root - 1) / 2)) :
    Within r data (siftDownCmpFunc cmp hi first fuel data root) (first + root) (first + hi)
    ∧ HeapFrom r (siftDownCmpFunc cmp hi first fuel data root) first lo hi := by
  induction fuel generalizing data root with
  | zero =>
    refine ⟨Within.refl _ _ _ _, ?_⟩
    intro c h1 h2 h3
    exact hex c h1 h2 h3 (by omega)
  | succ fuel ih =>
    have hnochild : (∀ c, 1 ≤ c → c < hi → (c - 1) / 2 = root →
        rk r data (first + c) ≤ rk r data (first + root)) → HeapFrom r data first lo hi := by
      intro hch c h1 h2 h3
      by_cases hp : (c - 1) / 2 = root
      · rw [hp]
        exact hch c h1 h2 hp
      · exact hex c h1 h2 h3 hp
    have key : ∀ ch, (ch = 2 * root + 1 ∨ ch = 2 * root + 2) → ch < hi →
        (∀ c, 1 ≤ c → c < hi → (c - 1) / 2 = root →
          rk r data (first + c) ≤ rk r data (first + ch)) →
        (lessAt cmp data (first + root) (first + ch) = false → HeapFrom r data first lo hi)
        ∧ (lessAt cmp data (first + root) (first + ch) = true →
            Within r data
              (siftDownCmpFunc cmp hi first fuel (swapAt data (first + root) (first + ch)) ch)
              (first + root) (first + hi)
            ∧ HeapFrom r
              (siftDownCmpFunc cmp hi first fuel (swapAt data (first + root) (first + ch)) ch)
              first lo hi) := by
      intro ch hch hchi hsib
      constructor
      · intro hl
        have hle := rk_le_of_not_lessAt cmp r hnot data _ _ (by omega) (by omega) hl
        exact hnochild (fun c h1 h2 hp => le_trans (hsib c h1 h2 hp) hle)
      · intro hl
        have hle := rk_le_of_lessAt cmp r hneg data _ _ hl
        have hsw : ∀ k, rk r (swapAt data (first + root) (first + ch)) k
            = if k = first + ch then rk r data (first + root)
              else if k = first + root then rk r data (first + ch) else rk r data k :=
          fun k => rk_swapAt r data _ _ k (by omega) (by omega)
        have hex1 : ∀ c, 1 ≤ c → c < hi → lo ≤ (c - 1) / 2 → (c - 1) / 2 ≠ ch →
            rk r (swapAt data (first + root) (first + ch)) (first + c)
              ≤ rk r (swapAt data (first + root) (first + ch)) (first + (c - 1) / 2) := by
          intro c h1 h2 h3 h4
          rw [hsw (first + c), hsw (first + (c - 1) / 2)]
          by_cases hp : (c - 1) / 2 = root
          · rw [if_neg (by omega : ¬ first + (c - 1) / 2 = first + ch),
              if_pos (by omega : first + (c - 1) / 2 = first + root)]
            by_cases hc : c = ch
            · rw [if_pos (by omega : first + c = first + ch)]
              exact hle
            · rw [if_neg (by omega : ¬ first + c = first + ch),
                if_neg (by omega : ¬ first + c = first + root)]
              exact hsib c h1 h2 hp
          · rw [if_neg (by omega : ¬ first + (c - 1) / 2 = first + ch),
              if_neg (by omega : ¬ first + (c - 1) / 2 = first + root),
              if_neg (by omega : ¬ first + c = first + ch)]
            by_cases hc : c = root
            · rw [if_pos (by omega : first + c = first + root), hc]
              rw [hc] at h1 h3
              exact hgp h1 h3 ch (by omega) hchi (by omega)
            · rw [if_neg (by omega : ¬ first + c = first + root)]
              exact hex c h1 h2 h3 hp
        have hgp1 : 1 ≤ ch → lo ≤ (ch - 1) / 2 → ∀ c, 1 ≤ c → c < hi → (c - 1) / 2 = ch →
            rk r (swapAt data (first + root) (first + ch)) (first + c)
              ≤ rk r (swapAt data (first + root) (first + ch)) (first + (ch - 1) / 2) := by
          intro _ _ c h1 h2 h3
          rw [hsw (first + c), hsw (first + (ch - 1) / 2),
            if_neg (by omega : ¬ first + c = first + ch),
            if_neg (by omega : ¬ first + c = first + root),
            if_neg (by omega : ¬ first + (ch - 1) / 2 = first + ch),
            if_pos (by omega : first + (ch - 1) / 2 = first + root)]
          have h := hex c h1 h2 (by omega) (by omega)
          rw [h3] at h
          exact h
        obtain ⟨w, hp⟩ := ih (swapAt data (first + root) (first + ch)) ch
          (by rw [length_swapAt]; exact hlen) (by omega) (by omega) hex1 hgp1
        exact ⟨(within_swapAt r data (first + root) (first + hi) _ _ hlen (le_refl _)
          (by omega) (by omega) (by omega)).trans (w.mono (by omega) (le_refl _)), hp⟩
    rw [siftDownCmpFunc]
    by_cases h1 : 2 * root + 1 ≥ hi
    · rw [if_pos h1]
      exact ⟨Within.refl _ _ _ _, hnochild (fun c c1 c2 c3 => by omega)⟩
    · rw [if_neg h1]
      by_cases h2 : 2 * root + 2 < hi
          ∧ lessAt cmp data (first + (2 * root + 1)) (first + (2 * root + 2)) = true
      · rw [if_pos h2]
        have hs := rk_le_of_lessAt cmp r hneg data _ _ h2.2
        obtain ⟨k1, k2⟩ := key (2 * root + 2) (Or.inr rfl) h2.1 (by
          intro c c1 c2 c3
          have hc : c = 2 * root + 1 ∨ c = 2 * root + 2 := by omega
          rcases hc with e | e
          · rw [e]
            exact hs
          · rw [e])
        by_cases h3 : lessAt cmp data (first + root) (first + (2 * root + 2)) = true
        · rw [if_pos h3]
          exact k2 h3
        · rw [if_neg h3]
          exact ⟨Within.refl _ _ _ _, k1 (by simpa using h3)⟩
      · rw [if_neg h2]
        obtain ⟨k1, k2⟩ := key (2 * root + 1) (Or.inl rfl) (by omega) (by
          intro c c1 c2 c3
          have hc : c = 2 * root + 1 ∨ c = 2 * root + 2 := by omega
          rcases hc with e | e
          · rw [e]
          · rw [e]
            have hl : lessAt cmp data (first + (2 * root + 1)) (first + (2 * root + 2))
                = false := by
              by_contra hcon
              exact h2 ⟨by omega, by simpa using hcon⟩
            exact rk_le_of_not_lessAt cmp r hnot data _ _ (by omega) (by omega) hl)
        by_cases h3 : lessAt cmp data (first + root) (first + (2 * root + 1)) = true
        · rw [if_pos h3]
          exact k2 h3
        · rw [if_neg h3]
          exact ⟨Within.refl _ _ _ _, k1 (by simpa using h3)⟩

/-- The first loop of the heap sort keeps the elements. -/
theorem heapBuild_perm {α : Type} (cmp : α → α → Int) (hi first i : Nat) (data : List α) :
    (heapBuild cmp hi first i data).Perm data := by
  induction i generalizing data with
  | zero => exact siftDownCmpFunc_perm _ _ _ _ _ _
  | succ i ih => exact (ih _).trans (siftDownCmpFunc_perm _ _ _ _ _ _)

/-- The first loop of the heap sort, run from a node `i` above which the heap order holds,
changes the part and gives it the heap order. -/
theorem heapBuild_spec {α : Type} (cmp : α → α → Int) (r : α → Nat)
    (hneg : ∀ x y, cmp x y < 0 → r x ≤ r y) (hnot : ∀ x y, ¬ cmp x y < 0 → r y ≤ r x)
    (hi first i : Nat) (data : List α) (hlen : first + hi ≤ data.length)
    (hheap : HeapFrom r data first (i + 1) hi) :
    Within r data (heapBuild cmp hi first i data) first (first + hi)
    ∧ HeapFrom r (heapBuild cmp hi first i data) first 0 hi := by
  induction i generalizing data with
  | zero =>
    obtain ⟨w, h⟩ := siftDownCmpFunc_spec cmp r hneg hnot hi first 0 hi data 0 hlen (by omega)
      (le_refl _) (fun c h1 h2 _ h4 => hheap c h1 h2 (by omega)) (fun h => by omega)
    exact ⟨w, h⟩
  | succ i ih =>
    obtain ⟨w, h⟩ := siftDownCmpFunc_spec cmp r hneg hnot hi first (i + 1) hi data (i + 1) hlen
      (by omega) (le_refl _) (fun c h1 h2 h3 h4 => hheap c h1 h2 (by omega))
      (fun h1 h2 => by omega)
    obtain ⟨w1, h1⟩ := ih (siftDownCmpFunc cmp hi first hi data (i + 1))
      (by rw [w.1]; exact hlen) h
    exact ⟨(w.mono (by omega) (le_refl _)).trans w1, h1⟩

/-- In a heap the rank of the root is the greatest. -/
theorem rk_le_root {α : Type} (r : α → Nat) (data : List α) (first n : Nat)
    (h : HeapFrom r data first 0 n) (c : Nat) (hc : c < n) :
    rk r data (first + c) ≤ rk r data first := by
  induction c using Nat.strong_induction_on with
  | _ c ih =>
    by_cases h0 : c = 0
    · rw [h0]
      exact le_refl _
    · exact le_trans (h c (by omega) hc (Nat.zero_le _)) (ih ((c - 1) / 2) (by omega) (by omega))

/-- The second loop of the heap sort keeps the elements. -/
theorem heapPop_perm {α : Type} (cmp : α → α → Int) (first n : Nat) (data : List α) :
    (heapPop cmp first n data).Perm data := by
  induction n generalizing data with
  | zero => exact List.Perm.refl _
  | succ i ih => exact (ih _).trans ((siftDownCmpFunc_perm _ _ _ _ _ _).trans (swapAt_perm _ _ _))

/-- The second loop of the heap sort changes a heap of `n` nodes within its part and leaves
the part in the order of the ranks. -/
theorem heapPop_spec {α : Type} (cmp : α → α → Int) (r : α → Nat)
    (hneg : ∀ x y, cmp x y < 0 → r x ≤ r y) (hnot : ∀ x y, ¬ cmp x y < 0 → r y ≤ r x)
    (first n : Nat) (data : List α) (hlen : first + n ≤ data.length)
    (hheap : HeapFrom r data first 0 n) :
    Within r data (heapPop cmp first n data) first (first + n)
    ∧ SortedRange r (heapPop cmp first n data) first (first + n) := by
  induction n generalizing data with
  | zero =>
    refine ⟨Within.refl _ _ _ _, ?_⟩
    intro i j h1 h2 h3
    omega
  | succ i ih =>
    have hsw : ∀ k, rk r (swapAt data first (first + i)) k
        = if k = first + i then rk r data first
          else if k = first then rk r data (first + i) else rk r data k :=
      fun k => rk_swapAt r data _ _ k (by omega) (by omega)
    have hw0 : Within r data (swapAt data first (first + i)) first (first + (i + 1)) :=
      within_swapAt r data first (first + (i + 1)) first (first + i) hlen (le_refl _) (by omega)
        (by omega) (by omega)
    obtain ⟨w1, h1⟩ := siftDownCmpFunc_spec cmp r hneg hnot i first 0 i
      (swapAt data first (first + i)) 0 (by rw [length_swapAt]; omega) (by omega) (le_refl _)
      (by
        intro c c1 c2 c3 c4
        rw [hsw (first + c), hsw (first + (c - 1) / 2),
          if_neg (by omega : ¬ first + c = first + i), if_neg (by omega : ¬ first + c = first),
          if_neg (by omega : ¬ first + (c - 1) / 2 = first + i),
          if_neg (by omega : ¬ first + (c - 1) / 2 = first)]
        exact hheap c c1 (by omega) c3)
      (fun h => by omega)
    obtain ⟨w2, h2⟩ := ih (siftDownCmpFunc cmp i first i (swapAt data first (first + i)) 0)
      (by rw [w1.1, length_swapAt]; omega) h1
    have hupper : ∀ k, first ≤ k → k < first + i →
        rk r (swapAt data first (first + i)) k ≤ rk r data first := by
      intro k k1 k2
      rw [hsw k, if_neg (by omega)]
      by_cases hk : k = first
      · rw [if_pos hk]
        exact rk_le_root r data first (i + 1) hheap i (by omega)
      · rw [if_neg hk]
        have h := rk_le_root r data first (i + 1) hheap (k - first) (by omega)
        rw [show first + (k - first) = k by omega] at h
        exact h
    rw [heapPop]
    refine ⟨hw0.trans (((w1.mono (by omega) (by omega)).trans
      (w2.mono (le_refl _) (by omega)))), ?_⟩
    intro i1 j1 g1 g2 g3
    by_cases hj : j1 < first + i
    · exact h2 i1 j1 g1 g2 hj
    · have hj1 : j1 = first + i := by omega
      have e1 : rk r (heapPop cmp first i
          (siftDownCmpFunc cmp i first i (swapAt data first (first + i)) 0)) j1 = rk r data first := by
        rw [w2.2.1 j1 (by omega), w1.2.1 j1 (by omega), hsw j1, if_pos hj1]
      rw [e1]
      exact w2.upper _ ((w1.mono (by omega) (le_refl _)).upper _ hupper) i1 g1 (by omega)

/-- The heap sort keeps the elements. -/
theorem heapSortCmpFunc_perm {α : Type} (cmp : α → α → Int) (data : List α) (a b : Nat) :
    (heapSortCmpFunc cmp data a b).Perm data :=
  (heapPop_perm _ _ _ _).trans (heapBuild_perm _ _ _ _ _)

/-- The heap sort changes the slice within the part and leaves the part in the order of the
ranks. -/
theorem heapSortCmpFunc_spec {α : Type} (cmp : α → α → Int) (r : α → Nat)
    (hneg : ∀ x y, cmp x y < 0 → r x ≤ r y) (hnot : ∀ x y, ¬ cmp x y < 0 → r y ≤ r x)
    (data : List α) (a b : Nat) (hab : a ≤ b) (hb : b ≤ data.length) :
    Within r data (heapSortCmpFunc cmp data a b) a b ∧ SortedRange r (heapSortCmpFunc cmp data a b) a b := by
  obtain ⟨w1, h1⟩ := heapBuild_spec cmp r hneg hnot (b - a) a ((b - a - 1) / 2) data
    (by omega) (fun c c1 c2 c3 => by omega)
  obtain ⟨w2, h2⟩ := heapPop_spec cmp r hneg hnot a (b - a)
    (heapBuild cmp (b - a) a ((b - a - 1) / 2) data) (by rw [w1.1]; omega) h1
  have e : a + (b - a) = b := by omega
  rw [e] at w1 w2 h2
  exact ⟨w1.trans w2, h2⟩

end Walker

namespace Walker

/-! ## The partial insertion sort -/

/-- A change within a part keeps the elements before the part at most those of the part. -/
theorem LeftBelow.of_within {α : Type} {r : α → Nat} {d1 d2 : List α} {a b : Nat}
    (h : LeftBelow r d1 a b) (w : Within r d1 d2 a b) : LeftBelow r d2 a b := by
  intro k m hk hm1 hm2
  obtain ⟨m1, g1, g2, e⟩ := w.2.2 m hm1 hm2
  rw [w.2.1 k (Or.inl hk), e]
  exact h k m1 hk g1 g2

/-- A part whose neighbours are in the order of the ranks is in that order. -/
theorem sortedRange_of_pairs {α : Type} (r : α → Nat) (data : List α) (a b : Nat)
    (h : ∀ k, a < k → k < b → rk r data (k - 1) ≤ rk r data k) : SortedRange r data a b := by
  intro i j hi hij hj
  induction j with
  | zero => omega
  | succ j ih =>
    have hstep := h (j + 1) (by omega) hj
    rw [Nat.add_sub_cancel] at hstep
    by_cases hc : i = j
    · rw [hc]
      exact hstep
    · exact le_trans (ih (by omega) (by omega)) hstep

/-- The first inner loop of the partial insertion sort stops within its counter, after
neighbours in order and, before the end, on a pair out of order. -/
theorem pisScan_spec {α : Type} (cmp : α → α → Int) (data : List α) (d i : Nat) :
    i ≤ pisScan cmp data d i ∧ pisScan cmp data d i ≤ i + d
    ∧ (∀ k, i ≤ k → k < pisScan cmp data d i → lessAt cmp data k (k - 1) = false)
    ∧ (pisScan cmp data d i < i + d →
        lessAt cmp data (pisScan cmp data d i) (pisScan cmp data d i - 1) = true) := by
  induction d generalizing i with
  | zero =>
    refine ⟨le_refl _, le_refl _, ?_, ?_⟩
    · intro k h1 h2
      simp only [pisScan] at h2
      omega
    · intro h
      simp only [pisScan] at h
      omega
  | succ d ih =>
    by_cases hp : lessAt cmp data i (i - 1) = false
    · obtain ⟨h1, h2, h3, h4⟩ := ih (i + 1)
      rw [pisScan, if_pos hp]
      refine ⟨by omega, by omega, ?_, ?_⟩
      · intro k hk1 hk2
        by_cases hki : k = i
        · rw [hki]
          exact hp
        · exact h3 k (by omega) hk2
      · intro h
        exact h4 (by omega)
    · rw [pisScan, if_neg hp]
      refine ⟨le_refl _, by omega, ?_, ?_⟩
      · intro k hk1 hk2
        omega
      · intro _
        simpa using hp

/-- The loop that shifts to the left keeps the elements. -/
theorem shiftLeft_perm {α : Type} (cmp : α → α → Int) (j : Nat) (data : List α) :
    (shiftLeft cmp j data).Perm data := by
  induction j generalizing data with
  | zero => exact List.Perm.refl _
  | succ j ih =>
    rw [shiftLeft]
    split_ifs
    · exact (ih _).trans (swapAt_perm _ _ _)
    · exact List.Perm.refl _

/-- The loop that shifts to the right keeps the elements. -/
theorem shiftRight_perm {α : Type} (cmp : α → α → Int) (d : Nat) (data : List α) (j : Nat) :
    (shiftRight cmp d data j).Perm data := by
  induction d generalizing data j with
  | zero => exact List.Perm.refl _
  | succ d ih =>
    rw [shiftRight]
    split_ifs
    · exact (ih _ _).trans (swapAt_perm _ _ _)
    · exact List.Perm.refl _

/-- The shifts of one round of the partial insertion sort keep the elements. -/
theorem pisShift_perm {α : Type} (cmp : α → α → Int) (a b : Nat) (data : List α) (i : Nat) :
    (pisShift cmp a b data i).Perm data := by
  unfold pisShift
  simp only []
  have h2 : (if i - a ≥ 2 then shiftLeft cmp (i - 1) (swapAt data i (i - 1))
      else swapAt data i (i - 1)).Perm data := by
    split_ifs
    · exact (shiftLeft_perm _ _ _).trans (swapAt_perm _ _ _)
    · exact swapAt_perm _ _ _
  generalize (if i - a ≥ 2 then shiftLeft cmp (i - 1) (swapAt data i (i - 1))
    else swapAt data i (i - 1)) = d2 at h2 ⊢
  by_cases hc : b - i ≥ 2
  · rw [if_pos hc]
    exact (shiftRight_perm _ _ _ _).trans h2
  · rw [if_neg hc]
    exact h2

/-- The outer loop of the partial insertion sort keeps the elements. -/
theorem pisLoop_perm {α : Type} (cmp : α → α → Int) (a b steps : Nat) (data : List α)
    (i : Nat) : (pisLoop cmp a b steps data i).1.Perm data := by
  induction steps generalizing data i with
  | zero => exact List.Perm.refl _
  | succ steps ih =>
    rw [pisLoop]
    split_ifs
    · exact List.Perm.refl _
    · exact List.Perm.refl _
    · exact (ih _ _).trans (pisShift_perm _ _ _ _ _)

/-- The partial insertion sort keeps the elements. -/
theorem partialInsertionSortCmpFunc_perm {α : Type} (cmp : α → α → Int) (data : List α) (a b : Nat) :
    (partialInsertionSortCmpFunc cmp data a b).1.Perm data :=
  pisLoop_perm _ _ _ _ _ _

/-- The loop that shifts to the left, run on an element that no element before it exceeds in
rank, leaves the rank at every index as it was. -/
theorem shiftLeft_below {α : Type} (cmp : α → α → Int) (r : α → Nat)
    (hneg : ∀ x y, cmp x y < 0 → r x ≤ r y) (j : Nat) (data : List α) (hj : j < data.length)
    (h : ∀ k, k < j → rk r data k ≤ rk r data j) (k : Nat) :
    rk r (shiftLeft cmp j data) k = rk r data k := by
  induction j generalizing data with
  | zero => rfl
  | succ j ih =>
    rw [shiftLeft]
    by_cases hl : lessAt cmp data (j + 1) j = true
    · rw [if_pos hl]
      have hle := rk_le_of_lessAt cmp r hneg data _ _ hl
      have hge := h j (by omega)
      have hsw : ∀ k, rk r (swapAt data (j + 1) j) k = rk r data k := by
        intro k
        rw [rk_swapAt r data (j + 1) j k hj (by omega)]
        split_ifs with e1 e2
        · rw [e1]
          omega
        · rw [e2]
          omega
        · rfl
      rw [ih (swapAt data (j + 1) j) (by rw [length_swapAt]; omega) (by
        intro k1 hk1
        rw [hsw, hsw]
        exact le_trans (h k1 (by omega)) hle), hsw]
    · rw [if_neg hl]

/-- The loop that shifts to the left, run at `j` after a part `[a, j)` in the order of the
ranks, on an element that no element before `a` exceeds in rank: the ranks change only in
`[a, j]`, which ends up in the order of the ranks. -/
theorem shiftLeft_spec {α : Type} (cmp : α → α → Int) (r : α → Nat)
    (hneg : ∀ x y, cmp x y < 0 → r x ≤ r y) (hnot : ∀ x y, ¬ cmp x y < 0 → r y ≤ r x)
    (a j : Nat) (data : List α) (ha : a ≤ j) (hj : j < data.length)
    (hsorted : ∀ k, a < k → k < j → rk r data (k - 1) ≤ rk r data k)
    (hleft : ∀ k, k < a → rk r data k ≤ rk r data j) :
    (∀ k, k < a ∨ j < k → rk r (shiftLeft cmp j data) k = rk r data k)
    ∧ (∀ k, a ≤ k → k ≤ j → ∃ k1, a ≤ k1 ∧ k1 ≤ j ∧ rk r (shiftLeft cmp j data) k = rk r data k1)
    ∧ (∀ k, a < k → k ≤ j → rk r (shiftLeft cmp j data) (k - 1) ≤ rk r (shiftLeft cmp j data) k)
    ∧ (rk r (shiftLeft cmp j data) j = rk r data j
        ∨ (a < j ∧ rk r (shiftLeft cmp j data) j = rk r data (j - 1))) := by
  induction j generalizing data with
  | zero =>
    refine ⟨fun k _ => rfl, fun k h1 h2 => ⟨k, h1, h2, rfl⟩, fun k h1 h2 => by omega,
      Or.inl rfl⟩
  | succ j ih =>
    rw [shiftLeft]
    by_cases hl : lessAt cmp data (j + 1) j = true
    · rw [if_pos hl]
      have hle := rk_le_of_lessAt cmp r hneg data _ _ hl
      have hsw : ∀ k, rk r (swapAt data (j + 1) j) k
          = if k = j then rk r data (j + 1) else if k = j + 1 then rk r data j
            else rk r data k :=
        fun k => rk_swapAt r data (j + 1) j k hj (by omega)
      have hlen : j < (swapAt data (j + 1) j).length := by
        rw [length_swapAt]
        omega
      by_cases haj : a ≤ j
      · obtain ⟨c2, c3, c4, c5⟩ := ih (swapAt data (j + 1) j) haj hlen
          (by
            intro k h1 h2
            rw [hsw (k - 1), hsw k, if_neg (by omega), if_neg (by omega), if_neg (by omega),
              if_neg (by omega)]
            exact hsorted k h1 (by omega))
          (by
            intro k h1
            rw [hsw k, hsw j, if_neg (by omega), if_neg (by omega), if_pos rfl]
            exact hleft k h1)
        refine ⟨?_, ?_, ?_, ?_⟩
        · intro k hk
          rw [c2 k (by omega), hsw k, if_neg (by omega), if_neg (by omega)]
        · intro k h1 h2
          by_cases hk : k ≤ j
          · obtain ⟨k1, g1, g2, e⟩ := c3 k h1 hk
            rw [e, hsw k1]
            by_cases hk1 : k1 = j
            · rw [if_pos hk1]
              exact ⟨j + 1, by omega, le_refl _, rfl⟩
            · rw [if_neg hk1, if_neg (by omega)]
              exact ⟨k1, g1, by omega, rfl⟩
          · have hk1 : k = j + 1 := by omega
            rw [hk1, c2 (j + 1) (by omega), hsw (j + 1), if_neg (by omega), if_pos rfl]
            exact ⟨j, haj, by omega, rfl⟩
        · intro k h1 h2
          by_cases hk : k ≤ j
          · exact c4 k h1 hk
          · have hk1 : k = j + 1 := by omega
            rw [hk1, Nat.add_sub_cancel, c2 (j + 1) (by omega), hsw (j + 1), if_neg (by omega),
              if_pos rfl]
            rcases c5 with e | ⟨g, e⟩
            · rw [e, hsw j, if_pos rfl]
              exact hle
            · rw [e, hsw (j - 1), if_neg (by omega), if_neg (by omega)]
              exact hsorted j g (by omega)
        · right
          refine ⟨by omega, ?_⟩
          rw [Nat.add_sub_cancel, c2 (j + 1) (by omega), hsw (j + 1), if_neg (by omega),
            if_pos rfl]
      · have haj1 : a = j + 1 := by omega
        have hge := hleft j (by omega)
        have hsw1 : ∀ k, rk r (swapAt data (j + 1) j) k = rk r data k := by
          intro k
          rw [hsw k]
          split_ifs with e1 e2
          · rw [e1]
            omega
          · rw [e2]
            omega
          · rfl
        have hall : ∀ k, rk r (shiftLeft cmp j (swapAt data (j + 1) j)) k = rk r data k := by
          intro k
          rw [shiftLeft_below cmp r hneg j (swapAt data (j + 1) j) hlen (by
            intro k1 hk1
            rw [hsw1, hsw1]
            exact le_trans (hleft k1 (by omega)) hle), hsw1]
        exact ⟨fun k _ => hall k, fun k h1 h2 => ⟨k, h1, h2, hall k⟩, fun k h1 h2 => by omega,
          Or.inl (hall _)⟩
    · rw [if_neg hl]
      have hge := rk_le_of_not_lessAt cmp r hnot data (j + 1) j hj (by omega)
        (by simpa using hl)
      refine ⟨fun k _ => rfl, fun k h1 h2 => ⟨k, h1, h2, rfl⟩, ?_, Or.inl rfl⟩
      intro k h1 h2
      by_cases hk : k ≤ j
      · exact hsorted k h1 (by omega)
      · have hk1 : k = j + 1 := by omega
        rw [hk1, Nat.add_sub_cancel]
        exact hge

/-- The loop that shifts to the right changes the slice from the index before its start. -/
theorem shiftRight_within {α : Type} (cmp : α → α → Int) (r : α → Nat) (lo b d : Nat)
    (data : List α) (j : Nat) (hlo : lo < j) (hjb : j + d ≤ b) (hb : b ≤ data.length) :
    Within r data (shiftRight cmp d data j) lo b := by
  induction d generalizing data j with
  | zero => exact Within.refl _ _ _ _
  | succ d ih =>
    rw [shiftRight]
    split_ifs
    · exact (within_swapAt r data lo b j (j - 1) hb (by omega) (by omega) (by omega)
        (by omega)).trans (ih _ _ (by omega) (by omega) (by rw [length_swapAt]; exact hb))
    · exact Within.refl _ _ _ _

/-- The shifts of one round of the partial insertion sort, at an index `i` after a part
`[a, i)` in the order of the ranks: the slice changes within `[a, b)` and `[a, i)` stays in
the order of the ranks. -/
theorem pisShift_spec {α : Type} (cmp : α → α → Int) (r : α → Nat)
    (hneg : ∀ x y, cmp x y < 0 → r x ≤ r y) (hnot : ∀ x y, ¬ cmp x y < 0 → r y ≤ r x)
    (a b : Nat) (data : List α) (i : Nat) (hai : a < i) (hib : i < b) (hb : b ≤ data.length)
    (hsorted : ∀ k, a < k → k < i → rk r data (k - 1) ≤ rk r data k)
    (hleft : LeftBelow r data a b) :
    Within r data (pisShift cmp a b data i) a b
    ∧ ∀ k, a < k → k < i →
        rk r (pisShift cmp a b data i) (k - 1) ≤ rk r (pisShift cmp a b data i) k := by
  have hsw : ∀ k, rk r (swapAt data i (i - 1)) k
      = if k = i - 1 then rk r data i else if k = i then rk r data (i - 1) else rk r data k :=
    fun k => rk_swapAt r data i (i - 1) k (by omega) (by omega)
  have hw1 : Within r data (swapAt data i (i - 1)) a b :=
    within_swapAt r data a b i (i - 1) hb (by omega) hib (by omega) (by omega)
  have hlen1 := length_swapAt data i (i - 1)
  have h2 : Within r data (if i - a ≥ 2 then shiftLeft cmp (i - 1) (swapAt data i (i - 1))
        else swapAt data i (i - 1)) a b
      ∧ ∀ k, a < k → k < i →
        rk r (if i - a ≥ 2 then shiftLeft cmp (i - 1) (swapAt data i (i - 1))
          else swapAt data i (i - 1)) (k - 1)
        ≤ rk r (if i - a ≥ 2 then shiftLeft cmp (i - 1) (swapAt data i (i - 1))
          else swapAt data i (i - 1)) k := by
    by_cases hc : i - a ≥ 2
    · rw [if_pos hc]
      obtain ⟨c2, c3, c4, _⟩ := shiftLeft_spec cmp r hneg hnot a (i - 1)
        (swapAt data i (i - 1)) (by omega) (by omega)
        (by
          intro k h1 h2
          rw [hsw (k - 1), hsw k, if_neg (by omega), if_neg (by omega), if_neg (by omega),
            if_neg (by omega)]
          exact hsorted k h1 (by omega))
        (by
          intro k h1
          rw [hsw k, hsw (i - 1), if_neg (by omega), if_neg (by omega), if_pos rfl]
          exact hleft k i h1 (by omega) hib)
      refine ⟨hw1.trans ⟨(shiftLeft_perm _ _ _).length_eq, ?_, ?_⟩, ?_⟩
      · intro k hk
        exact c2 k (by omega)
      · intro k h1 h2
        by_cases hk : k ≤ i - 1
        · obtain ⟨k1, g1, g2, e⟩ := c3 k h1 hk
          exact ⟨k1, g1, by omega, e⟩
        · exact ⟨k, h1, h2, c2 k (by omega)⟩
      · intro k h1 h2
        exact c4 k h1 (by omega)
    · rw [if_neg hc]
      exact ⟨hw1, fun k h1 h2 => by omega⟩
  unfold pisShift
  simp only []
  generalize (if i - a ≥ 2 then shiftLeft cmp (i - 1) (swapAt data i (i - 1))
    else swapAt data i (i - 1)) = d2 at h2 ⊢
  by_cases hc : b - i ≥ 2
  · rw [if_pos hc]
    have hw3 := shiftRight_within cmp r i b (b - (i + 1)) d2 (i + 1) (by omega) (by omega)
      (by rw [h2.1.1]; exact hb)
    refine ⟨h2.1.trans (hw3.mono (by omega) (le_refl _)), ?_⟩
    intro k h1 h3
    rw [hw3.2.1 (k - 1) (by omega), hw3.2.1 k (by omega)]
    exact h2.2 k h1 h3
  · rw [if_neg hc]
    exact h2

/-- The outer loop of the partial insertion sort, at an index `i` after a part `[a, i)` in
the order of the ranks: the slice changes within `[a, b)`, and when the loop reports a sorted
part the part is in the order of the ranks. -/
theorem pisLoop_spec {α : Type} (cmp : α → α → Int) (r : α → Nat)
    (hneg : ∀ x y, cmp x y < 0 → r x ≤ r y) (hnot : ∀ x y, ¬ cmp x y < 0 → r y ≤ r x)
    (a b steps : Nat) (data : List α) (i : Nat) (hai : a < i) (hib : i ≤ b)
    (hb : b ≤ data.length)
    (hsorted : ∀ k, a < k → k < i → rk r data (k - 1) ≤ rk r data k)
    (hleft : LeftBelow r data a b) :
    Within r data (pisLoop cmp a b steps data i).1 a b
    ∧ ((pisLoop cmp a b steps data i).2 = true →
        SortedRange r (pisLoop cmp a b steps data i).1 a b) := by
  induction steps generalizing data i with
  | zero => exact ⟨Within.refl _ _ _ _, fun h => by simp [pisLoop] at h⟩
  | succ steps ih =>
    obtain ⟨s1, s2, s3, _⟩ := pisScan_spec cmp data (b - i) i
    have hsorted1 : ∀ k, a < k → k < pisScan cmp data (b - i) i →
        rk r data (k - 1) ≤ rk r data k := by
      intro k h1 h2
      by_cases hk : k < i
      · exact hsorted k h1 hk
      · exact rk_le_of_not_lessAt cmp r hnot data k (k - 1) (by omega) (by omega)
          (s3 k (by omega) h2)
    rw [pisLoop]
    generalize pisScan cmp data (b - i) i = i1 at *
    by_cases hc1 : i1 = b
    · rw [if_pos hc1]
      refine ⟨Within.refl _ _ _ _, fun _ => ?_⟩
      rw [hc1] at hsorted1
      exact sortedRange_of_pairs r data a b hsorted1
    · rw [if_neg hc1]
      by_cases hc2 : b - a < 50
      · rw [if_pos hc2]
        exact ⟨Within.refl _ _ _ _, fun h => by simp at h⟩
      · rw [if_neg hc2]
        obtain ⟨w, hs⟩ := pisShift_spec cmp r hneg hnot a b data i1 (by omega) (by omega) hb
          hsorted1 hleft
        obtain ⟨w1, hs1⟩ := ih (pisShift cmp a b data i1) i1 (by omega) (by omega)
          (by rw [w.1]; exact hb) hs (hleft.of_within w)
        exact ⟨w.trans w1, hs1⟩

/-- The partial insertion sort of a part with nothing greater before it changes the slice
within the part, and when it reports a sorted part the part is in the order of the ranks. -/
theorem partialInsertionSortCmpFunc_spec {α : Type} (cmp : α → α → Int) (r : α → Nat)
    (hneg : ∀ x y, cmp x y < 0 → r x ≤ r y) (hnot : ∀ x y, ¬ cmp x y < 0 → r y ≤ r x)
    (data : List α) (a b : Nat) (hab : a < b) (hb : b ≤ data.length)
    (hleft : LeftBelow r data a b) :
    Within r data (partialInsertionSortCmpFunc cmp data a b).1 a b
    ∧ ((partialInsertionSortCmpFunc cmp data a b).2 = true →
        SortedRange r (partialInsertionSortCmpFunc cmp data a b).1 a b) :=
  pisLoop_spec cmp r hneg hnot a b 5 data (a + 1) (by omega) (by omega) hb
    (fun k h1 h2 => by omega) hleft

end Walker

namespace Walker

/-! ## The pattern-defeating quicksort -/

/-- A part is in the order of the ranks when it has the ranks of a slice where it is. -/
theorem SortedRange.of_same_ranks {α : Type} {r : α → Nat} {d1 d2 : List α} {a b : Nat}
    (h : SortedRange r d1 a b) (e : ∀ k, a ≤ k → k < b → rk r d2 k = rk r d1 k) :
    SortedRange r d2 a b := by
  intro i j h1 h2 h3
  rw [e i h1 (by omega), e j (by omega) h3]
  exact h i j h1 h2 h3

/-- Two parts in the order of the ranks around an index `mid`, the first with ranks at most
that of `mid` and the second with ranks at least that of `mid`, make one part in that order. -/
theorem sortedRange_join {α : Type} (r : α → Nat) (out : List α) (a mid b m : Nat)
    (h1 : SortedRange r out a mid) (h2 : SortedRange r out (mid + 1) b)
    (hl : ∀ k, a ≤ k → k < mid → rk r out k ≤ m) (hm : rk r out mid = m)
    (hr : ∀ k, mid < k → k < b → m ≤ rk r out k) : SortedRange r out a b := by
  intro i j g1 g2 g3
  by_cases hj : j < mid
  · exact h1 i j g1 g2 hj
  · by_cases hi : mid < i
    · exact h2 i j (by omega) g2 g3
    · have hi1 : rk r out i ≤ m := by
        by_cases hi2 : i = mid
        · rw [hi2, hm]
        · exact hl i g1 (by omega)
      have hj1 : m ≤ rk r out j := by
        by_cases hj2 : j = mid
        · rw [hj2, hm]
        · exact hr j (by omega) g3
      exact le_trans hi1 hj1

/-- The quicksort `pdqsortCmpFunc`, on a part `[a, b)` of the slice with nothing greater before
it and a counter of at least its length: it keeps the elements, changes the slice within the
part and leaves the part in the order of any rank that the comparison respects. -/
theorem pdqsortCmpFunc_spec {α : Type} (cmp : α → α → Int) (r : α → Nat)
    (hneg : ∀ x y, cmp x y < 0 → r x ≤ r y) (hnot : ∀ x y, ¬ cmp x y < 0 → r y ≤ r x)
    (fuel : Nat) (data : List α) (a b limit : Nat) (wasBalanced wasPartitioned : Bool)
    (hfuel : b - a ≤ fuel) (hab : a ≤ b) (hb : b ≤ data.length)
    (hleft : LeftBelow r data a b) :
    (pdqsortCmpFunc cmp fuel data a b limit wasBalanced wasPartitioned).Perm data
    ∧ Within r data (pdqsortCmpFunc cmp fuel data a b limit wasBalanced wasPartitioned) a b
    ∧ SortedRange r (pdqsortCmpFunc cmp fuel data a b limit wasBalanced wasPartitioned) a b := by
  induction fuel generalizing data a b limit wasBalanced wasPartitioned with
  | zero =>
    refine ⟨List.Perm.refl _, Within.refl _ _ _ _, ?_⟩
    intro i j h1 h2 h3
    omega
  | succ fuel ih =>
    rw [pdqsortCmpFunc]
    by_cases h12 : b - a ≤ 12
    · rw [if_pos h12]
      exact ⟨insertionSortRange_perm cmp data a b hab,
        insertionSortRange_spec cmp r hneg hnot data a b hab hb⟩
    rw [if_neg h12]
    by_cases hlim : limit = 0
    · rw [if_pos hlim]
      exact ⟨heapSortCmpFunc_perm cmp data a b, heapSortCmpFunc_spec cmp r hneg hnot data a b hab hb⟩
    rw [if_neg hlim]
    simp only []
    have f1 : (if wasBalanced = true then data else breakPatternsCmpFunc data a b).Perm data
        ∧ Within r data (if wasBalanced = true then data else breakPatternsCmpFunc data a b) a b := by
      by_cases hw : wasBalanced = true
      · rw [if_pos hw]
        exact ⟨List.Perm.refl _, Within.refl _ _ _ _⟩
      · rw [if_neg hw]
        exact ⟨breakPatternsCmpFunc_perm data a b, breakPatternsCmpFunc_within r data a b hb⟩
    generalize (if wasBalanced = true then data else breakPatternsCmpFunc data a b) = data1 at f1 ⊢
    generalize (if wasBalanced = true then limit else limit - 1) = limit1
    have hb1 : b ≤ data1.length := by
      rw [f1.2.1]
      exact hb
    have f2 := choosePivotCmpFunc_bounds cmp data1 a b (by omega)
    generalize choosePivotCmpFunc cmp data1 a b = choice at f2 ⊢
    obtain ⟨chosen, hint⟩ := choice
    simp only [] at f2 ⊢
    have f3 : (if hint = SortedHint.decreasingHint then reverseRangeCmpFunc data1 a b
          else data1).Perm data1
        ∧ Within r data1 (if hint = SortedHint.decreasingHint then reverseRangeCmpFunc data1 a b
          else data1) a b := by
      by_cases hh : hint = SortedHint.decreasingHint
      · rw [if_pos hh]
        exact ⟨reverseRangeCmpFunc_perm data1 a b, reverseRangeCmpFunc_within r data1 a b (by omega) hb1⟩
      · rw [if_neg hh]
        exact ⟨List.Perm.refl _, Within.refl _ _ _ _⟩
    generalize (if hint = SortedHint.decreasingHint then reverseRangeCmpFunc data1 a b else data1)
      = data2 at f3 ⊢
    have hb2 : b ≤ data2.length := by
      rw [f3.2.1]
      exact hb1
    have f4 : a ≤ (if hint = SortedHint.decreasingHint then b - 1 - (chosen - a)
          else chosen)
        ∧ (if hint = SortedHint.decreasingHint then b - 1 - (chosen - a) else chosen)
          < b := by
      by_cases hh : hint = SortedHint.decreasingHint
      · rw [if_pos hh]
        omega
      · rw [if_neg hh]
        exact f2
    generalize (if hint = SortedHint.decreasingHint then b - 1 - (chosen - a) else chosen)
      = pivot at f4 ⊢
    generalize (wasBalanced && wasPartitioned
      && decide ((if hint = SortedHint.decreasingHint then SortedHint.increasingHint else hint)
        = SortedHint.increasingHint)) = c
    have hleft2 : LeftBelow r data2 a b := hleft.of_within (f1.2.trans f3.2)
    have f5 : (if c = true then partialInsertionSortCmpFunc cmp data2 a b else (data2, false)).1.Perm
          data2
        ∧ Within r data2
          (if c = true then partialInsertionSortCmpFunc cmp data2 a b else (data2, false)).1 a b
        ∧ ((if c = true then partialInsertionSortCmpFunc cmp data2 a b else (data2, false)).2 = true →
          SortedRange r
            (if c = true then partialInsertionSortCmpFunc cmp data2 a b else (data2, false)).1 a b) := by
      by_cases hc : c = true
      · rw [if_pos hc]
        exact ⟨partialInsertionSortCmpFunc_perm cmp data2 a b,
          partialInsertionSortCmpFunc_spec cmp r hneg hnot data2 a b (by omega) hb2 hleft2⟩
      · rw [if_neg hc]
        exact ⟨List.Perm.refl _, Within.refl _ _ _ _, fun h => by simp at h⟩
    generalize (if c = true then partialInsertionSortCmpFunc cmp data2 a b else (data2, false))
      = attempt at f5 ⊢
    obtain ⟨d3, flag⟩ := attempt
    simp only [] at f5 ⊢
    have p3 : d3.Perm data := f5.1.trans (f3.1.trans f1.1)
    have w3 : Within r data d3 a b := f1.2.trans (f3.2.trans f5.2.1)
    have hb3 : b ≤ d3.length := by
      rw [w3.1]
      exact hb
    have hleft3 : LeftBelow r d3 a b := hleft.of_within w3
    by_cases hflag : flag = true
    · rw [if_pos hflag]
      exact ⟨p3, w3, f5.2.2 hflag⟩
    rw [if_neg hflag]
    by_cases heq : a > 0 ∧ lessAt cmp d3 (a - 1) pivot = false
    · rw [if_pos heq]
      have hle := rk_le_of_not_lessAt cmp r hnot d3 (a - 1) pivot (by omega) (by omega) heq.2
      have hge : ∀ m, a ≤ m → m < b → rk r d3 pivot ≤ rk r d3 m := fun m h1 h2 =>
        le_trans hle (hleft3 (a - 1) m (by omega) h1 h2)
      have pe := partitionEqualCmpFunc_perm cmp d3 a b pivot
      obtain ⟨w4, m1, m2, m3⟩ := partitionEqualCmpFunc_spec cmp r hneg hnot d3 a b pivot hb3 f4.1 f4.2
      generalize partitionEqualCmpFunc cmp d3 a b pivot = pe4 at pe w4 m1 m2 m3 ⊢
      obtain ⟨d4, mid⟩ := pe4
      simp only [] at pe w4 m1 m2 m3 ⊢
      have hge4 := w4.lower _ hge
      have hleft4 : LeftBelow r d4 a b := hleft3.of_within w4
      obtain ⟨q1, q2, q3⟩ := ih d4 mid b limit1 wasBalanced wasPartitioned (by omega) m2
        (by rw [w4.1]; exact hb3)
        (by
          intro k m h1 h2 h3
          by_cases hk : k < a
          · exact hleft4 k m hk (by omega) h3
          · exact le_trans (m3 k (by omega) h1) (hge4 m (by omega) h3))
      refine ⟨q1.trans (pe.trans p3), w3.trans (w4.trans (q2.mono (by omega) (le_refl _))), ?_⟩
      intro i j g1 g2 g3
      by_cases hi : mid ≤ i
      · exact q3 i j hi g2 g3
      · have e1 : rk r (pdqsortCmpFunc cmp fuel d4 mid b limit1 wasBalanced wasPartitioned) i
            ≤ rk r d3 pivot := by
          rw [q2.2.1 i (by omega)]
          exact m3 i g1 (by omega)
        refine le_trans e1 ?_
        by_cases hj : j < mid
        · rw [q2.2.1 j (by omega)]
          exact hge4 j (by omega) g3
        · exact q2.lower _ (fun k h1 h2 => hge4 k (by omega) h2) j (by omega) g3
    rw [if_neg heq]
    have pp := partitionCmpFunc_perm cmp d3 a b pivot
    obtain ⟨w4, m1, m2, m3, m4⟩ := partitionCmpFunc_spec cmp r hneg hnot d3 a b pivot hb3 f4.1 f4.2
    generalize partitionCmpFunc cmp d3 a b pivot = parted at pp w4 m1 m2 m3 m4 ⊢
    obtain ⟨d4, mid, part⟩ := parted
    simp only [] at pp w4 m1 m2 m3 m4 ⊢
    have hb4 : b ≤ d4.length := by
      rw [w4.1]
      exact hb3
    have hleft4 : LeftBelow r d4 a b := hleft3.of_within w4
    by_cases hside : mid - a < b - mid
    · rw [if_pos hside]
      obtain ⟨q1, q2, q3⟩ := ih d4 a mid limit1 true true (by omega) m1 (by omega)
        (fun k m h1 h2 h3 => hleft4 k m h1 h2 (by omega))
      generalize pdqsortCmpFunc cmp fuel d4 a mid limit1 true true = d5 at q1 q2 q3 ⊢
      have hmid5 : rk r d5 mid = rk r d4 mid := q2.2.1 mid (by omega)
      have hl5 := q2.upper _ m3
      obtain ⟨s1, s2, s3⟩ := ih d5 (mid + 1) b limit1 (decide (mid - a ≥ (b - a) / 8)) part
        (by omega) (by omega) (by rw [q2.1]; exact hb4)
        (by
          intro k m h1 h2 h3
          rw [q2.2.1 m (by omega)]
          refine le_trans ?_ (m4 m (by omega) h3)
          by_cases hk : k < a
          · rw [q2.2.1 k (by omega)]
            exact le_trans (hleft4 k mid hk m1 m2) (le_refl _)
          · by_cases hk1 : k = mid
            · rw [hk1, hmid5]
            · exact hl5 k (by omega) (by omega))
      refine ⟨s1.trans (q1.trans (pp.trans p3)),
        w3.trans (w4.trans ((q2.mono (le_refl _) (by omega)).trans
          (s2.mono (by omega) (le_refl _)))), ?_⟩
      refine sortedRange_join r _ a mid b (rk r d4 mid)
        (q3.of_same_ranks (fun k h1 h2 => s2.2.1 k (by omega))) s3 ?_ ?_ ?_
      · intro k h1 h2
        rw [s2.2.1 k (by omega)]
        exact hl5 k h1 h2
      · rw [s2.2.1 mid (by omega), hmid5]
      · exact s2.lower _ (fun k h1 h2 => by
          rw [q2.2.1 k (by omega)]
          exact m4 k (by omega) h2)
    · rw [if_neg hside]
      obtain ⟨q1, q2, q3⟩ := ih d4 (mid + 1) b limit1 true true (by omega) (by omega) hb4
        (by
          intro k m h1 h2 h3
          refine le_trans ?_ (m4 m (by omega) h3)
          by_cases hk : k < a
          · exact hleft4 k mid hk m1 m2
          · by_cases hk1 : k = mid
            · rw [hk1]
            · exact m3 k (by omega) (by omega))
      generalize pdqsortCmpFunc cmp fuel d4 (mid + 1) b limit1 true true = d5 at q1 q2 q3 ⊢
      have hmid5 : rk r d5 mid = rk r d4 mid := q2.2.1 mid (by omega)
      have hr5 := q2.lower _ (fun k h1 h2 => m4 k (by omega) h2)
      obtain ⟨s1, s2, s3⟩ := ih d5 a mid limit1 (decide (b - mid ≥ (b - a) / 8)) part
        (by omega) m1 (by rw [q2.1]; omega)
        (by
          intro k m h1 h2 h3
          rw [q2.2.1 k (by omega), q2.2.1 m (by omega)]
          exact hleft4 k m h1 h2 (by omega))
      refine ⟨s1.trans (q1.trans (pp.trans p3)),
        w3.trans (w4.trans ((q2.mono (by omega) (le_refl _)).trans
          (s2.mono (le_refl _) (by omega)))), ?_⟩
      refine sortedRange_join r _ a mid b (rk r d4 mid) s3
        (q3.of_same_ranks (fun k h1 h2 => s2.2.1 k (by omega))) ?_ ?_ ?_
      · exact s2.upper _ (fun k h1 h2 => by
          rw [q2.2.1 k (by omega)]
          exact m3 k h1 h2)
      · rw [s2.2.1 mid (by omega), hmid5]
      · intro k h1 h2
        rw [s2.2.1 k (by omega)]
        exact hr5 k (by omega) h2

/-- The function `slices.SortFunc` on at most 12 elements is the insertion sort. -/
theorem SortFunc_of_length_le {α : Type} (cmp : α → α → Int) (x : List α)
    (h : x.length ≤ 12) : SortFunc cmp x = insertionSortCmpFunc cmp x := by
  unfold SortFunc
  cases hx : x.length with
  | zero =>
    rw [List.length_eq_zero] at hx
    rw [hx]
    rfl
  | succ n =>
    rw [pdqsortCmpFunc, if_pos (by omega)]
    unfold insertionSortRange
    rw [← hx]
    simp

/-- The function `slices.SortFunc` keeps the elements of every slice. -/
theorem SortFunc_perm {α : Type} (cmp : α → α → Int) (x : List α) :
    (SortFunc cmp x).Perm x := by
  have h := pdqsortCmpFunc_spec cmp (fun _ => 0) (fun _ _ _ => le_refl _)
    (fun _ _ _ => le_refl _) x.length x 0 x.length (bitsLen x.length) true true (by omega)
    (Nat.zero_le _) (le_refl _) (fun k m hk _ _ => by omega)
  exact h.1

/-- The function `slices.SortFunc` leaves every slice in the order of any rank that the
comparison respects. -/
theorem SortFunc_ranked {α : Type} (cmp : α → α → Int) (r : α → Nat)
    (hneg : ∀ x y, cmp x y < 0 → r x ≤ r y) (hnot : ∀ x y, ¬ cmp x y < 0 → r y ≤ r x)
    (x : List α) : (SortFunc cmp x).Pairwise (fun u v => r u ≤ r v) := by
  obtain ⟨hp, hw, hs⟩ := pdqsortCmpFunc_spec cmp r hneg hnot x.length x 0 x.length
    (bitsLen x.length) true true (by omega) (Nat.zero_le _) (le_refl _)
    (fun k m hk _ _ => by omega)
  unfold SortFunc
  generalize pdqsortCmpFunc cmp x.length x 0 x.length (bitsLen x.length) true true = out at *
  rw [List.pairwise_iff_get]
  intro i j hij
  have h := hs i.1 j.1 (Nat.zero_le _) hij (by rw [← hw.1]; exact j.2)
  rw [rk_eq_getElem r out i.1 i.2, rk_eq_getElem r out j.1 j.2] at h
  exact h

end Walker

namespace Walker

/-! ## The sort of `sortEntries` -/

/-- The function `sortEntries` keeps the entries. -/
theorem sortEntries_perm (cfg : Config) (entries : List Entry) :
    (sortEntries cfg entries).Perm entries :=
  SortFunc_perm _ _

/-- On at most 12 entries `sortEntries` is the insertion sort. -/
theorem sortEntries_of_length_le (cfg : Config) (entries : List Entry)
    (h : entries.length ≤ 12) :
    sortEntries cfg entries = insertionSortCmpFunc (compareEntries cfg) entries :=
  SortFunc_of_length_le _ _ h

/-! ## The comparison of `sortEntries` -/

/-- An entry of a lower policy class compares below one of a higher class. -/
theorem compareEntries_of_rank_lt (cfg : Config) (a b : Entry)
    (h : policyRank a < policyRank b) : compareEntries cfg a b = -1 := by
  unfold policyRank at h
  unfold compareEntries
  cases ha : a.Matching <;> cases hb : b.Matching <;> simp_all

/-- An entry of a higher policy class compares above one of a lower class. -/
theorem compareEntries_of_rank_gt (cfg : Config) (a b : Entry)
    (h : policyRank b < policyRank a) : compareEntries cfg a b = 1 := by
  unfold policyRank at h
  unfold compareEntries
  cases ha : a.Matching <;> cases hb : b.Matching <;> simp_all

/-! ## C3: policy classes in the sorted list -/

/-- C3: for every configuration and every list of entries, the list produced by `sortEntries`
holds the same entries and in it no entry whose policy is not `AlwaysTop` stands before an
`AlwaysTop` entry and no `AlwaysBottom` entry stands before an entry whose policy is not
`AlwaysBottom`, whatever the scores, last-used times, window counts and labels. -/
theorem sortEntries_policy_classes (cfg : Config) (entries : List Entry) :
    (sortEntries cfg entries).Perm entries
    ∧ (sortEntries cfg entries).Pairwise (fun x y =>
        (y.Matching = MatchingType.AlwaysTop → x.Matching = MatchingType.AlwaysTop)
        ∧ (x.Matching = MatchingType.AlwaysBottom → y.Matching = MatchingType.AlwaysBottom)) := by
  refine ⟨sortEntries_perm cfg entries, ?_⟩
  have hneg : ∀ x y : Entry, compareEntries cfg x y < 0 → policyRank x ≤ policyRank y := by
    intro x y hc
    by_contra hlt
    rw [compareEntries_of_rank_gt cfg x y (not_le.mp hlt)] at hc
    exact absurd hc (by decide)
  have hnot : ∀ x y : Entry, ¬ compareEntries cfg x y < 0 → policyRank y ≤ policyRank x := by
    intro x y hc
    by_contra hlt
    rw [compareEntries_of_rank_lt cfg x y (not_le.mp hlt)] at hc
    exact hc (by decide)
  have hsorted : (sortEntries cfg entries).Pairwise (fun u v => policyRank u ≤ policyRank v) :=
    SortFunc_ranked (compareEntries cfg) policyRank hneg hnot entries
  refine List.Pairwise.imp ?_ hsorted
  intro x y hxy
  unfold policyRank at hxy
  constructor
  · intro hy
    rw [hy] at hxy
    cases hx : x.Matching <;> simp_all
  · intro hx
    rw [hx] at hxy
    cases hy : y.Matching <;> simp_all

end Walker

namespace Walker

/-! ## C4: the last-used tie-break -/

/-- C4 (as stated, refuted): two entries with equal `finalScore` and non-zero `lastUsed`, the
first used more recently. In context-aware history mode the first has one open window, the
second none: the comparison orders the second first. Out of that mode, the first is
`AlwaysBottom` and the second `Fuzzy`: again the second is ordered first. -/
theorem compareEntries_recent_not_always_first :
    (compareEntries { ContextAwareHistory := true, IsService := true }
        { zeroEntry with ScoreFinal := 5, LastUsed := 200, OpenWindows := 1 }
        { zeroEntry with ScoreFinal := 5, LastUsed := 100 } = 1
      ∧ sortEntries { ContextAwareHistory := true, IsService := true }
          [{ zeroEntry with ScoreFinal := 5, LastUsed := 200, OpenWindows := 1 },
            { zeroEntry with ScoreFinal := 5, LastUsed := 100 }]
        = [{ zeroEntry with ScoreFinal := 5, LastUsed := 100 },
            { zeroEntry with ScoreFinal := 5, LastUsed := 200, OpenWindows := 1 }])
    ∧ (compareEntries { ContextAwareHistory := false, IsService := false }
        { zeroEntry with ScoreFinal := 5, LastUsed := 200, Matching := MatchingType.AlwaysBottom }
        { zeroEntry with ScoreFinal := 5, LastUsed := 100 } = 1
      ∧ sortEntries { ContextAwareHistory := false, IsService := false }
          [{ zeroEntry with ScoreFinal := 5, LastUsed := 200, Matching := MatchingType.AlwaysBottom },
            { zeroEntry with ScoreFinal := 5, LastUsed := 100 }]
        = [{ zeroEntry with ScoreFinal := 5, LastUsed := 100 },
            { zeroEntry with ScoreFinal := 5, LastUsed := 200, Matching := MatchingType.AlwaysBottom }]) := by
  decide

/-- C4 (amended): for two entries `a`, `b` with equal `finalScore`, both with a non-zero
`lastUsed`, `a` used more recently than `b`, such that the policy tests do not put `b` first
(`b` is `AlwaysTop` only if `a` is, `a` is `AlwaysBottom` only if `b` is) and, in context-aware
history mode, `a` has no more open windows than `b`: the comparison of `sortEntries` orders `a`
before `b`, and `a` precedes `b` in the sorted output of the two-element list, in either
input order. -/
theorem compareEntries_recent_first (cfg : Config) (a b : Entry)
    (hscore : a.ScoreFinal = b.ScoreFinal) (ha : a.LastUsed ≠ 0) (hb : b.LastUsed ≠ 0)
    (hrecent : b.LastUsed < a.LastUsed)
    (htop : b.Matching = MatchingType.AlwaysTop → a.Matching = MatchingType.AlwaysTop)
    (hbottom : a.Matching = MatchingType.AlwaysBottom → b.Matching = MatchingType.AlwaysBottom)
    (hwin : (cfg.ContextAwareHistory && cfg.IsService) = true → a.OpenWindows ≤ b.OpenWindows) :
    compareEntries cfg a b = -1
    ∧ sortEntries cfg [a, b] = [a, b]
    ∧ sortEntries cfg [b, a] = [a, b] := by
  have t1 : ¬ (b.Matching = MatchingType.AlwaysTop ∧ a.Matching ≠ MatchingType.AlwaysTop) :=
    fun h => h.2 (htop h.1)
  have t2 : ¬ (a.Matching = MatchingType.AlwaysBottom ∧ b.Matching ≠ MatchingType.AlwaysBottom) :=
    fun h => h.2 (hbottom h.1)
  have t3 : ¬ ((cfg.ContextAwareHistory && cfg.IsService) = true ∧ a.LastUsed ≠ 0
      ∧ b.LastUsed ≠ 0 ∧ a.OpenWindows > b.OpenWindows) :=
    fun h => absurd (hwin h.1) (not_le.mpr h.2.2.2)
  have t4 : ¬ ((cfg.ContextAwareHistory && cfg.IsService) = true ∧ b.LastUsed ≠ 0
      ∧ a.LastUsed ≠ 0 ∧ b.OpenWindows < a.OpenWindows) :=
    fun h => absurd (hwin h.1) (not_le.mpr h.2.2.2)
  have hab : compareEntries cfg a b = -1 := by
    unfold compareEntries
    by_cases c1 : a.Matching = MatchingType.AlwaysTop ∧ b.Matching ≠ MatchingType.AlwaysTop
    · rw [if_pos c1]
    · rw [if_neg c1, if_neg t1, if_neg t2]
      by_cases c4 : b.Matching = MatchingType.AlwaysBottom
          ∧ a.Matching ≠ MatchingType.AlwaysBottom
      · rw [if_pos c4]
      · rw [if_neg c4, if_neg t3]
        by_cases c6 : (cfg.ContextAwareHistory && cfg.IsService) = true ∧ a.LastUsed ≠ 0
            ∧ b.LastUsed ≠ 0 ∧ a.OpenWindows < b.OpenWindows
        · rw [if_pos c6]
        · rw [if_neg c6, if_pos hscore, if_pos ⟨ha, hb⟩]
          unfold timeCompare
          rw [if_pos hrecent]
  have hba : compareEntries cfg b a = 1 := by
    unfold compareEntries
    rw [if_neg t1]
    by_cases c2 : a.Matching = MatchingType.AlwaysTop ∧ b.Matching ≠ MatchingType.AlwaysTop
    · rw [if_pos c2]
    · rw [if_neg c2]
      by_cases c3 : b.Matching = MatchingType.AlwaysBottom
          ∧ a.Matching ≠ MatchingType.AlwaysBottom
      · rw [if_pos c3]
      · rw [if_neg c3, if_neg t2]
        by_cases c5 : (cfg.ContextAwareHistory && cfg.IsService) = true ∧ b.LastUsed ≠ 0
            ∧ a.LastUsed ≠ 0 ∧ b.OpenWindows > a.OpenWindows
        · rw [if_pos c5]
        · rw [if_neg c5, if_neg t4, if_pos hscore.symm, if_pos ⟨hb, ha⟩]
          unfold timeCompare
          rw [if_neg (not_lt.mpr (le_of_lt hrecent)), if_pos hrecent]
  refine ⟨hab, ?_, ?_⟩
  · rw [sortEntries_of_length_le cfg [a, b] (by simp)]
    simp [insertionSortCmpFunc, insertLeft, hba]
  · rw [sortEntries_of_length_le cfg [b, a] (by simp)]
    simp [insertionSortCmpFunc, insertLeft, hab]

end Walker

namespace Walker

/-- Witness for C4: context-aware mode, equal window counts, last uses at 200 and at 100. -/
theorem compareEntries_recent_first_witness :
    compareEntries { ContextAwareHistory := true, IsService := true }
        { zeroEntry with ScoreFinal := 5, LastUsed := 200 }
        { zeroEntry with ScoreFinal := 5, LastUsed := 100 } = -1
    ∧ sortEntries { ContextAwareHistory := true, IsService := true }
        [{ zeroEntry with ScoreFinal := 5, LastUsed := 100 },
          { zeroEntry with ScoreFinal := 5, LastUsed := 200 }]
      = [{ zeroEntry with ScoreFinal := 5, LastUsed := 200 },
          { zeroEntry with ScoreFinal := 5, LastUsed := 100 }] :=
  ⟨(compareEntries_recent_first { ContextAwareHistory := true, IsService := true }
      { zeroEntry with ScoreFinal := 5, LastUsed := 200 }
      { zeroEntry with ScoreFinal := 5, LastUsed := 100 }
      rfl (by decide) (by decide) (by decide) (by decide) (by decide) (by decide)).1,
    (compareEntries_recent_first { ContextAwareHistory := true, IsService := true }
      { zeroEntry with ScoreFinal := 5, LastUsed := 200 }
      { zeroEntry with ScoreFinal := 5, LastUsed := 100 }
      rfl (by decide) (by decide) (by decide) (by decide) (by decide) (by decide)).2.2⟩

/-! ## C10: the handler's publications -/

/-- Receiving an empty batch changes nothing. -/
theorem Handler.receive_nil (cfg : Config) (h : Handler) : Handler.receive cfg h [] = h := by
  simp [Handler.receive]

/-- Receiving a non-empty batch sorts the accumulated list with the batch and publishes it. -/
theorem Handler.receive_cons (cfg : Config) (h : Handler) (e : Entry) (es : List Entry) :
    Handler.receive cfg h (e :: es)
      = { entries := sortEntries cfg (h.entries ++ e :: es),
          published := h.published ++ [sortEntries cfg (h.entries ++ e :: es)] } := by
  have hperm : (sortEntries cfg (h.entries ++ e :: es)).Perm (h.entries ++ e :: es) :=
    sortEntries_perm _ _
  have hlen : (sortEntries cfg (h.entries ++ e :: es)).length > 0 := by
    rw [hperm.length_eq]
    simp
  simp only [Handler.receive, List.length_cons, Nat.succ_ne_zero, if_false, if_pos hlen]

/-- Receiving a batch keeps the handler coherent. -/
theorem Handler.receive_coherent (cfg : Config) (h : Handler) (batch : List Entry)
    (hc : h.Coherent) : (Handler.receive cfg h batch).Coherent := by
  cases batch with
  | nil => rw [Handler.receive_nil]; exact hc
  | cons e es =>
    rw [Handler.receive_cons]
    have hperm : (sortEntries cfg (h.entries ++ e :: es)).Perm (h.entries ++ e :: es) :=
      sortEntries_perm _ _
    refine ⟨?_, ?_⟩
    · refine List.Chain'.append hc.1 (List.chain'_singleton _) ?_
      intro p hp q hq
      simp only [List.head?_cons, Option.mem_def, Option.some.injEq] at hq
      subst hq
      have hpe := hc.2 p hp
      subst hpe
      refine ⟨?_, e :: es, List.cons_ne_nil _ _, hperm⟩
      exact (List.sublist_append_left _ _).subperm.trans hperm.symm.subperm
    · intro p hp
      simp only [List.getLast?_concat, Option.mem_def, Option.some.injEq] at hp
      exact hp.symm

/-- Receiving any sequence of batches keeps the handler coherent. -/
theorem Handler.receiveAll_coherent (cfg : Config) (batches : List (List Entry)) (h : Handler)
    (hc : h.Coherent) : (Handler.receiveAll cfg h batches).Coherent := by
  induction batches generalizing h with
  | nil => exact hc
  | cons b bs ih => exact ih _ (Handler.receive_coherent cfg h b hc)

/-- The accumulated list after a sequence of batches holds exactly the entries received. -/
theorem Handler.receiveAll_perm (cfg : Config) (batches : List (List Entry)) (h : Handler) :
    (Handler.receiveAll cfg h batches).entries.Perm (h.entries ++ batches.flatten) := by
  induction batches generalizing h with
  | nil => simp [Handler.receiveAll]
  | cons b bs ih =>
    have hstep : (Handler.receive cfg h b).entries.Perm (h.entries ++ b) := by
      cases b with
      | nil => rw [Handler.receive_nil]; simp
      | cons e es => rw [Handler.receive_cons]; exact sortEntries_perm _ _
    have h2 := ih (Handler.receive cfg h b)
    simp only [Handler.receiveAll, List.foldl_cons, List.flatten_cons] at h2 ⊢
    refine h2.trans ?_
    rw [← List.append_assoc]
    exact List.Perm.append_right _ hstep

/-- C10: in the step function of the aggregator an empty batch leaves the accumulated list and
the publications unchanged, a non-empty batch sets the list to `sortEntries (list ++ batch)`,
a permutation of `list ++ batch`, and publishes it; and for every sequence of batches received
by a fresh handler each published snapshot is a permutation of the previous one plus a
non-empty batch, hence holds every entry of the previous one, the last snapshot is the
accumulated list, and the accumulated list holds exactly the entries of the batches. -/
theorem Handler.publications_grow (cfg : Config) (h : Handler) (e : Entry) (es : List Entry)
    (batches : List (List Entry)) :
    Handler.receive cfg h [] = h
    ∧ Handler.receive cfg h (e :: es)
        = { entries := sortEntries cfg (h.entries ++ e :: es),
            published := h.published ++ [sortEntries cfg (h.entries ++ e :: es)] }
    ∧ (sortEntries cfg (h.entries ++ e :: es)).Perm (h.entries ++ e :: es)
    ∧ List.Chain' (fun p q => p.Subperm q ∧ ∃ batch : List Entry, batch ≠ [] ∧ q.Perm (p ++ batch))
        (Handler.receiveAll cfg Handler.fresh batches).published
    ∧ (∀ p ∈ (Handler.receiveAll cfg Handler.fresh batches).published.getLast?,
        p = (Handler.receiveAll cfg Handler.fresh batches).entries)
    ∧ (Handler.receiveAll cfg Handler.fresh batches).entries.Perm batches.flatten := by
  have hfresh : Handler.fresh.Coherent := by
    refine ⟨List.chain'_nil, ?_⟩
    intro p hp
    simp [Handler.fresh] at hp
  have hc := Handler.receiveAll_coherent cfg batches Handler.fresh hfresh
  exact ⟨Handler.receive_nil cfg h, Handler.receive_cons cfg h e es,
    sortEntries_perm _ _, hc.1, hc.2,
    by simpa [Handler.fresh] using Handler.receiveAll_perm cfg batches Handler.fresh⟩

end Walker

namespace Walker

/-! ## C8, C9: the provider task -/

/-- The loop of a provider task, started with the batch `acc`, appends the scored entries
whose final score is not zero. -/
theorem foldl_push_eq (FuzzyScore : GoString → GoString → ℚ) (hstry : History)
    (hyprland : Option (GoString → Int)) (text : GoString) (e acc : List Entry) :
    e.foldl
        (fun toPush ek =>
          if (scoreEntry FuzzyScore hstry hyprland text ek).ScoreFinal ≠ 0 then
            toPush ++ [scoreEntry FuzzyScore hstry hyprland text ek]
          else toPush)
        acc
      = acc ++ (e.map (scoreEntry FuzzyScore hstry hyprland text)).filter
          (fun x => decide (x.ScoreFinal ≠ 0)) := by
  induction e generalizing acc with
  | nil => simp
  | cons x xs ih =>
    rw [List.foldl_cons, ih, List.map_cons]
    by_cases hx : (scoreEntry FuzzyScore hstry hyprland text x).ScoreFinal ≠ 0
    · rw [if_pos hx, List.filter_cons_of_pos (by simpa using hx), List.append_assoc]
      rfl
    · rw [if_neg hx, List.filter_cons_of_neg (by simpa using hx)]

/-- C8: for every list of entries returned by a provider, the batch of the provider task is
exactly the sub-list, in the provider's order, of the scored entries whose `finalScore` is not
zero: no entry of the batch has `finalScore = 0` and every scored entry with a non-zero
`finalScore` is in the batch. -/
theorem providerTask_batch (FuzzyScore : GoString → GoString → ℚ) (hstry : History)
    (hyprland : Option (GoString → Int)) (text : GoString) (w : Workable) :
    providerTask FuzzyScore hstry hyprland text w
        = ((w.Entries text).map (scoreEntry FuzzyScore hstry hyprland text)).filter
            (fun x => decide (x.ScoreFinal ≠ 0))
    ∧ (providerTask FuzzyScore hstry hyprland text w).Sublist
        ((w.Entries text).map (scoreEntry FuzzyScore hstry hyprland text))
    ∧ (∀ x ∈ providerTask FuzzyScore hstry hyprland text w, x.ScoreFinal ≠ 0)
    ∧ (∀ x ∈ (w.Entries text).map (scoreEntry FuzzyScore hstry hyprland text),
        x.ScoreFinal ≠ 0 → x ∈ providerTask FuzzyScore hstry hyprland text w) := by
  have heq : providerTask FuzzyScore hstry hyprland text w
      = ((w.Entries text).map (scoreEntry FuzzyScore hstry hyprland text)).filter
          (fun x => decide (x.ScoreFinal ≠ 0)) := by
    unfold providerTask pushLoop
    rw [foldl_push_eq, List.nil_append]
  refine ⟨heq, ?_, ?_, ?_⟩
  · rw [heq]; exact List.filter_sublist _
  · intro x hx
    rw [heq, List.mem_filter] at hx
    simpa using hx.2
  · intro x hx hne
    rw [heq, List.mem_filter]
    exact ⟨hx, by simpa using hne⟩

/-- C9: the scoring step of a provider task sets `finalScore` thus: an entry that comes with a
non-zero `finalScore` and does not ask for recalculation keeps it; otherwise a `Fuzzy` entry
gets the value of `fuzzyScore` (on the entry after the reset, against the text to match), an
`AlwaysTop` entry gets 1000, an `AlwaysBottom` entry gets 1 and any other policy gets 0. -/
theorem scoreEntry_finalScore (FuzzyScore : GoString → GoString → ℚ) (hstry : History)
    (hyprland : Option (GoString → Int)) (text : GoString) (e : Entry) :
    (scoreEntry FuzzyScore hstry hyprland text e).ScoreFinal
      = if e.ScoreFinal ≠ 0 ∧ e.RecalculateScore = false then e.ScoreFinal
        else
          match e.Matching with
          | MatchingType.Fuzzy =>
            fuzzyScore FuzzyScore hstry (resetScore e) (toMatch e text) hyprland
          | MatchingType.AlwaysTop => 1000
          | MatchingType.AlwaysBottom => 1
          | MatchingType.other _ => 0 := by
  unfold scoreEntry resetScore
  cases hr : e.RecalculateScore <;> cases hm : e.Matching <;>
    by_cases hs : e.ScoreFinal = 0 <;> simp [hs, hm]

end Walker

namespace Walker

/-! ## The loop over the matchables -/

/-- The loop over the fields `fields`, numbered from `n`, started in the state `(m0, s0)`:
the final score is at least `s0` and at least every non-zero raw score of a non-empty field;
and either the state is unchanged, or it is `(n + j, raw score of field j)` for a non-empty
field `j` whose raw score exceeds `s0` and every non-zero raw score of the non-empty fields
before it. -/
theorem matchLoop_spec (FuzzyScore : GoString → GoString → ℚ) (text : GoString)
    (fields : List GoString) (n m0 : Nat) (s0 : ℚ) :
    s0 ≤ ((fields.enumFrom n).foldl (matchStep FuzzyScore text) (m0, s0)).2
    ∧ (∀ (j : Nat) (u : GoString), fields[j]? = some u → u ≠ [] → FuzzyScore text u ≠ 0 →
        FuzzyScore text u ≤ ((fields.enumFrom n).foldl (matchStep FuzzyScore text) (m0, s0)).2)
    ∧ ((fields.enumFrom n).foldl (matchStep FuzzyScore text) (m0, s0) = (m0, s0)
      ∨ ∃ (j : Nat) (u : GoString), fields[j]? = some u ∧ u ≠ []
          ∧ (fields.enumFrom n).foldl (matchStep FuzzyScore text) (m0, s0)
              = (n + j, FuzzyScore text u)
          ∧ s0 < FuzzyScore text u
          ∧ ∀ (i : Nat) (v : GoString), i < j → fields[i]? = some v → v ≠ [] → FuzzyScore text v ≠ 0 →
              FuzzyScore text v < FuzzyScore text u) := by
  induction fields generalizing n m0 s0 with
  | nil =>
    refine ⟨le_refl _, ?_, Or.inl rfl⟩
    intro j u hj
    simp at hj
  | cons t ts ih =>
    rw [List.enumFrom_cons, List.foldl_cons]
    by_cases hkeep : t = [] ∨ FuzzyScore text t = 0 ∨ ¬ FuzzyScore text t > s0
    · have hstep : matchStep FuzzyScore text (m0, s0) (n, t) = (m0, s0) := by
        unfold matchStep
        rcases hkeep with h | h | h
        · simp [h]
        · simp [h]
        · simp only [h, if_false, ite_self]
      rw [hstep]
      obtain ⟨ihA, ihB, ihC⟩ := ih (n + 1) m0 s0
      refine ⟨ihA, ?_, ?_⟩
      · intro j u hj hu hne
        cases j with
        | zero =>
          simp only [List.getElem?_cons_zero, Option.some.injEq] at hj
          subst hj
          rcases hkeep with h | h | h
          · exact absurd h hu
          · exact absurd h hne
          · exact le_trans (not_lt.mp h) ihA
        | succ j =>
          rw [List.getElem?_cons_succ] at hj
          exact ihB j u hj hu hne
      · rcases ihC with h | ⟨j, u, hj, hu, hres, hlt, hfirst⟩
        · exact Or.inl h
        · refine Or.inr ⟨j + 1, u, by rw [List.getElem?_cons_succ]; exact hj, hu, ?_, hlt, ?_⟩
          · rw [hres]; congr 1; omega
          · intro i v hi hv hvne hvnz
            cases i with
            | zero =>
              simp only [List.getElem?_cons_zero, Option.some.injEq] at hv
              subst hv
              rcases hkeep with h | h | h
              · exact absurd h hvne
              · exact absurd h hvnz
              · exact lt_of_le_of_lt (not_lt.mp h) hlt
            | succ i =>
              rw [List.getElem?_cons_succ] at hv
              exact hfirst i v (by omega) hv hvne hvnz
    · have hkeep2 := not_or.mp hkeep
      have ht : t ≠ [] := hkeep2.1
      have hnz : FuzzyScore text t ≠ 0 := (not_or.mp hkeep2.2).1
      have hgt : FuzzyScore text t > s0 := not_not.mp (not_or.mp hkeep2.2).2
      have hstep : matchStep FuzzyScore text (m0, s0) (n, t) = (n, FuzzyScore text t) := by
        unfold matchStep
        simp only [ht, hnz, hgt, if_false, if_true]
      rw [hstep]
      obtain ⟨ihA, ihB, ihC⟩ := ih (n + 1) n (FuzzyScore text t)
      refine ⟨le_trans (le_of_lt hgt) ihA, ?_, Or.inr ?_⟩
      · intro j u hj hu hne
        cases j with
        | zero =>
          simp only [List.getElem?_cons_zero, Option.some.injEq] at hj
          subst hj
          exact ihA
        | succ j =>
          rw [List.getElem?_cons_succ] at hj
          exact ihB j u hj hu hne
      · rcases ihC with h | ⟨j, u, hj, hu, hres, hlt, hfirst⟩
        · refine ⟨0, t, by simp, ht, ?_, hgt, ?_⟩
          · rw [h]; rfl
          · intro i v hi
            exact absurd hi (Nat.not_lt_zero i)
        · refine ⟨j + 1, u, by rw [List.getElem?_cons_succ]; exact hj, hu, ?_,
            lt_trans hgt hlt, ?_⟩
          · rw [hres]; congr 1; omega
          · intro i v hi hv hvne hvnz
            cases i with
            | zero =>
              simp only [List.getElem?_cons_zero, Option.some.injEq] at hv
              subst hv
              exact hlt
            | succ i =>
              rw [List.getElem?_cons_succ] at hv
              exact hfirst i v (by omega) hv hvne hvnz

end Walker

namespace Walker

/-! ## The history merge -/

/-- Taking over a record leaves the fuzzy score of the entry alone. -/
theorem takeRecord_scoreFuzzy (e : Entry) (val : HistoryEntry) :
    (takeRecord e val).ScoreFuzzy = e.ScoreFuzzy := by
  unfold takeRecord
  split_ifs <;> rfl

/-- Taking over a record depends on, and changes, the usage fields only. -/
theorem takeRecord_usageKey (e1 e2 : Entry) (val : HistoryEntry)
    (h : usageKey e1 = usageKey e2) :
    usageKey (takeRecord e1 val) = usageKey (takeRecord e2 val) := by
  simp only [usageKey, Prod.mk.injEq] at h
  obtain ⟨hid, hu, hd, hl⟩ := h
  unfold takeRecord
  rw [hl]
  split_ifs
  · simp [usageKey, hid]
  · simp [usageKey, hid, hu, hd, hl]

/-- One step of the history loop leaves the fuzzy score of the entry alone. -/
theorem mergeStep_scoreFuzzy (text : GoString) (e : Entry)
    (kv : GoString × List (GoString × HistoryEntry)) :
    (mergeStep text e kv).ScoreFuzzy = e.ScoreFuzzy := by
  unfold mergeStep
  split_ifs
  · cases List.lookup e.Identifier kv.2 with
    | none => rfl
    | some val => exact takeRecord_scoreFuzzy e val
  · rfl

/-- One step of the history loop depends on, and changes, the usage fields only. -/
theorem mergeStep_usageKey (text : GoString) (e1 e2 : Entry)
    (kv : GoString × List (GoString × HistoryEntry)) (h : usageKey e1 = usageKey e2) :
    usageKey (mergeStep text e1 kv) = usageKey (mergeStep text e2 kv) := by
  have hid : e1.Identifier = e2.Identifier := by
    simp only [usageKey, Prod.mk.injEq] at h
    exact h.1
  unfold mergeStep
  rw [hid]
  split_ifs
  · cases List.lookup e2.Identifier kv.2 with
    | none => exact h
    | some val => exact takeRecord_usageKey e1 e2 val h
  · exact h

/-- The history merge leaves the fuzzy score of the entry alone. -/
theorem mergeHistory_scoreFuzzy (hstry : History) (text : GoString) (e : Entry) :
    (mergeHistory hstry text e).ScoreFuzzy = e.ScoreFuzzy := by
  unfold mergeHistory
  induction hstry generalizing e with
  | nil => rfl
  | cons kv rest ih => rw [List.foldl_cons, ih, mergeStep_scoreFuzzy]

/-- The history merge depends on, and changes, the usage fields only. -/
theorem mergeHistory_usageKey (hstry : History) (text : GoString) (e1 e2 : Entry)
    (h : usageKey e1 = usageKey e2) :
    usageKey (mergeHistory hstry text e1) = usageKey (mergeHistory hstry text e2) := by
  unfold mergeHistory
  induction hstry generalizing e1 e2 with
  | nil => exact h
  | cons kv rest ih =>
    rw [List.foldl_cons, List.foldl_cons]
    exact ih _ _ (mergeStep_usageKey text e1 e2 kv h)

/-- The usage score reads the usage fields only. -/
theorem usageModifier_congr (e1 e2 : Entry) (h : usageKey e1 = usageKey e2) :
    usageModifier e1 = usageModifier e2 := by
  simp only [usageKey, Prod.mk.injEq] at h
  unfold usageModifier
  rw [h.2.1, h.2.2.1]

/-- The field-depth factor is `max(0.7, 1 − 0.10 × multiplier)`. -/
theorem depthFactor_eq_max (k : Nat) :
    depthFactor k = max (7 / 10 : ℚ) (1 - (1 / 10 : ℚ) * k) := by
  unfold depthFactor
  split_ifs with h
  · exact (max_eq_left (le_of_lt h)).symm
  · exact (max_eq_right (not_lt.mp h)).symm

end Walker

namespace Walker

/-- The window assignment does not touch what the loop over the matchables reads. -/
theorem bestMatch_withWindows (FuzzyScore : GoString → GoString → ℚ) (text : GoString)
    (hyprland : Option (GoString → Int)) (entry : Entry) :
    bestMatch FuzzyScore text (withWindows hyprland entry) = bestMatch FuzzyScore text entry := by
  cases hyprland <;> rfl

/-- The window assignment does not touch the usage fields. -/
theorem usageKey_withWindows (hyprland : Option (GoString → Int)) (entry : Entry) :
    usageKey (withWindows hyprland entry) = usageKey entry := by
  cases hyprland <;> rfl

/-- The value of `fuzzyScore` when the query is not empty and some field matched. -/
theorem fuzzyScore_of_match (FuzzyScore : GoString → GoString → ℚ) (hstry : History)
    (entry : Entry) (text : GoString) (hyprland : Option (GoString → Int))
    (htext : text ≠ []) (hbest : (bestMatch FuzzyScore text entry).2 ≠ 0) :
    fuzzyScore FuzzyScore hstry entry text hyprland
      = (usageModifier (mergeHistory hstry text entry) : ℚ) / (text.length : ℚ)
        + (bestMatch FuzzyScore text entry).2 * depthFactor (bestMatch FuzzyScore text entry).1
          * (text.length : ℚ) := by
  have hlen : text.length ≠ 0 := fun h => htext (List.length_eq_zero.mp h)
  have hq : (text.length : ℚ) ≠ 0 := by exact_mod_cast hlen
  simp only [fuzzyScore, fuzzyScoreLocal, if_neg hlen, bestMatch_withWindows, if_neg hbest,
    mergeHistory_scoreFuzzy]
  have hu : usageModifier (mergeHistory hstry text
      { withWindows hyprland entry with
        ScoreFuzzy := (bestMatch FuzzyScore text entry).2
          * depthFactor (bestMatch FuzzyScore text entry).1 })
      = usageModifier (mergeHistory hstry text entry) :=
    usageModifier_congr _ _ (mergeHistory_usageKey hstry text _ _ (usageKey_withWindows _ _))
  rw [hu]
  field_simp

/-- The value of `fuzzyScore` when no field matched. -/
theorem fuzzyScore_of_no_match (FuzzyScore : GoString → GoString → ℚ) (hstry : History)
    (entry : Entry) (text : GoString) (hyprland : Option (GoString → Int))
    (htext : text ≠ []) (hbest : (bestMatch FuzzyScore text entry).2 = 0) :
    fuzzyScore FuzzyScore hstry entry text hyprland = 0 := by
  have hlen : text.length ≠ 0 := fun h => htext (List.length_eq_zero.mp h)
  simp only [fuzzyScore, fuzzyScoreLocal, if_neg hlen, bestMatch_withWindows, if_pos hbest]

end Walker

namespace Walker

/-! ## C1: the value of `fuzzyScore` -/

/-- The bytes of the texts used in the examples. -/
theorem goString_examples :
    goString "a" = [97] ∧ goString "x" = [120] ∧ goString "y" = [121] ∧ goString "z" = [122]
    ∧ goString "f" = [102] ∧ goString "fir" = [102, 105, 114] ∧ goString "ff" = [102, 102]
    ∧ goString "fire" = [102, 105, 114, 101]
    ∧ goString "firefox" = [102, 105, 114, 101, 102, 111, 120] := by
  decide

/-- The factor `m` in float64 arithmetic is the greater of `0.7` and
`1 - 0.10 * multiplier`, each rounded. -/
theorem depthFactorRounded_eq_max (rnd : ℚ → ℚ) (k : Nat) :
    depthFactorRounded rnd k
      = max (rnd (7 / 10)) (rnd (1 - rnd (rnd (1 / 10) * rnd (k : ℚ)))) := by
  unfold depthFactorRounded
  split_ifs with h
  · exact (max_eq_left (le_of_lt h)).symm
  · exact (max_eq_right (not_lt.mp h)).symm

/-- The value of `fuzzyScore` in float64 arithmetic when the query is not empty and some field
matched. -/
theorem fuzzyScoreRounded_of_match (rnd : ℚ → ℚ) (FuzzyScore : GoString → GoString → ℚ)
    (hstry : History) (entry : Entry) (text : GoString) (hyprland : Option (GoString → Int))
    (htext : text ≠ []) (hbest : (bestMatch FuzzyScore text entry).2 ≠ 0) :
    fuzzyScoreRounded rnd FuzzyScore hstry entry text hyprland
      = rnd (rnd (rnd (usageModifier (mergeHistory hstry text entry) : ℚ)
            * rnd (1 / rnd (text.length : ℚ)))
          + rnd (rnd ((bestMatch FuzzyScore text entry).2
              * depthFactorRounded rnd (bestMatch FuzzyScore text entry).1)
            / rnd (1 / rnd (text.length : ℚ)))) := by
  have hlen : text.length ≠ 0 := fun h => htext (List.length_eq_zero.mp h)
  simp only [fuzzyScoreRounded, if_neg hlen, bestMatch_withWindows, if_neg hbest,
    mergeHistory_scoreFuzzy]
  have hu : usageModifier (mergeHistory hstry text
      { withWindows hyprland entry with
        ScoreFuzzy := rnd ((bestMatch FuzzyScore text entry).2
          * depthFactorRounded rnd (bestMatch FuzzyScore text entry).1) })
      = usageModifier (mergeHistory hstry text entry) :=
    usageModifier_congr _ _ (mergeHistory_usageKey hstry text _ _ (usageKey_withWindows _ _))
  rw [hu]

/-- The value of `fuzzyScore` in float64 arithmetic when no field matched. -/
theorem fuzzyScoreRounded_of_no_match (rnd : ℚ → ℚ) (FuzzyScore : GoString → GoString → ℚ)
    (hstry : History) (entry : Entry) (text : GoString) (hyprland : Option (GoString → Int))
    (htext : text ≠ []) (hbest : (bestMatch FuzzyScore text entry).2 = 0) :
    fuzzyScoreRounded rnd FuzzyScore hstry entry text hyprland = 0 := by
  have hlen : text.length ≠ 0 := fun h => htext (List.length_eq_zero.mp h)
  simp only [fuzzyScoreRounded, if_neg hlen, bestMatch_withWindows, if_pos hbest]

/-- Without rounding the score in float64 arithmetic is the score in exact arithmetic. -/
theorem fuzzyScoreRounded_exact (FuzzyScore : GoString → GoString → ℚ) (hstry : History)
    (entry : Entry) (text : GoString) (hyprland : Option (GoString → Int)) :
    fuzzyScoreRounded (fun x => x) FuzzyScore hstry entry text hyprland
      = fuzzyScore FuzzyScore hstry entry text hyprland := by
  have hd : ∀ k, depthFactorRounded (fun x => x) k = depthFactor k := fun k => rfl
  unfold fuzzyScoreRounded fuzzyScore fuzzyScoreLocal
  simp only [hd]
  split_ifs <;> rfl

/-- C1 (as stated, refuted): the entry with the three non-empty fields "x", "y", "z", no usage
and `fuzzyScore` field zero, the query "a", and a raw score of -1 for every field. A non-empty
field has a non-zero raw score and the best raw score is -1, yet `fuzzyScore` returns 0, while
`usageScore / n + best × max(0.7, 1 − 0.10 × k) × n` is negative for every field index `k`. -/
theorem fuzzyScore_negative_raw_score :
    entryXYZ.ScoreFuzzy = 0
    ∧ (∃ t ∈ matchables entryXYZ, t ≠ [] ∧ scoreMinusOne (goString "a") t ≠ 0)
    ∧ fuzzyScoreRounded roundFloat64 scoreMinusOne [] entryXYZ (goString "a") none = 0
    ∧ ∀ k : Nat,
        (usageModifier (mergeHistory [] (goString "a") entryXYZ) : ℚ)
            / ((goString "a").length : ℚ)
          + (-1) * max (7 / 10 : ℚ) (1 - (1 / 10 : ℚ) * k) * ((goString "a").length : ℚ) < 0 := by
  refine ⟨rfl, ⟨goString "x", by decide, by decide, by norm_num [scoreMinusOne]⟩, ?_, ?_⟩
  · apply fuzzyScoreRounded_of_no_match
    · decide
    · norm_num [bestMatch, matchables, matchStep, entryXYZ, zeroEntry, goString_examples,
        List.enum, List.enumFrom, scoreMinusOne]
  · intro k
    have h1 : (usageModifier (mergeHistory [] (goString "a") entryXYZ) : ℚ) = 0 := by
      norm_num [usageModifier, mergeHistory, entryXYZ, zeroEntry]
    have h2 : ((goString "a").length : ℚ) = 1 := by
      norm_num [goString_examples]
    rw [h1, h2]
    have h3 : (7 / 10 : ℚ) ≤ max (7 / 10 : ℚ) (1 - (1 / 10 : ℚ) * k) := le_max_left _ _
    linarith

/-- C1 (amended): for every entry whose `fuzzyScore` field is zero on entry and every non-empty
query text for which at least one non-empty field has a positive raw score, there is a field
index `k` with a non-empty field `t` whose raw score `best` is the greatest raw score of the
non-empty fields of [label, subtitle, searchableText, categories...] and exceeds that of every
non-empty field before it, and `fuzzyScore` returns, whatever the rounding `rnd` of float64
arithmetic, `usageScore × tm + (best × max(0.7, 1 − 0.10 × k)) / tm` for `tm = 1 / n`, every
constant, conversion and operation rounded by `rnd`, with `n` the byte length of the query and
`usageScore` the value of `usageModifier` on the entry after the history merge. Without
rounding that value is `usageScore / n + best × max(0.7, 1 − 0.10 × k) × n`. -/
theorem fuzzyScore_formula (rnd : ℚ → ℚ) (FuzzyScore : GoString → GoString → ℚ)
    (hstry : History) (entry : Entry) (text : GoString) (hyprland : Option (GoString → Int))
    (hzero : entry.ScoreFuzzy = 0) (htext : text ≠ [])
    (hex : ∃ t ∈ matchables entry, t ≠ [] ∧ 0 < FuzzyScore text t) :
    ∃ (k : Nat) (t : GoString), (matchables entry)[k]? = some t ∧ t ≠ []
      ∧ (∀ (j : Nat) (u : GoString), (matchables entry)[j]? = some u → u ≠ [] →
          FuzzyScore text u ≤ FuzzyScore text t)
      ∧ (∀ (j : Nat) (u : GoString), j < k → (matchables entry)[j]? = some u → u ≠ [] →
          FuzzyScore text u < FuzzyScore text t)
      ∧ fuzzyScoreRounded rnd FuzzyScore hstry entry text hyprland
          = rnd (rnd (rnd (usageModifier (mergeHistory hstry text entry) : ℚ)
                * rnd (1 / rnd (text.length : ℚ)))
              + rnd (rnd (FuzzyScore text t
                  * max (rnd (7 / 10)) (rnd (1 - rnd (rnd (1 / 10) * rnd (k : ℚ)))))
                / rnd (1 / rnd (text.length : ℚ))))
      ∧ ((∀ x, rnd x = x) →
          fuzzyScoreRounded rnd FuzzyScore hstry entry text hyprland
            = (usageModifier (mergeHistory hstry text entry) : ℚ) / (text.length : ℚ)
              + FuzzyScore text t * max (7 / 10 : ℚ) (1 - (1 / 10 : ℚ) * k)
                * (text.length : ℚ)) := by
  obtain ⟨hA, hB, hC⟩ := matchLoop_spec FuzzyScore text (matchables entry) 0 0 entry.ScoreFuzzy
  obtain ⟨t0, ht0mem, ht0ne, ht0pos⟩ := hex
  obtain ⟨j0, hj0⟩ := List.getElem?_of_mem ht0mem
  have hpos : 0 < (bestMatch FuzzyScore text entry).2 :=
    lt_of_lt_of_le ht0pos (hB j0 t0 hj0 ht0ne (ne_of_gt ht0pos))
  rcases hC with hsame | ⟨k, t, hk, htne, hres, _, hfirst⟩
  · exfalso
    have h2 : (bestMatch FuzzyScore text entry).2 = entry.ScoreFuzzy := by
      unfold bestMatch List.enum
      rw [hsame]
    rw [h2, hzero] at hpos
    exact lt_irrefl _ hpos
  · have hbm : bestMatch FuzzyScore text entry = (k, FuzzyScore text t) := by
      unfold bestMatch List.enum
      rw [hres, Nat.zero_add]
    have htpos : 0 < FuzzyScore text t := by
      rw [hbm] at hpos
      exact hpos
    have hval := fuzzyScoreRounded_of_match rnd FuzzyScore hstry entry text hyprland htext
      (by rw [hbm]; exact ne_of_gt htpos)
    rw [hbm, depthFactorRounded_eq_max] at hval
    refine ⟨k, t, hk, htne, ?_, ?_, hval, ?_⟩
    · intro j u hj hu
      by_cases hz : FuzzyScore text u = 0
      · rw [hz]; exact le_of_lt htpos
      · have := hB j u hj hu hz
        unfold bestMatch List.enum at hbm
        rw [hbm] at this
        exact this
    · intro j u hjk hj hu
      by_cases hz : FuzzyScore text u = 0
      · rw [hz]; exact htpos
      · exact hfirst j u hjk hj hu hz
    · intro hid
      have hlen : text.length ≠ 0 := fun h => htext (List.length_eq_zero.mp h)
      have hq : (text.length : ℚ) ≠ 0 := by exact_mod_cast hlen
      rw [hval]
      simp only [hid]
      field_simp

/-- The float64 values of the example: the constants 0.10 and 0.7, `tm = 1.0 / 3`
(0.3333333333333333), `40 * tm` (13.333333333333332), `10 / tm` (30) and their sum
(43.33333333333333). -/
theorem roundFloat64_examples :
    roundFloat64 (1 / 10) = 3602879701896397 / 36028797018963968
    ∧ roundFloat64 (7 / 10) = 3152519739159347 / 4503599627370496
    ∧ roundFloat64 3 = 3
    ∧ roundFloat64 (1 / 3) = 6004799503160661 / 18014398509481984
    ∧ roundFloat64 (40 * (6004799503160661 / 18014398509481984))
        = 3752999689475413 / 281474976710656
    ∧ roundFloat64 (10 / (6004799503160661 / 18014398509481984)) = 30
    ∧ roundFloat64 (3752999689475413 / 281474976710656 + 30)
        = 3049312247698773 / 70368744177664 := by
  decide!

/-- The loop over the matchables on the example entry: the label matches with raw score 10. -/
theorem bestMatch_entryFirefox :
    bestMatch scoreTen (goString "fir") entryFirefox = (0, 10) := by
  simp [bestMatch, matchables, matchStep, entryFirefox, zeroEntry, goString_examples,
    List.enum, List.enumFrom, scoreTen]

/-- Witness for C1: the label "firefox" matched by the query "fir" with raw score 10, and a
history record of 5 uses, 2 days ago, stored under the key "fir". In float64 arithmetic the
score is `40 × (1 / 3) + (10 × 1) / (1 / 3)` with each operation rounded, the float64
43.33333333333333 (3049312247698773 / 2 ^ 46), which is not `40 / 3 + 10 × 1 × 3`. -/
theorem fuzzyScore_formula_witness :
    fuzzyScoreRounded roundFloat64 scoreTen historyFir entryFirefox (goString "fir") none
        = 3049312247698773 / 70368744177664
    ∧ (3049312247698773 / 70368744177664 : ℚ) ≠ 40 / 3 + 10 * 1 * 3
    ∧ ∃ (k : Nat) (t : GoString), (matchables entryFirefox)[k]? = some t ∧ t ≠ []
      ∧ fuzzyScoreRounded roundFloat64 scoreTen historyFir entryFirefox (goString "fir") none
        = roundFloat64 (roundFloat64 (roundFloat64
                (usageModifier (mergeHistory historyFir (goString "fir") entryFirefox) : ℚ)
              * roundFloat64 (1 / roundFloat64 ((goString "fir").length : ℚ)))
            + roundFloat64 (roundFloat64 (scoreTen (goString "fir") t
                * max (roundFloat64 (7 / 10))
                  (roundFloat64 (1 - roundFloat64 (roundFloat64 (1 / 10) * roundFloat64 (k : ℚ)))))
              / roundFloat64 (1 / roundFloat64 ((goString "fir").length : ℚ)))) := by
  refine ⟨by decide!, by norm_num, ?_⟩
  obtain ⟨k, t, h1, h2, _, _, h5, _⟩ := fuzzyScore_formula roundFloat64 scoreTen historyFir
    entryFirefox (goString "fir") none rfl (by decide)
    ⟨goString "firefox", by decide, by decide, by norm_num [scoreTen]⟩
  exact ⟨k, t, h1, h2, h5⟩

end Walker

namespace Walker

/-! ## C6: which history records are merged -/

/-- Taking over a record keeps the identifier. -/
theorem takeRecord_identifier (e : Entry) (val : HistoryEntry) :
    (takeRecord e val).Identifier = e.Identifier := by
  unfold takeRecord
  split_ifs <;> rfl

/-- The history loop of `fuzzyScore` takes over, in turn, the records of the entry's identifier
stored under the keys that start with the query. -/
theorem mergeHistory_eq_foldl (hstry : History) (text : GoString) (entry : Entry) :
    mergeHistory hstry text entry
      = (relevantRecords hstry text entry.Identifier).foldl takeRecord entry := by
  unfold mergeHistory relevantRecords
  induction hstry generalizing entry with
  | nil => rfl
  | cons kv rest ih =>
    rw [List.foldl_cons, ih, List.filterMap_cons]
    unfold mergeStep
    by_cases hp : HasPrefix kv.1 text = true
    · rw [if_pos hp, if_pos hp]
      cases hl : List.lookup entry.Identifier kv.2 with
      | none => rfl
      | some val => simp only [takeRecord_identifier, List.foldl_cons]
    · rw [if_neg hp, if_neg hp]

/-- Taking over records with times not before the zero time, the last-used time of the entry
never decreases, ends at least as recent as every record, and the usage fields end as those
of the entry or of one of the records. -/
theorem foldl_takeRecord_latest (rs : List HistoryEntry) (e : Entry) (he : 0 ≤ e.LastUsed)
    (hrs : ∀ r ∈ rs, 0 ≤ r.LastUsed) :
    e.LastUsed ≤ (rs.foldl takeRecord e).LastUsed
    ∧ (∀ r ∈ rs, r.LastUsed ≤ (rs.foldl takeRecord e).LastUsed)
    ∧ (((rs.foldl takeRecord e).Used, (rs.foldl takeRecord e).DaysSinceUsed,
          (rs.foldl takeRecord e).LastUsed) = (e.Used, e.DaysSinceUsed, e.LastUsed)
      ∨ ∃ r ∈ rs, ((rs.foldl takeRecord e).Used, (rs.foldl takeRecord e).DaysSinceUsed,
          (rs.foldl takeRecord e).LastUsed) = (r.Used, r.DaysSinceUsed, r.LastUsed)) := by
  induction rs generalizing e with
  | nil =>
    refine ⟨le_refl _, ?_, Or.inl rfl⟩
    intro r hr
    simp at hr
  | cons r rest ih =>
    have hr0 : 0 ≤ r.LastUsed := hrs r (List.mem_cons_self _ _)
    have hrest : ∀ x ∈ rest, 0 ≤ x.LastUsed := fun x hx => hrs x (List.mem_cons_of_mem _ hx)
    have hstep : e.LastUsed ≤ (takeRecord e r).LastUsed ∧ r.LastUsed ≤ (takeRecord e r).LastUsed
        ∧ (((takeRecord e r).Used, (takeRecord e r).DaysSinceUsed, (takeRecord e r).LastUsed)
              = (e.Used, e.DaysSinceUsed, e.LastUsed)
          ∨ ((takeRecord e r).Used, (takeRecord e r).DaysSinceUsed, (takeRecord e r).LastUsed)
              = (r.Used, r.DaysSinceUsed, r.LastUsed)) := by
      unfold takeRecord
      split_ifs with hc
      · refine ⟨?_, le_refl _, Or.inr rfl⟩
        rcases hc with h0 | hgt
        · show e.LastUsed ≤ r.LastUsed
          rw [h0]; exact hr0
        · exact le_of_lt hgt
      · refine ⟨le_refl _, ?_, Or.inl rfl⟩
        have := not_or.mp hc
        exact not_lt.mp this.2
    obtain ⟨ih1, ih2, ih3⟩ := ih (takeRecord e r) (le_trans he hstep.1) hrest
    rw [List.foldl_cons]
    refine ⟨le_trans hstep.1 ih1, ?_, ?_⟩
    · intro x hx
      rcases List.mem_cons.mp hx with hxr | hxr
      · rw [hxr]; exact le_trans hstep.2.1 ih1
      · exact ih2 x hxr
    · rcases ih3 with h | ⟨x, hx, h⟩
      · rcases hstep.2.2 with h2 | h2
        · exact Or.inl (h.trans h2)
        · exact Or.inr ⟨r, List.mem_cons_self _ _, h.trans h2⟩
      · exact Or.inr ⟨x, List.mem_cons_of_mem _ hx, h⟩

/-- The score of `fuzzyScore` reads the history only through the relevant records. -/
theorem fuzzyScore_congr_history (FuzzyScore : GoString → GoString → ℚ) (h1 h2 : History)
    (entry : Entry) (text : GoString) (hyprland : Option (GoString → Int))
    (hrel : relevantRecords h1 text entry.Identifier = relevantRecords h2 text entry.Identifier) :
    fuzzyScore FuzzyScore h1 entry text hyprland = fuzzyScore FuzzyScore h2 entry text hyprland := by
  by_cases htext : text = []
  · simp [fuzzyScore, fuzzyScoreLocal, htext]
  · by_cases hbest : (bestMatch FuzzyScore text entry).2 = 0
    · rw [fuzzyScore_of_no_match _ _ _ _ _ htext hbest,
        fuzzyScore_of_no_match _ _ _ _ _ htext hbest]
    · rw [fuzzyScore_of_match _ _ _ _ _ htext hbest, fuzzyScore_of_match _ _ _ _ _ htext hbest,
        mergeHistory_eq_foldl h1, mergeHistory_eq_foldl h2, hrel]

end Walker

namespace Walker

/-- Dropping the keys that do not start with the query keeps the relevant records. -/
theorem relevantRecords_filter (hstry : History) (text id : GoString) :
    relevantRecords (hstry.filter (fun kv => HasPrefix kv.1 text)) text id
      = relevantRecords hstry text id := by
  unfold relevantRecords
  induction hstry with
  | nil => rfl
  | cons kv rest ih =>
    by_cases hp : HasPrefix kv.1 text = true
    · simp only [List.filter_cons, hp, if_true, List.filterMap_cons, ih]
    · have hf : HasPrefix kv.1 text = false := by simpa using hp
      simp [List.filter_cons, hf, List.filterMap_cons, ih]

/-- C6 (as stated, refuted): the query is "fir" and the entry "firefox" has raw score 10 and no
usage of its own. A record stored under the key "firefox", which is not a prefix of the query,
raises the score from 30 to `40 / 3 + 30`; the same record stored under the key "f", which is
a prefix of the query, leaves the score at 30. -/
theorem fuzzyScore_history_key_direction :
    HasPrefix (goString "fir") (goString "firefox") = false
    ∧ fuzzyScore scoreTen [] entryFirefox (goString "fir") none = 30
    ∧ fuzzyScore scoreTen [(goString "firefox", [(goString "ff", recordFive)])] entryFirefox
        (goString "fir") none = 40 / 3 + 30
    ∧ HasPrefix (goString "fir") (goString "f") = true
    ∧ fuzzyScore scoreTen [(goString "f", [(goString "ff", recordFive)])] entryFirefox
        (goString "fir") none = 30 := by
  have hb : (bestMatch scoreTen (goString "fir") entryFirefox).2 ≠ 0 := by
    rw [bestMatch_entryFirefox]
    norm_num
  refine ⟨by decide, ?_, ?_, by decide, ?_⟩
  · rw [fuzzyScore_of_match _ _ _ _ _ (by decide) hb, bestMatch_entryFirefox]
    norm_num [entryFirefox, zeroEntry, goString_examples, depthFactor, usageModifier,
      mergeHistory]
  · rw [fuzzyScore_of_match _ _ _ _ _ (by decide) hb, bestMatch_entryFirefox]
    norm_num [entryFirefox, zeroEntry, goString_examples, depthFactor, usageModifier,
      mergeHistory, mergeStep, HasPrefix, takeRecord, recordFive, wrapInt, List.lookup]
  · rw [fuzzyScore_of_match _ _ _ _ _ (by decide) hb, bestMatch_entryFirefox]
    norm_num [entryFirefox, zeroEntry, goString_examples, depthFactor, usageModifier,
      mergeHistory, mergeStep, HasPrefix, takeRecord, recordFive, wrapInt, List.lookup]

/-- C6 (amended): in `fuzzyScore` the usage statistics that enter the usage score come from the
entry merged, in iteration order, with exactly the history records of the entry's identifier
whose key starts with the query text (the query is a prefix of the key); a record is taken
over when the entry has no last-used time or the record's is more recent, so that, with times
not before the zero time, the merged last-used time is at least the entry's own and that of
every such record, and the merged usage fields are the entry's own or those of one such
record; a history that has the same such records gives the same score, in particular the
records stored under keys that do not start with the query text never influence it. -/
theorem fuzzyScore_history_merge (FuzzyScore : GoString → GoString → ℚ) (hstry : History)
    (entry : Entry) (text : GoString) (hyprland : Option (GoString → Int))
    (he : 0 ≤ entry.LastUsed)
    (hrs : ∀ r ∈ relevantRecords hstry text entry.Identifier, 0 ≤ r.LastUsed) :
    mergeHistory hstry text entry
        = (relevantRecords hstry text entry.Identifier).foldl takeRecord entry
    ∧ (text ≠ [] → (bestMatch FuzzyScore text entry).2 ≠ 0 →
        fuzzyScore FuzzyScore hstry entry text hyprland
          = (usageModifier ((relevantRecords hstry text entry.Identifier).foldl takeRecord entry)
                : ℚ) / (text.length : ℚ)
            + (bestMatch FuzzyScore text entry).2
              * depthFactor (bestMatch FuzzyScore text entry).1 * (text.length : ℚ))
    ∧ entry.LastUsed ≤ (mergeHistory hstry text entry).LastUsed
    ∧ (∀ r ∈ relevantRecords hstry text entry.Identifier,
        r.LastUsed ≤ (mergeHistory hstry text entry).LastUsed)
    ∧ (((mergeHistory hstry text entry).Used, (mergeHistory hstry text entry).DaysSinceUsed,
          (mergeHistory hstry text entry).LastUsed)
            = (entry.Used, entry.DaysSinceUsed, entry.LastUsed)
      ∨ ∃ r ∈ relevantRecords hstry text entry.Identifier,
          ((mergeHistory hstry text entry).Used, (mergeHistory hstry text entry).DaysSinceUsed,
            (mergeHistory hstry text entry).LastUsed) = (r.Used, r.DaysSinceUsed, r.LastUsed))
    ∧ (∀ other : History,
        relevantRecords other text entry.Identifier
            = relevantRecords hstry text entry.Identifier →
          fuzzyScore FuzzyScore other entry text hyprland
            = fuzzyScore FuzzyScore hstry entry text hyprland)
    ∧ fuzzyScore FuzzyScore (hstry.filter (fun kv => HasPrefix kv.1 text)) entry text hyprland
        = fuzzyScore FuzzyScore hstry entry text hyprland := by
  obtain ⟨h1, h2, h3⟩ :=
    foldl_takeRecord_latest (relevantRecords hstry text entry.Identifier) entry he hrs
  rw [← mergeHistory_eq_foldl] at h1 h2 h3
  refine ⟨mergeHistory_eq_foldl hstry text entry, ?_, h1, h2, h3, ?_, ?_⟩
  · intro htext hbest
    rw [fuzzyScore_of_match _ _ _ _ _ htext hbest, mergeHistory_eq_foldl]
  · intro other hother
    exact fuzzyScore_congr_history FuzzyScore other hstry entry text hyprland hother
  · exact fuzzyScore_congr_history FuzzyScore _ hstry entry text hyprland
      (relevantRecords_filter hstry text entry.Identifier)

/-- Witness for C6: the query "fir", the entry "firefox" and a history with one record under
the key "fire" and one under the key "f". -/
theorem fuzzyScore_history_merge_witness :
    (mergeHistory [(goString "fire", [(goString "ff", recordFive)]),
        (goString "f", [(goString "ff", { Used := 9, DaysSinceUsed := 1, LastUsed := 300 })])]
        (goString "fir") entryFirefox).LastUsed = 100
    ∧ ∀ r ∈ relevantRecords [(goString "fire", [(goString "ff", recordFive)]),
        (goString "f", [(goString "ff", { Used := 9, DaysSinceUsed := 1, LastUsed := 300 })])]
        (goString "fir") entryFirefox.Identifier,
      r.LastUsed ≤ (mergeHistory [(goString "fire", [(goString "ff", recordFive)]),
        (goString "f", [(goString "ff", { Used := 9, DaysSinceUsed := 1, LastUsed := 300 })])]
        (goString "fir") entryFirefox).LastUsed :=
  ⟨by decide,
    (fuzzyScore_history_merge scoreTen
      [(goString "fire", [(goString "ff", recordFive)]),
        (goString "f", [(goString "ff", { Used := 9, DaysSinceUsed := 1, LastUsed := 300 })])]
      entryFirefox (goString "fir") none (by decide) (by decide)).2.2.2.1⟩

end Walker

namespace Walker

/-! ## C7: the history merge and the batch -/

/-- The scoring step of a provider task leaves the usage fields of the entry as the provider
returned them. -/
theorem scoreEntry_usageKey (FuzzyScore : GoString → GoString → ℚ) (hstry : History)
    (hyprland : Option (GoString → Int)) (text : GoString) (e : Entry) :
    usageKey (scoreEntry FuzzyScore hstry hyprland text e) = usageKey e := by
  unfold scoreEntry resetScore
  cases hr : e.RecalculateScore <;> cases hm : e.Matching <;>
    by_cases hs : e.ScoreFinal = 0 <;> simp [hs, hm, usageKey]

/-- C7 (the code at the failing input): the provider returns the `Fuzzy` entry "firefox" with
no usage of its own, the query is "fir" and the history holds, under the key "fir", a record
of 5 uses, 2 days ago, last at the instant 100. Inside `fuzzyScore` the local copy of the entry
takes the record over and the score `40 / 3 + 30` counts it, but the entry of the batch still
has `usageCount = 0`, `daysSinceLastUse = 0` and no `lastUsedAt`; and in general the scoring
step never changes the usage fields of an entry. -/
theorem providerTask_keeps_provider_usage :
    (fuzzyScoreLocal scoreTen historyFir entryFirefox (goString "fir") none).2.Used = 5
    ∧ (fuzzyScoreLocal scoreTen historyFir entryFirefox (goString "fir") none).2.DaysSinceUsed = 2
    ∧ (fuzzyScoreLocal scoreTen historyFir entryFirefox (goString "fir") none).2.LastUsed = 100
    ∧ providerTask scoreTen historyFir none (goString "fir") providerFirefox
        = [{ entryFirefox with ScoreFinal := 40 / 3 + 30 }]
    ∧ (∀ x ∈ providerTask scoreTen historyFir none (goString "fir") providerFirefox,
        x.Used = 0 ∧ x.DaysSinceUsed = 0 ∧ x.LastUsed = 0)
    ∧ ∀ (FuzzyScore : GoString → GoString → ℚ) (hstry : History)
        (hyprland : Option (GoString → Int)) (text : GoString) (e : Entry),
        usageKey (scoreEntry FuzzyScore hstry hyprland text e) = usageKey e := by
  have hb : (bestMatch scoreTen (goString "fir") entryFirefox).2 ≠ 0 := by
    rw [bestMatch_entryFirefox]
    norm_num
  have hlocal : (fuzzyScoreLocal scoreTen historyFir entryFirefox (goString "fir") none).2
      = mergeHistory historyFir (goString "fir")
          { entryFirefox with ScoreFuzzy := 10 * depthFactor 0 } := by
    have hlen : (goString "fir").length ≠ 0 := by decide
    simp only [fuzzyScoreLocal, if_neg hlen, withWindows, bestMatch_entryFirefox]
    norm_num
  have hscore : fuzzyScore scoreTen historyFir entryFirefox (goString "fir") none
      = 40 / 3 + 30 := by
    rw [fuzzyScore_of_match _ _ _ _ _ (by decide) hb, bestMatch_entryFirefox]
    norm_num [historyFir, entryFirefox, zeroEntry, goString_examples, depthFactor,
      usageModifier, mergeHistory, mergeStep, HasPrefix, takeRecord, recordFive, wrapInt,
      List.lookup]
  have hbatch : providerTask scoreTen historyFir none (goString "fir") providerFirefox
      = [{ entryFirefox with ScoreFinal := 40 / 3 + 30 }] := by
    have hse : scoreEntry scoreTen historyFir none (goString "fir") entryFirefox
        = { entryFirefox with ScoreFinal := 40 / 3 + 30 } := by
      have h0 : resetScore entryFirefox = entryFirefox := rfl
      have h1 : toMatch entryFirefox (goString "fir") = goString "fir" := rfl
      have h2 : entryFirefox.ScoreFinal = 0 := rfl
      have h3 : entryFirefox.Matching = MatchingType.Fuzzy := rfl
      simp only [scoreEntry, h0, h1, h2, h3, hscore, if_true]
    have hne : (40 / 3 + 30 : ℚ) ≠ 0 := by norm_num
    simp [providerTask, pushLoop, providerFirefox, hse, hne]
  refine ⟨?_, ?_, ?_, hbatch, ?_, scoreEntry_usageKey⟩
  · rw [hlocal]; decide
  · rw [hlocal]; decide
  · rw [hlocal]; decide
  · intro x hx
    rw [hbatch, List.mem_singleton] at hx
    rw [hx]
    exact ⟨rfl, rfl, rfl⟩

end Walker

namespace Walker

/-! ## C5: routing by the first character -/

/-- The encoding of a code point is never empty. -/
theorem utf8EncodeRune_ne_nil (v : Nat) : utf8EncodeRune v ≠ [] := by
  unfold utf8EncodeRune
  split_ifs <;> simp

/-- An ASCII code point is encoded by itself. -/
theorem utf8EncodeRune_ascii (v : Nat) (h : v < 128) : utf8EncodeRune v = [v] := by
  unfold utf8EncodeRune
  rw [if_pos (by omega)]

/-- A code point beyond ASCII is encoded by a first byte of at least 128 and at least one more
byte. -/
theorem utf8EncodeRune_not_ascii (v : Nat) (h : 128 ≤ v) :
    ∃ (b : Nat) (rest : List Nat), utf8EncodeRune v = b :: rest ∧ 128 ≤ b ∧ rest ≠ [] := by
  unfold utf8EncodeRune
  rw [if_neg (by omega)]
  split_ifs
  · exact ⟨_, _, rfl, by omega, by simp⟩
  · exact ⟨_, _, rfl, by omega, by simp⟩
  · exact ⟨_, _, rfl, by omega, by simp⟩

/-- The bytes of a text: those of its first character, then those of the rest. -/
theorem goString_mk_cons (c : Char) (cs : List Char) :
    goString (String.mk (c :: cs)) = utf8EncodeRune c.toNat ++ goString (String.mk cs) := by
  simp [goString]

/-- Only the empty text has no bytes. -/
theorem goString_eq_nil (k : String) : goString k = [] ↔ k = "" := by
  constructor
  · intro h
    rcases k with ⟨data⟩
    cases data with
    | nil => rfl
    | cons c cs =>
      rw [goString_mk_cons] at h
      exact absurd (List.append_eq_nil.mp h).1 (utf8EncodeRune_ne_nil _)
  · intro h
    rw [h]
    rfl

/-- A text is the single byte `b` exactly when it is the single ASCII character of code `b`. -/
theorem goString_eq_singleton (k : String) (b : Nat) :
    goString k = [b] ↔ ∃ c : Char, c.toNat < 128 ∧ c.toNat = b ∧ k = String.singleton c := by
  constructor
  · intro h
    rcases k with ⟨data⟩
    cases data with
    | nil => simp [goString] at h
    | cons c cs =>
      rw [goString_mk_cons] at h
      by_cases hc : c.toNat < 128
      · rw [utf8EncodeRune_ascii _ hc] at h
        simp only [List.singleton_append, List.cons.injEq] at h
        have hcs : String.mk cs = "" := (goString_eq_nil _).mp h.2
        have hcs2 : cs = [] := by
          have := congrArg String.data hcs
          simpa using this
        refine ⟨c, hc, h.1, ?_⟩
        rw [hcs2]
        rfl
      · obtain ⟨b0, rest, henc, _, hrest⟩ := utf8EncodeRune_not_ascii c.toNat (by omega)
        rw [henc] at h
        simp only [List.cons_append, List.cons.injEq, List.append_eq_nil] at h
        exact absurd h.2.1 hrest
  · rintro ⟨c, hc, hb, hk⟩
    rw [hk, ← hb]
    show goString (String.mk [c]) = _
    rw [goString_mk_cons, utf8EncodeRune_ascii _ hc]
    rfl

end Walker

namespace Walker

/-- A character is determined by its code. -/
theorem char_eq_of_toNat_eq (c d : Char) (h : c.toNat = d.toNat) : c = d := by
  rw [← Char.ofNat_toNat c, ← Char.ofNat_toNat d, h]

/-- Reading the registry at a key that encodes exactly one prefix text reads what is
registered under that text. -/
theorem lookup_encodeProcs (reg : List (String × List Workable)) (key : GoString) (k0 : String)
    (h : ∀ k : String, goString k = key ↔ k = k0) :
    procsGet (encodeProcs reg) key = reg.lookup k0 := by
  unfold procsGet encodeProcs
  induction reg with
  | nil => rfl
  | cons kv rest ih =>
    rw [List.map_cons, List.lookup_cons, List.lookup_cons, ih]
    by_cases hk : kv.1 = k0
    · have h1 : (key == goString kv.1) = true := by
        rw [beq_iff_eq]; exact ((h kv.1).mpr hk).symm
      have h2 : (k0 == kv.1) = true := by
        rw [beq_iff_eq]; exact hk.symm
      rw [h1, h2]
    · have h1 : (key == goString kv.1) = false := by
        rw [beq_eq_false_iff_ne]
        intro heq
        exact hk ((h kv.1).mp heq.symm)
      have h2 : (k0 == kv.1) = false := by
        rw [beq_eq_false_iff_ne]
        exact fun heq => hk heq.symm
      rw [h1, h2]

/-- Reading the registry at a key that encodes no text finds nothing. -/
theorem lookup_encodeProcs_none (reg : List (String × List Workable)) (key : GoString)
    (h : ∀ k : String, goString k ≠ key) : procsGet (encodeProcs reg) key = none := by
  unfold procsGet encodeProcs
  induction reg with
  | nil => rfl
  | cons kv rest ih =>
    rw [List.map_cons, List.lookup_cons, ih]
    have h1 : (key == goString kv.1) = false := by
      rw [beq_eq_false_iff_ne]
      exact fun heq => h kv.1 heq.symm
    rw [h1]

/-- C5: with no pinned provider and no allow-list, for every registry and every query text:
when the query is empty, or its first character is not ASCII, or nothing is registered under
its first character, the selected providers are those registered under the empty prefix and
the text is passed on unchanged; when providers are registered under its (ASCII) first
character, exactly those are selected and the text passed on is the query without that
character. -/
theorem selectProcs_by_first_character (reg : List (String × List Workable)) (text : String) :
    selectProcs (encodeProcs reg) none [] (goString text)
      = match text.data with
        | [] => ((reg.lookup "").getD [], goString text)
        | c :: cs =>
          if c.toNat < 128 then
            match reg.lookup (String.singleton c) with
            | some p => (p, goString (String.mk cs))
            | none => ((reg.lookup "").getD [], goString text)
          else ((reg.lookup "").getD [], goString text) := by
  have hempty : procsGet (encodeProcs reg) [] = reg.lookup "" :=
    lookup_encodeProcs reg [] "" (fun k => goString_eq_nil k)
  rcases text with ⟨data⟩
  cases data with
  | nil =>
    show selectProcs (encodeProcs reg) none [] [] = _
    simp only [selectProcs, List.length_nil, Nat.not_lt_zero, if_false, hempty]
    have hnil : goString (String.mk []) = [] := rfl
    cases reg.lookup "" <;> simp [TrimPrefix, HasPrefix, hnil]
  | cons c cs =>
    simp only []
    by_cases hc : c.toNat < 128
    · rw [if_pos hc]
      have hbytes : goString (String.mk (c :: cs)) = c.toNat :: goString (String.mk cs) := by
        rw [goString_mk_cons, utf8EncodeRune_ascii _ hc]
        rfl
      have hpre : (if (goString (String.mk (c :: cs))).length > 1
          then (goString (String.mk (c :: cs))).take 1 else goString (String.mk (c :: cs)))
          = [c.toNat] := by
        rw [hbytes]
        cases hrest : goString (String.mk cs) with
        | nil => simp
        | cons b bs => simp
      have hkey : procsGet (encodeProcs reg) [c.toNat] = reg.lookup (String.singleton c) := by
        apply lookup_encodeProcs
        intro k
        rw [goString_eq_singleton]
        constructor
        · rintro ⟨d, _, hd, hk⟩
          rw [hk, char_eq_of_toNat_eq d c hd]
        · intro hk
          exact ⟨c, hc, rfl, hk⟩
      simp only [selectProcs, hpre, hkey, List.length_nil, Nat.lt_irrefl, if_false]
      cases reg.lookup (String.singleton c) with
      | none => simp only [hempty]
      | some p =>
        simp only [hbytes]
        simp [TrimPrefix, HasPrefix]
    · rw [if_neg hc]
      obtain ⟨b, rest, henc, hb, hrest⟩ := utf8EncodeRune_not_ascii c.toNat (by omega)
      have hbytes : goString (String.mk (c :: cs)) = b :: (rest ++ goString (String.mk cs)) := by
        rw [goString_mk_cons, henc]
        rfl
      have hpre : (if (goString (String.mk (c :: cs))).length > 1
          then (goString (String.mk (c :: cs))).take 1 else goString (String.mk (c :: cs)))
          = [b] := by
        rw [hbytes]
        cases rest with
        | nil => exact absurd rfl hrest
        | cons r rs => simp
      have hkey : procsGet (encodeProcs reg) [b] = none := by
        apply lookup_encodeProcs_none
        intro k hk
        obtain ⟨d, hd, hdb, _⟩ := (goString_eq_singleton k b).mp hk
        omega
      simp only [selectProcs, hpre, hkey, hempty, List.length_nil, Nat.lt_irrefl, if_false]

end Walker

namespace Walker

/-! ## C14: transitivity of the comparison -/

/-- Between entries of the same policy class the four policy tests of the comparison fail. -/
theorem compareEntries_of_rank_eq (cfg : Config) (a b : Entry)
    (h : policyRank a = policyRank b) : compareEntries cfg a b = compareSameClass cfg a b := by
  unfold policyRank at h
  unfold compareEntries compareSameClass
  cases ha : a.Matching <;> cases hb : b.Matching <;> simp_all

/-- The comparison orders `a` before `b` exactly when `a` is of a lower policy class, or of the
same class and ordered first by the tests that follow. -/
theorem compareEntries_neg_iff (cfg : Config) (a b : Entry) :
    compareEntries cfg a b < 0
      ↔ policyRank a < policyRank b
        ∨ (policyRank a = policyRank b ∧ compareSameClass cfg a b < 0) := by
  rcases lt_trichotomy (policyRank a) (policyRank b) with h | h | h
  · rw [compareEntries_of_rank_lt cfg a b h]
    exact ⟨fun _ => Or.inl h, fun _ => by decide⟩
  · rw [compareEntries_of_rank_eq cfg a b h]
    exact ⟨fun hc => Or.inr ⟨h, hc⟩, fun hc => hc.elim (fun hlt => absurd h (ne_of_lt hlt)) (·.2)⟩
  · rw [compareEntries_of_rank_gt cfg a b h]
    constructor
    · intro hc
      exact absurd hc (by decide)
    · rintro (hlt | ⟨heq, _⟩)
      · exact absurd hlt (not_lt.mpr (le_of_lt h))
      · exact absurd heq (ne_of_gt h)

/-- `Time.Compare` is negative exactly on an earlier first argument. -/
theorem timeCompare_neg_iff (t u : Time) : timeCompare t u < 0 ↔ t < u := by
  unfold timeCompare
  split_ifs with h1 h2
  · exact ⟨fun _ => h1, fun _ => by decide⟩
  · exact ⟨fun hc => absurd hc (by decide), fun hc => absurd hc h1⟩
  · exact ⟨fun hc => absurd hc (by decide), fun hc => absurd hc h1⟩

/-- Among entries that both have a last-used time, the tests after the policy tests order by
window count (in context-aware mode), then by higher score, then by later use. -/
theorem compareSameClass_neg_iff_used (cfg : Config) (a b : Entry) (ha : a.LastUsed ≠ 0)
    (hb : b.LastUsed ≠ 0) :
    compareSameClass cfg a b < 0
      ↔ ((cfg.ContextAwareHistory && cfg.IsService) = true ∧ a.OpenWindows < b.OpenWindows)
        ∨ (((cfg.ContextAwareHistory && cfg.IsService) = true → a.OpenWindows = b.OpenWindows)
          ∧ (b.ScoreFinal < a.ScoreFinal
            ∨ (a.ScoreFinal = b.ScoreFinal ∧ b.LastUsed < a.LastUsed))) := by
  unfold compareSameClass
  by_cases c1 : (cfg.ContextAwareHistory && cfg.IsService) = true ∧ a.LastUsed ≠ 0
      ∧ b.LastUsed ≠ 0 ∧ a.OpenWindows > b.OpenWindows
  · rw [if_pos c1]
    constructor
    · intro hc
      exact absurd hc (by decide)
    · rintro (h | ⟨h, _⟩)
      · exact absurd h.2 (not_lt.mpr (le_of_lt c1.2.2.2))
      · exact absurd (h c1.1) (ne_of_gt c1.2.2.2)
  · rw [if_neg c1]
    by_cases c2 : (cfg.ContextAwareHistory && cfg.IsService) = true ∧ a.LastUsed ≠ 0
        ∧ b.LastUsed ≠ 0 ∧ a.OpenWindows < b.OpenWindows
    · rw [if_pos c2]
      exact ⟨fun _ => Or.inl ⟨c2.1, c2.2.2.2⟩, fun _ => by decide⟩
    · rw [if_neg c2]
      have hw : (cfg.ContextAwareHistory && cfg.IsService) = true →
          a.OpenWindows = b.OpenWindows := by
        intro hctx
        rcases lt_trichotomy a.OpenWindows b.OpenWindows with h | h | h
        · exact absurd ⟨hctx, ha, hb, h⟩ c2
        · exact h
        · exact absurd ⟨hctx, ha, hb, h⟩ c1
      have hno : ¬ ((cfg.ContextAwareHistory && cfg.IsService) = true
          ∧ a.OpenWindows < b.OpenWindows) := fun h => c2 ⟨h.1, ha, hb, h.2⟩
      by_cases hs : a.ScoreFinal = b.ScoreFinal
      · rw [if_pos hs, if_pos ⟨ha, hb⟩, timeCompare_neg_iff]
        constructor
        · intro h
          exact Or.inr ⟨hw, Or.inr ⟨hs, h⟩⟩
        · rintro (h | ⟨_, h | h⟩)
          · exact absurd h hno
          · rw [hs] at h
            exact absurd h (lt_irrefl _)
          · exact h.2
      · rw [if_neg hs]
        by_cases hgt : a.ScoreFinal > b.ScoreFinal
        · rw [if_pos hgt]
          exact ⟨fun _ => Or.inr ⟨hw, Or.inl hgt⟩, fun _ => by decide⟩
        · rw [if_neg hgt]
          constructor
          · intro hc
            split_ifs at hc <;> exact absurd hc (by decide)
          · rintro (h | ⟨_, h | h⟩)
            · exact absurd h hno
            · exact absurd h hgt
            · exact absurd h.1 hs

/-- Between entries one of which has no last-used time, the tests after the policy tests order
by higher score, then by label. -/
theorem compareSameClass_neg_iff_unused (cfg : Config) (a b : Entry)
    (hab : ¬ (a.LastUsed ≠ 0 ∧ b.LastUsed ≠ 0)) :
    compareSameClass cfg a b < 0
      ↔ b.ScoreFinal < a.ScoreFinal
        ∨ (a.ScoreFinal = b.ScoreFinal ∧ stringsCompare a.Label b.Label < 0) := by
  have h1 : ¬ ((cfg.ContextAwareHistory && cfg.IsService) = true ∧ a.LastUsed ≠ 0
      ∧ b.LastUsed ≠ 0 ∧ a.OpenWindows > b.OpenWindows) := fun h => hab ⟨h.2.1, h.2.2.1⟩
  have h2 : ¬ ((cfg.ContextAwareHistory && cfg.IsService) = true ∧ a.LastUsed ≠ 0
      ∧ b.LastUsed ≠ 0 ∧ a.OpenWindows < b.OpenWindows) := fun h => hab ⟨h.2.1, h.2.2.1⟩
  unfold compareSameClass
  rw [if_neg h1, if_neg h2, if_neg hab]
  split_ifs with hs hlt hgt
  · exact ⟨fun h => Or.inr ⟨hs, h⟩, fun h => h.elim (fun h2 => absurd h2 (by rw [hs]; exact lt_irrefl _)) (·.2)⟩
  · exact ⟨fun _ => Or.inl hlt, fun _ => by decide⟩
  · exact ⟨fun hc => absurd hc (by decide),
      fun h => h.elim (fun h2 => absurd h2 hlt) (fun h2 => absurd h2.1 hs)⟩
  · exact ⟨fun hc => absurd hc (by decide),
      fun h => h.elim (fun h2 => absurd h2 hlt) (fun h2 => absurd h2.1 hs)⟩

/-- `strings.Compare` is negative exactly when a first differing byte is smaller or the first
string is a proper initial part of the second. -/
theorem stringsCompare_cons_neg_iff (x y : Nat) (xs ys : GoString) :
    stringsCompare (x :: xs) (y :: ys) < 0 ↔ x < y ∨ (x = y ∧ stringsCompare xs ys < 0) := by
  rw [stringsCompare]
  split_ifs with h1 h2
  · exact ⟨fun _ => Or.inl h1, fun _ => by decide⟩
  · constructor
    · intro hc
      exact absurd hc (by decide)
    · rintro (h | ⟨h, _⟩)
      · exact absurd h h1
      · exact absurd h (Nat.ne_of_gt h2)
  · have heq : x = y := Nat.le_antisymm (not_lt.mp h2) (not_lt.mp h1)
    exact ⟨fun hc => Or.inr ⟨heq, hc⟩, fun h => h.elim (fun h3 => absurd h3 h1) (·.2)⟩

/-- The order of `strings.Compare` is transitive. -/
theorem stringsCompare_trans (x y z : GoString) (hxy : stringsCompare x y < 0)
    (hyz : stringsCompare y z < 0) : stringsCompare x z < 0 := by
  induction x generalizing y z with
  | nil =>
    cases y with
    | nil => exact absurd hxy (by decide)
    | cons b ys =>
      cases z with
      | nil => exact absurd hyz (by simp [stringsCompare])
      | cons c zs => simp [stringsCompare]
  | cons a xs ih =>
    cases y with
    | nil => exact absurd hxy (by simp [stringsCompare])
    | cons b ys =>
      cases z with
      | nil => exact absurd hyz (by simp [stringsCompare])
      | cons c zs =>
        rw [stringsCompare_cons_neg_iff] at hxy hyz ⊢
        rcases hxy with h1 | ⟨h1, r1⟩
        · rcases hyz with h2 | ⟨h2, _⟩
          · exact Or.inl (lt_trans h1 h2)
          · exact Or.inl (h2 ▸ h1)
        · rcases hyz with h2 | ⟨h2, r2⟩
          · exact Or.inl (h1 ▸ h2)
          · exact Or.inr ⟨h1.trans h2, ih ys zs r1 r2⟩

/-- C14 (as stated, refuted): three `Fuzzy` entries with the same score, context-aware history
off: "b" last used at 100, "c" never used, "d" last used at 200. The comparison orders "b"
before "c" (by label) and "c" before "d" (by label) but "d" before "b" (by last use), so it is
not transitive, and the sorted result depends on the order of the input. -/
theorem compareEntries_not_transitive :
    compareEntries configPlain entryUsedEarly entryNeverUsed < 0
    ∧ compareEntries configPlain entryNeverUsed entryUsedLate < 0
    ∧ ¬ compareEntries configPlain entryUsedEarly entryUsedLate < 0
    ∧ compareEntries configPlain entryUsedLate entryUsedEarly < 0
    ∧ sortEntries configPlain [entryUsedEarly, entryNeverUsed, entryUsedLate]
        = [entryUsedEarly, entryNeverUsed, entryUsedLate]
    ∧ sortEntries configPlain [entryNeverUsed, entryUsedLate, entryUsedEarly]
        = [entryNeverUsed, entryUsedLate, entryUsedEarly] := by
  decide

/-- C14 (amended): in every configuration the comparison of `sortEntries` is transitive on
entries that all have a last-used time and on entries that all have none: if it orders `a`
before `b` and `b` before `c`, it orders `a` before `c`. -/
theorem compareEntries_trans_of_uniform_use (cfg : Config) (a b c : Entry)
    (huse : (a.LastUsed ≠ 0 ∧ b.LastUsed ≠ 0 ∧ c.LastUsed ≠ 0)
      ∨ (a.LastUsed = 0 ∧ b.LastUsed = 0 ∧ c.LastUsed = 0))
    (hab : compareEntries cfg a b < 0) (hbc : compareEntries cfg b c < 0) :
    compareEntries cfg a c < 0 := by
  rw [compareEntries_neg_iff] at hab hbc ⊢
  rcases hab with r1 | ⟨r1, t1⟩
  · rcases hbc with r2 | ⟨r2, _⟩
    · exact Or.inl (lt_trans r1 r2)
    · exact Or.inl (r2 ▸ r1)
  · rcases hbc with r2 | ⟨r2, t2⟩
    · exact Or.inl (r1 ▸ r2)
    · refine Or.inr ⟨r1.trans r2, ?_⟩
      rcases huse with ⟨ha, hb, hc⟩ | ⟨ha, hb, hc⟩
      · rw [compareSameClass_neg_iff_used cfg _ _ ha hb] at t1
        rw [compareSameClass_neg_iff_used cfg _ _ hb hc] at t2
        rw [compareSameClass_neg_iff_used cfg _ _ ha hc]
        rcases t1 with ⟨x1, w1⟩ | ⟨w1, s1⟩
        · rcases t2 with ⟨_, w2⟩ | ⟨w2, _⟩
          · exact Or.inl ⟨x1, lt_trans w1 w2⟩
          · exact Or.inl ⟨x1, (w2 x1) ▸ w1⟩
        · rcases t2 with ⟨x2, w2⟩ | ⟨w2, s2⟩
          · exact Or.inl ⟨x2, (w1 x2).symm ▸ w2⟩
          · refine Or.inr ⟨fun x => (w1 x).trans (w2 x), ?_⟩
            rcases s1 with s1 | ⟨e1, u1⟩
            · rcases s2 with s2 | ⟨e2, _⟩
              · exact Or.inl (lt_trans s2 s1)
              · exact Or.inl (e2 ▸ s1)
            · rcases s2 with s2 | ⟨e2, u2⟩
              · exact Or.inl (e1.symm ▸ s2)
              · exact Or.inr ⟨e1.trans e2, lt_trans u2 u1⟩
      · rw [compareSameClass_neg_iff_unused cfg _ _ (fun h => h.1 ha)] at t1
        rw [compareSameClass_neg_iff_unused cfg _ _ (fun h => h.1 hb)] at t2
        rw [compareSameClass_neg_iff_unused cfg _ _ (fun h => h.1 ha)]
        rcases t1 with s1 | ⟨e1, l1⟩
        · rcases t2 with s2 | ⟨e2, _⟩
          · exact Or.inl (lt_trans s2 s1)
          · exact Or.inl (e2 ▸ s1)
        · rcases t2 with s2 | ⟨e2, l2⟩
          · exact Or.inl (e1.symm ▸ s2)
          · exact Or.inr ⟨e1.trans e2, stringsCompare_trans _ _ _ l1 l2⟩

/-- Witness for C14: context-aware mode, three entries used at 100 with scores 5, 5 and 0 and
window counts 0, 1 and 1. -/
theorem compareEntries_trans_of_uniform_use_witness :
    compareEntries configContext entryUsedEarly { entryUsedEarly with OpenWindows := 1 } < 0
    ∧ compareEntries configContext { entryUsedEarly with OpenWindows := 1 }
        { entryUsedEarly with OpenWindows := 1, ScoreFinal := 0 } < 0
    ∧ compareEntries configContext entryUsedEarly
        { entryUsedEarly with OpenWindows := 1, ScoreFinal := 0 } < 0 :=
  ⟨by decide, by decide,
    compareEntries_trans_of_uniform_use configContext entryUsedEarly
      { entryUsedEarly with OpenWindows := 1 }
      { entryUsedEarly with OpenWindows := 1, ScoreFinal := 0 }
      (Or.inl ⟨by decide, by decide, by decide⟩) (by decide) (by decide)⟩

end Walker

namespace Walker

/-! ## C12: a pinned provider -/

/-- C12 (as stated, refuted): the provider "runner" is pinned, the registry holds the provider
"applications" under the empty prefix and the allow-list names "applications". The dispatch
loop iterates over "applications" and starts its task; the pinned provider is not used. -/
theorem selectProcs_allow_list_overrides_pin :
    providerRunner.Name = goString "runner"
    ∧ (selectProcs (encodeProcs [("", [providerFirefox])]) (some providerRunner)
        [goString "applications"] (goString "abc")).1.map (fun w => w.Name)
      = [goString "applications"]
    ∧ (startedTasks (encodeProcs [("", [providerFirefox])]) (some providerRunner)
        [goString "applications"] (goString "abc")).map (fun t => t.1.Name)
      = [goString "applications"] := by
  decide

/-- C12 (amended): whenever a single provider is pinned and there is no allow-list, for every
query text and registry the providers the dispatch loop iterates over are exactly that one
provider, its task is started and the text passed to it is the query text with no prefix
removed; with a non-empty allow-list the text is also passed unchanged, but the providers are
those of the registry that the allow-list names. -/
theorem selectProcs_pinned (procs : Procs) (sp : Workable) (text : GoString) (m : GoString)
    (ms : List GoString) :
    selectProcs procs (some sp) [] text = ([sp], text)
    ∧ startedTasks procs (some sp) [] text = [(sp, text)]
    ∧ selectProcs procs (some sp) (m :: ms) text = (explicitProcs procs (m :: ms), text) := by
  have hsel : selectProcs procs (some sp) [] text = ([sp], text) := by
    simp [selectProcs]
  refine ⟨hsel, ?_, ?_⟩
  · have hskip : skipsProc (some sp) false sp = false := by
      simp [skipsProc]
    simp [startedTasks, hsel, hskip]
  · simp [selectProcs]

end Walker

namespace Walker

/-! ## C13: cancellation of the listener -/

/-- A listener that has returned takes no further iteration. -/
theorem Listener.step_of_returned (cfg : Config) (s : Listener) (c : SelectCase)
    (hret : s.returned = true) : Listener.step cfg s c = none := by
  unfold Listener.step
  rw [if_pos hret]

/-- Whatever happens to a listener that has returned, its handler stays as it is. -/
theorem Listener.run_of_returned (cfg : Config) (actions : List Action) (s s1 : Listener)
    (hret : s.returned = true) (hrun : Listener.run cfg s actions = some s1) :
    s1.handler = s.handler ∧ s1.returned = true := by
  induction actions generalizing s with
  | nil =>
    simp only [Listener.run, Option.some.injEq] at hrun
    rw [← hrun]
    exact ⟨rfl, hret⟩
  | cons a rest ih =>
    cases a with
    | cancel =>
      simp only [Listener.run, Listener.act] at hrun
      exact ih (Listener.cancel s) hret hrun
    | iterate c =>
      simp only [Listener.run, Listener.act, Listener.step_of_returned cfg s c hret] at hrun
      exact absurd hrun (by simp)

/-- C13 (as stated, refuted): the context of a fresh listener is cancelled and a batch of one
entry arrives before the loop has taken the cancellation case. The receive case of the `select`
can proceed: the batch is merged into the list and published, after the cancellation. -/
theorem Listener.publish_after_cancel :
    (Listener.cancel Listener.start).cancelled = true
    ∧ (Listener.run configPlain Listener.start
        [Action.cancel, Action.iterate (SelectCase.receive [entryNeverUsed])]).map
          (fun s => (s.cancelled, s.handler.entries, s.handler.published))
      = some (true, [entryNeverUsed], [[entryNeverUsed]]) := by
  decide

/-- C13 (amended): in the step relation of the listener, cancellation is tested only as a case
of the `select`, next to the receive case. A cancelled listener that has not returned can take
the cancellation case, which makes it return, and cannot take `default`; a batch that is ready
at that point can still be received, and is then merged and published as usual. Once the
listener has taken the cancellation case no iteration is possible any more, and whatever
happens next its handler, hence its list and its publications, stays as it was. -/
theorem Listener.no_publish_after_return (cfg : Config) (s : Listener)
    (hcancel : s.cancelled = true) (hrun : s.returned = false) :
    Listener.step cfg s SelectCase.done = some { s with returned := true }
    ∧ Listener.step cfg s SelectCase.default = none
    ∧ (∀ batch : List Entry, Listener.step cfg s (SelectCase.receive batch)
        = some { s with handler := Handler.receive cfg s.handler batch })
    ∧ (∀ c : SelectCase, Listener.step cfg { s with returned := true } c = none)
    ∧ ∀ (actions : List Action) (s1 : Listener),
        Listener.run cfg { s with returned := true } actions = some s1 →
          s1.handler = s.handler ∧ s1.returned = true := by
  refine ⟨?_, ?_, ?_, ?_, ?_⟩
  · simp [Listener.step, hcancel, hrun]
  · simp [Listener.step, hcancel, hrun]
  · intro batch
    simp [Listener.step, hrun]
  · intro c
    exact Listener.step_of_returned cfg _ c rfl
  · intro actions s1 h
    exact Listener.run_of_returned cfg actions { s with returned := true } s1 rfl h

/-- Witness for C13: a fresh listener whose context has been cancelled takes the cancellation
case; a batch that arrives afterwards cannot be received. -/
theorem Listener.no_publish_after_return_witness :
    Listener.step configPlain (Listener.cancel Listener.start) SelectCase.done
        = some { Listener.cancel Listener.start with returned := true }
    ∧ Listener.step configPlain { Listener.cancel Listener.start with returned := true }
        (SelectCase.receive [entryNeverUsed]) = none :=
  ⟨(Listener.no_publish_after_return configPlain (Listener.cancel Listener.start) rfl rfl).1,
    (Listener.no_publish_after_return configPlain (Listener.cancel Listener.start) rfl
      rfl).2.2.2.1 (SelectCase.receive [entryNeverUsed])⟩

end Walker

namespace Walker

/-! ## C11: a label match against a category match -/

end Walker
